import Mathlib

/-!
# QuizApp: variant partitioner, session shuffler and quiz session

A shallow embedding of `src/src/App.jsx` (with the guards of
`src/src/components/QuestionScreen.jsx`) and the properties of its
specification.

Conventions of the embedding

* JavaScript arrays are `List`s; a JavaScript object used as a map with keys
  inserted in a known order is an association list in insertion order.
* 32-bit words are natural numbers below `2^32` (the bit pattern); the signed
  reading used by `| 0`, `&` and `Math.imul` is `toInt32`.
* A value of a random source is the fraction `num / den` in `[0, 1)`.
-/

namespace QuizApp

/-! ## 32-bit arithmetic -/

/-- The bit pattern (an unsigned 32-bit word) of an integer: `x >>> 0`. -/
def toUint32 (x : Int) : Nat := (x % 4294967296).toNat

/-- ToInt32 of JavaScript, as performed by `x | 0` and `x & x`. -/
def toInt32 (x : Int) : Int := (x + 2147483648) % 4294967296 - 2147483648

/-- The bit pattern of `Math.imul a b` for two words `a`, `b`. -/
def imul (a b : Nat) : Nat := (a * b) % 4294967296

/-! ## Double precision -/

/-- The number of halvings that bring `n` below 2, at most `fuel` of them. -/
def log2Floor.go : Nat → Nat → Nat
  | 0, _ => 0
  | fuel + 1, n => if n < 2 then 0 else log2Floor.go fuel (n / 2) + 1

/-- The integer part of the binary logarithm of `n` (0 for `n = 0`). -/
def log2Floor (n : Nat) : Nat := log2Floor.go n n

/-- The double nearest to the rational `num / den` (round to nearest, ties to
even) for `num, den > 0` in the normal range, as the pair `(m, e)` standing
for `m * 2^e` with `2^52 ≤ m ≤ 2^53`. -/
def roundToDouble (num den : Nat) : Nat × Int :=
  let e1 : Int := (log2Floor num : Int) - (log2Floor den : Int) - 52
  let e : Int :=
    if 2 ^ 52 * den * 2 ^ e1.toNat ≤ num * 2 ^ (-e1).toNat then e1 else e1 - 1
  let n := num * 2 ^ (-e).toNat
  let d := den * 2 ^ e.toNat
  let q := n / d
  let r := n % d
  let m := if d < 2 * r then q + 1 else if 2 * r < d then q else if q % 2 = 0 then q else q + 1
  (m, e)

/-- The double nearest to the integer `x` (for `|x| < 2^1024`): the value that
a JavaScript sum has when its exact result is `x`. Every integer of magnitude
below `2^53` is a double. -/
def doubleOfInt (x : Int) : Int :=
  if x.natAbs < 2 ^ 53 then x
  else
    let r := roundToDouble x.natAbs 1
    let v : Int := (r.1 : Int) * 2 ^ r.2.toNat
    if x < 0 then -v else v

/-! ## Random values -/

/-- A number `num / den` returned by a random source; `num < den` for every
value a source really returns, since it lies in `[0, 1)`. -/
structure RandomValue where
  num : Nat
  den : Nat
  deriving DecidableEq, Repr

/-- `Math.floor(r * n)` for a random value `r` and a natural number `n`: the
floor of the double nearest to the product. -/
def RandomValue.floorMul (r : RandomValue) (n : Nat) : Nat :=
  if r.num * n = 0 ∨ r.den = 0 then 0
  else
    let p := roundToDouble (r.num * n) r.den
    if 0 ≤ p.2 then p.1 * 2 ^ p.2.toNat else p.1 / 2 ^ (-p.2).toNat

/-- One call of the closure returned by `createSeededRandom` (mulberry32):
from the current `state` to the numerator `k` of the returned value
`k / 4294967296` and the new state. The sum `state + 0x6D2B79F5` is a sum of
doubles, exact when its magnitude is below `2^53`. -/
def mulberry32 (state : Int) : Nat × Int :=
  let state1 : Int := toInt32 (doubleOfInt (state + 0x6D2B79F5))
  let s : Nat := toUint32 state1
  let t : Nat := imul (s ^^^ (s >>> 15)) (1 ||| s)
  let t1 : Nat := ((t + imul (t ^^^ (t >>> 7)) (61 ||| t)) % 4294967296) ^^^ t
  ((t1 ^^^ (t1 >>> 14)) % 4294967296, state1)

/-- The closure state of `createSeededRandom seed` after `n` calls. -/
def createSeededRandom.state (seed : Int) : Nat → Int
  | 0 => seed
  | n + 1 => (mulberry32 (createSeededRandom.state seed n)).2

/-- The value returned by the `(n+1)`-th call of `createSeededRandom seed`. -/
def createSeededRandom (seed : Int) (n : Nat) : RandomValue :=
  ⟨(mulberry32 (createSeededRandom.state seed n)).1, 4294967296⟩

/-! ## String to seed -/

/-- The UTF-16 code units of one character. -/
def utf16Units (c : Char) : List Nat :=
  if c.toNat < 0x10000 then [c.toNat]
  else [0xD800 + (c.toNat - 0x10000) / 0x400, 0xDC00 + (c.toNat - 0x10000) % 0x400]

/-- The sequence `str.charCodeAt(0), ..., str.charCodeAt(str.length - 1)`. -/
def charCodes (str : String) : List Nat := (str.toList.map utf16Units).flatten

/-- The loop body of `stringToSeed`: `hash = ((hash << 5) - hash) + char`
followed by `hash = hash & hash`. -/
def stringToSeed.step (hash : Int) (char : Nat) : Int :=
  toInt32 ((toInt32 (hash * 32) - hash) + (char : Int))

/-- The hash of the code units of a string. -/
def stringToSeed.ofCodes (codes : List Nat) : Nat :=
  (codes.foldl stringToSeed.step 0).natAbs

/-- Embedding of `stringToSeed`. -/
def stringToSeed (str : String) : Nat := stringToSeed.ofCodes (charCodes str)

/-! ## Shuffles -/

/-- The destructuring swap `[a[i], a[j]] = [a[j], a[i]]` for indices in range
(the loops below only use `j ≤ i < a.length`). -/
def swapAt {α : Type} (a : List α) (i j : Nat) : List α :=
  match a[i]?, a[j]? with
  | some x, some y => (a.set i y).set j x
  | _, _ => a

/-- The loop of `shuffleArraySeeded`, entered with loop variable `i` and the
closure state `state`; it stops when `i = 0`. -/
def shuffleArraySeeded.loop {α : Type} : Nat → Int → List α → List α
  | 0, _, shuffled => shuffled
  | i + 1, state, shuffled =>
    let r := mulberry32 state
    let j := RandomValue.floorMul ⟨r.1, 4294967296⟩ (i + 1 + 1)
    shuffleArraySeeded.loop i r.2 (swapAt shuffled (i + 1) j)

/-- Embedding of `shuffleArraySeeded`. -/
def shuffleArraySeeded {α : Type} (array : List α) (seed : Int) : List α :=
  shuffleArraySeeded.loop (array.length - 1) seed array

/-- The loop of `shuffleArray`; `random n` is the value of the `(n+1)`-th call
of `Math.random` and `calls` the number of calls made so far. -/
def shuffleArray.loop {α : Type} (random : Nat → RandomValue) :
    Nat → Nat → List α → List α
  | 0, _, shuffled => shuffled
  | i + 1, calls, shuffled =>
    let j := (random calls).floorMul (i + 1 + 1)
    shuffleArray.loop random i (calls + 1) (swapAt shuffled (i + 1) j)

/-- Embedding of `shuffleArray`, with the stream of `Math.random` values made
explicit. It consumes `array.length - 1` values. -/
def shuffleArray {α : Type} (random : Nat → RandomValue) (array : List α) : List α :=
  shuffleArray.loop random (array.length - 1) 0 array

/-! ## Data model -/

/-- An answer option; `letter = none` is JavaScript's `undefined`. -/
structure AnswerOption where
  letter : Option String
  text : String
  deriving DecidableEq, Repr

/-- A question; `variant = none` when the field is absent. -/
structure Question where
  id : String
  question : String
  options : List AnswerOption
  correctAnswer : String
  variant : Option Nat
  deriving DecidableEq, Repr

/-- The fields of a question other than `id` and `variant`. -/
def Question.content (q : Question) : String × List AnswerOption × String :=
  (q.question, q.options, q.correctAnswer)

/-! ## Variant partitioner -/

/-- `array.slice(startIdx, endIdx)` for natural indices. -/
def slice {α : Type} (array : List α) (startIdx endIdx : Nat) : List α :=
  (array.drop startIdx).take (endIdx - startIdx)

/-- The object spread `{ ...q, id: variantNum-(idx+1), variant: variantNum }`. -/
def restamp (variantNum idx : Nat) (q : Question) : Question :=
  { q with id := toString variantNum ++ "-" ++ toString (idx + 1), variant := some variantNum }

/-- The number of variants computed by `generateVariantsFromFlat`. -/
def numVariants (n questionsPerVariant : Nat) : Nat :=
  let numFullVariants := n / questionsPerVariant
  let remainder := n % questionsPerVariant
  let createExtraVariant : Bool := decide (remainder > 20)
  if remainder > 0 ∧ createExtraVariant = true then numFullVariants + 1 else max 1 numFullVariants

/-- Embedding of `generateVariantsFromFlat` for `questionsPerVariant > 0`
(the invariant of a subject). The result object is the association list of
its entries in insertion order. -/
def generateVariantsFromFlat (allQuestions : List Question) (questionsPerVariant : Nat)
    (subjectId : String) : List (Nat × List Question) :=
  let numFullVariants := allQuestions.length / questionsPerVariant
  let remainder := allQuestions.length % questionsPerVariant
  let seed := stringToSeed (subjectId ++ "_variants")
  let shuffled := shuffleArraySeeded allQuestions seed
  let createExtraVariant : Bool := decide (remainder > 20)
  let numVariants :=
    if remainder > 0 ∧ createExtraVariant = true then numFullVariants + 1 else max 1 numFullVariants
  (List.range numVariants).map fun i =>
    let variantNum := i + 1
    let startIdx := i * questionsPerVariant
    let endIdx :=
      if createExtraVariant = true then
        (if i < numFullVariants then (i + 1) * questionsPerVariant else shuffled.length)
      else
        (if i = numVariants - 1 then shuffled.length else (i + 1) * questionsPerVariant)
    let variantQuestions := slice shuffled startIdx endIdx
    (variantNum, variantQuestions.mapIdx fun idx q => restamp variantNum idx q)

/-! ## Generator closures in a heap -/

/-- The variables `state` of the closures that `createSeededRandom` has
returned so far, in the order of their creation. -/
abbrev GeneratorHeap := List Int

/-- The call `createSeededRandom(seed)` with the closure variable made
explicit: a new cell that holds `seed`; its address stands for the closure. -/
def createSeededRandom.alloc (heap : GeneratorHeap) (seed : Int) : Nat × GeneratorHeap :=
  (heap.length, heap ++ [seed])

/-- One call of the closure at the address `cell`: it reads its variable
`state`, writes the new state and returns the value. -/
def createSeededRandom.call (heap : GeneratorHeap) (cell : Nat) :
    RandomValue × GeneratorHeap :=
  let r := mulberry32 (heap.getD cell 0)
  (⟨r.1, 4294967296⟩, heap.set cell r.2)

/-- The loop of `shuffleArraySeeded` with the generator `random` at the
address `cell` of the heap. -/
def shuffleArraySeeded.loopIn {α : Type} :
    Nat → Nat → GeneratorHeap → List α → List α × GeneratorHeap
  | 0, _, heap, shuffled => (shuffled, heap)
  | i + 1, cell, heap, shuffled =>
    let r := createSeededRandom.call heap cell
    let j := r.1.floorMul (i + 1 + 1)
    shuffleArraySeeded.loopIn i cell r.2 (swapAt shuffled (i + 1) j)

/-- Embedding of `shuffleArraySeeded` as a run in a heap of generators: it
creates its own generator and returns the shuffled list and the heap it
leaves. -/
def shuffleArraySeeded.run {α : Type} (heap : GeneratorHeap) (array : List α) (seed : Int) :
    List α × GeneratorHeap :=
  let random := createSeededRandom.alloc heap seed
  shuffleArraySeeded.loopIn (array.length - 1) random.1 random.2 array

/-- Embedding of `generateVariantsFromFlat` as a run in a heap of generators,
for `questionsPerVariant > 0`. -/
def generateVariantsFromFlat.run (heap : GeneratorHeap) (allQuestions : List Question)
    (questionsPerVariant : Nat) (subjectId : String) :
    List (Nat × List Question) × GeneratorHeap :=
  let numFullVariants := allQuestions.length / questionsPerVariant
  let remainder := allQuestions.length % questionsPerVariant
  let seed := stringToSeed (subjectId ++ "_variants")
  let shuffledRun := shuffleArraySeeded.run heap allQuestions seed
  let shuffled := shuffledRun.1
  let createExtraVariant : Bool := decide (remainder > 20)
  let numVariants :=
    if remainder > 0 ∧ createExtraVariant = true then numFullVariants + 1 else max 1 numFullVariants
  ((List.range numVariants).map fun i =>
    let variantNum := i + 1
    let startIdx := i * questionsPerVariant
    let endIdx :=
      if createExtraVariant = true then
        (if i < numFullVariants then (i + 1) * questionsPerVariant else shuffled.length)
      else
        (if i = numVariants - 1 then shuffled.length else (i + 1) * questionsPerVariant)
    let variantQuestions := slice shuffled startIdx endIdx
    (variantNum, variantQuestions.mapIdx fun idx q => restamp variantNum idx q),
   shuffledRun.2)

/-! ## Session shuffler -/

/-- The alphabet of option letters of `shuffleOptions`. -/
def letters : List String := ["а", "б", "в", "г", "д"]

/-- Embedding of `shuffleOptions`; `random` is the stream of `Math.random`
values from the call on. The options are shuffled before the correct option is
looked up, as in the source. -/
def shuffleOptions (random : Nat → RandomValue) (question : Question) : Question :=
  let shuffledOptions := shuffleArray random question.options
  match question.options.find? (fun o => o.letter == some question.correctAnswer) with
  | none => question
  | some correctOption =>
    let correctText := correctOption.text
    let newOptions : List AnswerOption :=
      shuffledOptions.mapIdx fun i opt => { letter := letters[i]?, text := opt.text }
    let newCorrectAnswer : String :=
      match newOptions.find? (fun o => o.text == correctText) with
      | some o =>
        (match o.letter with
         | some l => if l = "" then question.correctAnswer else l
         | none => question.correctAnswer)
      | none => question.correctAnswer
    { question with options := newOptions, correctAnswer := newCorrectAnswer }

/-- The call `list.map(shuffleOptions)`: the questions are processed in order
and the call for a question with `k` options consumes `k - 1` random values. -/
def mapShuffleOptions (random : Nat → RandomValue) : Nat → List Question → List Question
  | _, [] => []
  | calls, q :: qs =>
    shuffleOptions (fun n => random (calls + n)) q ::
      mapShuffleOptions random (calls + (q.options.length - 1)) qs

/-! ## JavaScript numbers of the result record -/

/-- A JavaScript number that is an integer, NaN or an infinity. -/
inductive JsNumber
  | finite (v : Int)
  | nan
  | posInf
  | negInf
  deriving DecidableEq, Repr

/-- The comparison `a > b` of JavaScript. -/
def JsNumber.gt : JsNumber → JsNumber → Bool
  | .nan, _ => false
  | _, .nan => false
  | .finite a, .finite b => decide (a > b)
  | .finite _, .negInf => true
  | .finite _, .posInf => false
  | .posInf, .posInf => false
  | .posInf, _ => true
  | .negInf, _ => false

/-- `Math.round` of the number `sign * m * 2^e`: the nearest integer, ties
towards plus infinity. -/
def mathRound (negative : Bool) (m : Nat) (e : Int) : Int :=
  let v : Int := if negative then -(m : Int) else (m : Int)
  if 0 ≤ e then v * 2 ^ e.toNat
  else (2 * v + 2 ^ (-e).toNat) / (2 * 2 ^ (-e).toNat)

/-- The expression `Math.round((finalScore / length) * 100)` in double
precision, for integers below `2^53` in absolute value. -/
def percentageOf (finalScore : Int) (length : Nat) : JsNumber :=
  if length = 0 then
    (if finalScore = 0 then .nan else if 0 < finalScore then .posInf else .negInf)
  else if finalScore = 0 then .finite 0
  else
    let ratio := roundToDouble finalScore.natAbs length
    let scaled := roundToDouble (ratio.1 * 100 * 2 ^ ratio.2.toNat) (2 ^ (-ratio.2).toNat)
    .finite (mathRound (decide (finalScore < 0)) scaled.1 scaled.2)

/-! ## Application state -/

/-- A JavaScript object used as a map from string keys. -/
abbrev Obj (V : Type) := List (String × V)

/-- Property read `o[k]` (`none` is `undefined`). -/
def Obj.get {V : Type} (o : Obj V) (k : String) : Option V := List.lookup k o

/-- The spread `{ ...o, [k]: v }`. -/
def Obj.set {V : Type} (o : Obj V) (k : String) (v : V) : Obj V :=
  if o.any (fun p => p.1 == k) then o.map (fun p => if p.1 == k then (k, v) else p)
  else o ++ [(k, v)]

/-- A subject of `subjects.js` (the fields the logic reads). -/
structure Subject where
  id : String
  data : List Question
  hasVariants : Bool
  questionsPerVariant : Nat
  deriving DecidableEq, Repr

/-- The screens of the application. -/
inductive Screen
  | subjects
  | welcome
  | quiz
  | result
  deriving DecidableEq, Repr

/-- The variant selector of a session. -/
inductive VariantSel
  | marathon
  | errors
  | number (n : Nat)
  deriving DecidableEq, Repr

/-- The best result stored for a variant key. -/
structure CompletionRecord where
  score : Int
  total : Nat
  percentage : JsNumber
  completedAt : Int
  deriving DecidableEq, Repr

/-- The aggregate statistics of a subject. -/
structure SubjectStats where
  totalAttempts : Int
  totalQuestions : Int
  totalCorrect : Int
  totalTimeMs : Int
  deriving DecidableEq, Repr

/-- The default statistics `{ totalAttempts: 0, ... }`. -/
def SubjectStats.zero : SubjectStats := ⟨0, 0, 0, 0⟩

/-- A value written to `localStorage` (decoded). -/
inductive Stored
  | variants (v : Obj CompletionRecord)
  | stats (s : SubjectStats)
  | wrong (w : List String)
  deriving DecidableEq, Repr

/-- The values of a render of `App` that the closure `handleNextQuestion` of
that render reads. -/
structure Captured where
  questions : List Question
  currentIndex : Nat
  selectedSubject : Option Subject
  selectedVariant : Option VariantSel
  isErrorReviewMode : Bool
  startTime : Option Int
  deriving DecidableEq, Repr

/-- The state of `App`, the ref `wrongAnswersThisSession`, the local state of
the mounted `QuestionScreen`, the pending auto-advance timers (oldest first)
and `localStorage`. -/
structure AppState where
  screen : Screen
  selectedSubject : Option Subject
  selectedVariant : Option VariantSel
  questions : List Question
  currentIndex : Nat
  score : Int
  startTime : Option Int
  endTime : Option Int
  isErrorReviewMode : Bool
  wrongAnswersThisSession : List String
  completedVariants : Obj (Obj CompletionRecord)
  globalStats : Obj SubjectStats
  wrongAnswers : Obj (List String)
  selectedAnswer : Option (Option String)
  answerState : Option Bool
  pendingNext : List Captured
  storage : Obj Stored
  storageWritable : Bool
  deriving DecidableEq, Repr

/-- The values read by the closures of the current render. -/
def AppState.captured (st : AppState) : Captured :=
  { questions := st.questions, currentIndex := st.currentIndex,
    selectedSubject := st.selectedSubject, selectedVariant := st.selectedVariant,
    isErrorReviewMode := st.isErrorReviewMode, startTime := st.startTime }

/-- Embedding of `getStorageKey`. -/
def getStorageKey (subjectId type : String) : String := "quiz_" ++ subjectId ++ "_" ++ type

/-- Embedding of `saveToStorage`: a failing write is caught and ignored. -/
def saveToStorage (key : String) (data : Stored) (st : AppState) : AppState :=
  if st.storageWritable then { st with storage := Obj.set st.storage key data } else st

/-- A value that `JSON.parse` can return (numbers restricted to integers). -/
inductive JsValue
  | null
  | boolean (b : Bool)
  | number (v : Int)
  | string (s : String)
  | array (items : List JsValue)
  | object (fields : List (String × JsValue))

/-- The outcome of `localStorage.getItem(key)`: an exception, `null` for a key
that is not stored, or the stored string. -/
inductive StorageRead
  | throws
  | missing
  | value (saved : String)

/-- Embedding of `loadFromStorage`. `getItem` is the store and `parse` is
`JSON.parse`, with `none` for its `SyntaxError`; the test `saved ? .. : ..`
takes `null` and the empty string as false. -/
def loadFromStorage (getItem : String → StorageRead) (parse : String → Option JsValue)
    (key : String) (defaultValue : JsValue) : JsValue :=
  match getItem key with
  | StorageRead.throws => defaultValue
  | StorageRead.missing => defaultValue
  | StorageRead.value saved =>
    if saved = "" then defaultValue
    else
      match parse saved with
      | some parsed => parsed
      | none => defaultValue

/-! ## Variant sets -/

/-- The entry of `subjectVariants` for one subject. -/
structure VariantSet where
  variantNumbers : List Nat
  questionsByVariant : List (Nat × List Question)
  totalQuestions : Nat
  deriving DecidableEq, Repr

/-- The elements of `[...new Set(list)]`: first occurrences, in order. -/
def uniqueInOrder {α : Type} [DecidableEq α] (list : List α) : List α :=
  list.foldl (fun acc x => if x ∈ acc then acc else acc ++ [x]) []

/-- The body of the `forEach` of `subjectVariants` for one subject. The
questions of a subject with `hasVariants` all carry a variant number. -/
def variantSetOf (subject : Subject) : VariantSet :=
  if subject.hasVariants then
    let uniqueVariants :=
      (uniqueInOrder (subject.data.filterMap fun q => q.variant)).insertionSort (· ≤ ·)
    { variantNumbers := uniqueVariants
      questionsByVariant :=
        uniqueVariants.map fun v => (v, subject.data.filter fun q => q.variant == some v)
      totalQuestions := subject.data.length }
  else
    let generated :=
      generateVariantsFromFlat subject.data subject.questionsPerVariant subject.id
    { variantNumbers := (generated.map Prod.fst).insertionSort (· ≤ ·)
      questionsByVariant := generated
      totalQuestions := subject.data.length }

/-- Embedding of the memoized `subjectVariants`. -/
def subjectVariants (subjects : List Subject) : Obj VariantSet :=
  subjects.foldl (fun result subject => Obj.set result subject.id (variantSetOf subject)) []

/-! ## Quiz session -/

/-- The key and the question id of the mounted `QuestionScreen`
(`none` when it is not rendered). -/
def questionScreenKey (st : AppState) : Option (Nat × Option String) :=
  if st.screen = Screen.quiz ∧ 0 < st.questions.length then
    some (st.currentIndex, (st.questions[st.currentIndex]?).map fun q => q.id)
  else none

/-- The commit of a render: the local state of `QuestionScreen` survives only
if the component stays mounted under the same key with the same `question.id`. -/
def commit (old new : AppState) : AppState :=
  if questionScreenKey old = questionScreenKey new ∧ (questionScreenKey new).isSome then new
  else { new with selectedAnswer := none, answerState := none }

/-- Embedding of `handleStartQuiz`; `random` is the stream of `Math.random`
values from the call on and `now` the value of `Date.now()`. -/
def handleStartQuiz (subjects : List Subject) (random : Nat → RandomValue) (now : Int)
    (variant : Option VariantSel) (st : AppState) : AppState :=
  match st.selectedSubject with
  | none => st
  | some selectedSubject =>
    match Obj.get (subjectVariants subjects) selectedSubject.id with
    | none => st
    | some currentSubjectData =>
      let source : List Question :=
        if variant = some VariantSel.marathon then selectedSubject.data
        else
          match variant with
          | some (VariantSel.number v) => (List.lookup v currentSubjectData.questionsByVariant).getD []
          | _ => []
      let filteredQuestions := shuffleArray random source
      let filteredQuestions := mapShuffleOptions random (source.length - 1) filteredQuestions
      commit st
        { st with
          wrongAnswersThisSession := []
          isErrorReviewMode := false
          selectedVariant := variant
          questions := filteredQuestions
          currentIndex := 0
          score := 0
          startTime := some now
          endTime := none
          screen := Screen.quiz }

/-- Embedding of `handleStartErrorReview`. -/
def handleStartErrorReview (random : Nat → RandomValue) (now : Int) (st : AppState) :
    AppState :=
  match st.selectedSubject with
  | none => st
  | some selectedSubject =>
    let wrongTexts := (Obj.get st.wrongAnswers selectedSubject.id).getD []
    if wrongTexts.length = 0 then st
    else
      let wrongQuestions := selectedSubject.data.filter fun q => wrongTexts.contains q.question
      if wrongQuestions.length = 0 then st
      else
        let filteredQuestions := shuffleArray random wrongQuestions
        let filteredQuestions :=
          mapShuffleOptions random (wrongQuestions.length - 1) filteredQuestions
        commit st
          { st with
            wrongAnswersThisSession := []
            isErrorReviewMode := true
            selectedVariant := some VariantSel.errors
            questions := filteredQuestions
            currentIndex := 0
            score := 0
            startTime := some now
            endTime := none
            screen := Screen.quiz }

/-- Embedding of `handleAnswer`. -/
def handleAnswer (isCorrect : Bool) (questionText : String) (st : AppState) : AppState :=
  if isCorrect then
    let st1 := { st with score := st.score + 1 }
    match st.isErrorReviewMode, st.selectedSubject with
    | true, some selectedSubject =>
      let subjectId := selectedSubject.id
      let updated := ((Obj.get st1.wrongAnswers subjectId).getD []).filter
        fun text => text != questionText
      saveToStorage (getStorageKey subjectId "wrong") (Stored.wrong updated)
        { st1 with wrongAnswers := Obj.set st1.wrongAnswers subjectId updated }
    | _, _ => st1
  else
    { st with wrongAnswersThisSession := st.wrongAnswersThisSession ++ [questionText] }

/-- The variant key computed by `handleNextQuestion`. -/
def variantKey : Option VariantSel → String
  | some VariantSel.marathon => "marathon"
  | some VariantSel.errors => "errors"
  | some (VariantSel.number n) => "variant_" ++ toString n
  | none => "variant_null"

/-- Embedding of `handleNextQuestion` as the closure of a render with values
`c`, called at time `now` in state `st`: the state updaters and the ref
`wrongAnswersThisSession` act on `st`, everything else is read from `c`. -/
def handleNextQuestion (c : Captured) (now : Int) (st : AppState) : AppState :=
  if c.currentIndex + 1 < c.questions.length then
    { st with currentIndex := st.currentIndex + 1 }
  else
    let st := { st with endTime := some now }
    match c.selectedSubject with
    | none => st
    | some selectedSubject =>
      let subjectId := selectedSubject.id
      let wrongCount := st.wrongAnswersThisSession.length
      let finalScore : Int := (c.questions.length : Int) - (wrongCount : Int)
      let st :=
        if ¬ c.isErrorReviewMode ∧ 0 < st.wrongAnswersThisSession.length then
          let existing := (Obj.get st.wrongAnswers subjectId).getD []
          let merged := uniqueInOrder (existing ++ st.wrongAnswersThisSession)
          saveToStorage (getStorageKey subjectId "wrong") (Stored.wrong merged)
            { st with wrongAnswers := Obj.set st.wrongAnswers subjectId merged }
        else st
      let percentage := percentageOf finalScore c.questions.length
      let key := variantKey c.selectedVariant
      let elapsedMs : Int := now - c.startTime.getD 0
      let st :=
        if ¬ c.isErrorReviewMode then
          let subjectVariantsData := (Obj.get st.completedVariants subjectId).getD []
          let existing := Obj.get subjectVariantsData key
          let better : Bool :=
            match existing with
            | none => true
            | some e => percentage.gt e.percentage
          if better then
            let updated := Obj.set subjectVariantsData key
              { score := finalScore, total := c.questions.length, percentage := percentage,
                completedAt := now }
            saveToStorage (getStorageKey subjectId "variants") (Stored.variants updated)
              { st with completedVariants := Obj.set st.completedVariants subjectId updated }
          else st
        else st
      let subjectStats := (Obj.get st.globalStats subjectId).getD SubjectStats.zero
      let updated : SubjectStats :=
        { totalAttempts := subjectStats.totalAttempts + 1
          totalQuestions := subjectStats.totalQuestions + c.questions.length
          totalCorrect := subjectStats.totalCorrect + finalScore
          totalTimeMs := subjectStats.totalTimeMs + elapsedMs }
      let st := saveToStorage (getStorageKey subjectId "stats") (Stored.stats updated)
        { st with globalStats := Obj.set st.globalStats subjectId updated }
      { st with screen := Screen.result }

/-- Embedding of `handleSkipQuestion` as the closure of a render in which
`currentIndex` is a valid index of the question list. -/
def handleSkipQuestion (currentIndex : Nat) (st : AppState) : AppState :=
  match st.questions[currentIndex]? with
  | some current => { st with questions := st.questions.eraseIdx currentIndex ++ [current] }
  | none => st

/-- Embedding of `handleSelectAnswer` of `QuestionScreen` for the displayed
`question`; the timer it sets holds `handleNextQuestion` of the current render. -/
def handleSelectAnswer (question : Question) (option : AnswerOption) (st : AppState) :
    AppState :=
  if st.answerState.isSome then st
  else
    let isCorrect : Bool := option.letter == some question.correctAnswer
    let st1 := handleAnswer isCorrect question.question
      { st with selectedAnswer := some option.letter, answerState := some isCorrect }
    { st1 with pendingNext := st1.pendingNext ++ [st.captured] }

/-- Embedding of `handleSkip` of `QuestionScreen`. -/
def handleSkip (st : AppState) : AppState :=
  if st.answerState.isSome then st else handleSkipQuestion st.currentIndex st

/-- The operations of a running session. -/
inductive SessionOp
  | answer (optionIndex : Nat)
  | skip
  | next (now : Int)
  deriving DecidableEq, Repr

/-- One operation of a session: choosing the option at `optionIndex` of the
displayed question, pressing skip, or the oldest pending auto-advance timer
calling `onNext` at time `now`. The first two reach `QuestionScreen` only
while it is mounted. -/
def SessionOp.apply (op : SessionOp) (st : AppState) : AppState :=
  match op with
  | SessionOp.answer optionIndex =>
    if st.screen = Screen.quiz ∧ 0 < st.questions.length then
      match st.questions[st.currentIndex]? with
      | some question =>
        (match question.options[optionIndex]? with
         | some option => commit st (handleSelectAnswer question option st)
         | none => st)
      | none => st
    else st
  | SessionOp.skip =>
    if st.screen = Screen.quiz ∧ 0 < st.questions.length then
      match st.questions[st.currentIndex]? with
      | some _ => commit st (handleSkip st)
      | none => st
    else st
  | SessionOp.next now =>
    match st.pendingNext with
    | [] => st
    | c :: rest => commit st (handleNextQuestion c now { st with pendingNext := rest })

/-- The state after a sequence of operations. -/
def runSession (st : AppState) (ops : List SessionOp) : AppState :=
  ops.foldl (fun s op => op.apply s) st

/-- A state in which a session over `n` questions has just been started and
no timer of an earlier session is pending. -/
def SessionStart (n : Nat) (st : AppState) : Prop :=
  st.screen = Screen.quiz ∧ st.questions.length = n ∧ st.currentIndex = 0 ∧
  st.score = 0 ∧ st.wrongAnswersThisSession = [] ∧ st.answerState = none ∧
  st.pendingNext = [] ∧ st.selectedSubject.isSome = true

/-- The statistics of a subject as read by the updaters (`prev[id] || zero`). -/
def AppState.statsOf (st : AppState) (subjectId : String) : SubjectStats :=
  (Obj.get st.globalStats subjectId).getD SubjectStats.zero

/-- The completion record of a subject under a variant key. -/
def AppState.recordOf (st : AppState) (subjectId key : String) : Option CompletionRecord :=
  Obj.get ((Obj.get st.completedVariants subjectId).getD []) key

/-! ## Application events -/

/-- Embedding of `getSubjectById`. -/
def getSubjectById (subjects : List Subject) (id : String) : Option Subject :=
  subjects.find? fun s => s.id == id

/-- Embedding of `handleSelectSubject`. -/
def handleSelectSubject (subjects : List Subject) (subjectId : String) (st : AppState) :
    AppState :=
  commit st
    { st with selectedSubject := getSubjectById subjects subjectId, screen := Screen.welcome }

/-- Embedding of `handleBackToSubjects`. -/
def handleBackToSubjects (st : AppState) : AppState :=
  commit st { st with selectedSubject := none, screen := Screen.subjects }

/-- Embedding of `handleMenu`. It leaves the ref `wrongAnswersThisSession` and
the pending timers as they are. -/
def handleMenu (st : AppState) : AppState :=
  commit st
    { st with
      screen := Screen.welcome
      selectedVariant := none
      questions := []
      currentIndex := 0
      score := 0
      startTime := none
      endTime := none
      isErrorReviewMode := false }

/-- Embedding of `handleRestart`. -/
def handleRestart (subjects : List Subject) (random : Nat → RandomValue) (now : Int)
    (st : AppState) : AppState :=
  if st.isErrorReviewMode then handleStartErrorReview random now st
  else handleStartQuiz subjects random now st.selectedVariant st

/-- Embedding of `handleResetStats`. -/
def handleResetStats (st : AppState) : AppState :=
  match st.selectedSubject with
  | none => st
  | some selectedSubject =>
    let subjectId := selectedSubject.id
    let st := saveToStorage (getStorageKey subjectId "variants") (Stored.variants [])
      { st with completedVariants := Obj.set st.completedVariants subjectId [] }
    let st := saveToStorage (getStorageKey subjectId "stats") (Stored.stats SubjectStats.zero)
      { st with globalStats := Obj.set st.globalStats subjectId SubjectStats.zero }
    saveToStorage (getStorageKey subjectId "wrong") (Stored.wrong [])
      { st with wrongAnswers := Obj.set st.wrongAnswers subjectId [] }

/-- The events of the application: the callbacks that the rendered screen
offers, and the firing of the oldest pending timer (inside `session`). -/
inductive AppEvent
  | selectSubject (subjectId : String)
  | backToSubjects
  | startQuiz (variant : VariantSel) (random : Nat → RandomValue) (now : Int)
  | startErrorReview (random : Nat → RandomValue) (now : Int)
  | resetStats
  | session (op : SessionOp)
  | exit
  | restart (random : Nat → RandomValue) (now : Int)
  | menu

/-- The variant buttons of the welcome screen: `marathon` and the numbers of
`currentSubjectData.variantNumbers`. -/
def offeredVariant (subjects : List Subject) (st : AppState) (variant : VariantSel) : Bool :=
  match variant with
  | VariantSel.marathon => true
  | VariantSel.errors => false
  | VariantSel.number v =>
    match st.selectedSubject with
    | none => false
    | some selectedSubject =>
      match Obj.get (subjectVariants subjects) selectedSubject.id with
      | none => false
      | some currentSubjectData => currentSubjectData.variantNumbers.contains v

/-- One event, handled by the callback of the screen that is rendered: the
subject list on `subjects`, the variant list on `welcome` with a selected
subject, `QuestionScreen` on `quiz` with a non-empty question list, and
`ResultScreen` on `result`. -/
def AppEvent.apply (subjects : List Subject) (ev : AppEvent) (st : AppState) : AppState :=
  match ev with
  | AppEvent.selectSubject subjectId =>
    if st.screen = Screen.subjects ∧ (subjects.any fun s => s.id == subjectId) = true then
      handleSelectSubject subjects subjectId st
    else st
  | AppEvent.backToSubjects =>
    if st.screen = Screen.welcome ∧ st.selectedSubject.isSome = true then
      handleBackToSubjects st
    else st
  | AppEvent.startQuiz variant random now =>
    if st.screen = Screen.welcome ∧ st.selectedSubject.isSome = true ∧
        offeredVariant subjects st variant = true then
      handleStartQuiz subjects random now (some variant) st
    else st
  | AppEvent.startErrorReview random now =>
    match st.selectedSubject with
    | none => st
    | some selectedSubject =>
      if st.screen = Screen.welcome ∧
          0 < ((Obj.get st.wrongAnswers selectedSubject.id).getD []).length then
        handleStartErrorReview random now st
      else st
  | AppEvent.resetStats =>
    if st.screen = Screen.welcome ∧ st.selectedSubject.isSome = true then handleResetStats st
    else st
  | AppEvent.session op => op.apply st
  | AppEvent.exit =>
    if st.screen = Screen.quiz ∧ 0 < st.questions.length then handleMenu st else st
  | AppEvent.restart random now =>
    if st.screen = Screen.result then handleRestart subjects random now st else st
  | AppEvent.menu =>
    if st.screen = Screen.result then handleMenu st else st

/-- The state after a sequence of events. -/
def runApp (subjects : List Subject) (st : AppState) (evs : List AppEvent) : AppState :=
  evs.foldl (fun s ev => ev.apply subjects s) st

/-! ## The percentage of the specification -/

/-- The integer nearest to `100 * finalScore / n`, halves rounded up, in exact
arithmetic: the floor of `100 * finalScore / n + 1 / 2`. -/
def exactPercentage (finalScore : Int) (n : Nat) : Int :=
  (200 * finalScore + (n : Int)) / (2 * (n : Int))

/-- The subject's list of missed question texts (`wrongAnswers[id] || []`). -/
def AppState.wrongLogOf (st : AppState) (subjectId : String) : List String :=
  (Obj.get st.wrongAnswers subjectId).getD []

/-! ## Auxiliary definitions of the proofs -/

/-- The relabelling of `shuffleOptions`: the option at position `i` gets the
letter `letters[i]` and keeps its text. -/
def relabel (l : List AnswerOption) : List AnswerOption :=
  l.mapIdx fun i opt => { letter := letters[i]?, text := opt.text }

/-- The invariant of a running session over `n` questions of `subject`: the
question list keeps its length, the current index stays inside it, and a
pending timer is the closure of the current render of an answered question. -/
def SessionInv (n : Nat) (subject : Subject) (st : AppState) : Prop :=
  st.questions.length = n ∧ st.selectedSubject = some subject ∧
  (st.screen = Screen.quiz → st.currentIndex < n) ∧
  (st.pendingNext = [] ∨
    (st.pendingNext = [st.captured] ∧ st.answerState.isSome = true ∧ st.screen = Screen.quiz))

/-- The completion record written by a finalization at time `now` of a session
over `n` questions with `wrongCount` wrong answers. -/
def finalRecord (n wrongCount : Nat) (now : Int) : CompletionRecord :=
  { score := (n : Int) - (wrongCount : Int), total := n,
    percentage := percentageOf ((n : Int) - (wrongCount : Int)) n, completedAt := now }

/-- The rational value `m * 2^e` of a double given by mantissa and exponent. -/
def doubleValue (r : Nat × Int) : ℚ := (r.1 : ℚ) * (2 : ℚ) ^ r.2

/-- While a session runs, the wrong answers are at most as many as the
questions answered so far. -/
def SessionCount (st : AppState) : Prop :=
  st.screen = Screen.quiz →
    st.wrongAnswersThisSession.length ≤
      st.currentIndex + (if st.answerState.isSome = true then 1 else 0)

/-- The state `st` of a session over `n ≥ 1` questions of `subject`, reached
from its start by answer, skip and next operations, in which the pending
timer, firing at time `now`, finalizes the session. -/
def Finalizing (n : Nat) (subject : Subject) (st : AppState) (now : Int) : Prop :=
  1 ≤ n ∧ ∃ st0 ops, SessionStart n st0 ∧ st0.selectedSubject = some subject ∧
    st = runSession st0 ops ∧ st.screen = Screen.quiz ∧
    ((SessionOp.next now).apply st).screen = Screen.result

/-- The condition under which the finalization of a session over `n`
questions writes a completion record: the session is not an error review, and
no record is stored under its variant key or the new percentage is greater
than the stored one. -/
def RecordImproves (n : Nat) (subject : Subject) (st : AppState) : Prop :=
  st.isErrorReviewMode = false ∧
  (st.recordOf subject.id (variantKey st.selectedVariant) = none ∨
    ∃ e, st.recordOf subject.id (variantKey st.selectedVariant) = some e ∧
      (percentageOf ((n : Int) - (st.wrongAnswersThisSession.length : Int)) n).gt
        e.percentage = true)

/-- Every completion record of `st` is still present in `st2`, unchanged or
replaced by one with a greater percentage. -/
def RecordsKept (st st2 : AppState) : Prop :=
  ∀ sid key e, st.recordOf sid key = some e →
    ∃ e2, st2.recordOf sid key = some e2 ∧ (e2 = e ∨ e2.percentage.gt e.percentage = true)

/-- The invariant of an error review of `subject`: every text still in the
subject's log was answered wrongly in this session or is the text of a
question that is not answered yet. -/
def ReviewInv (subject : Subject) (st : AppState) : Prop :=
  st.isErrorReviewMode = true ∧
  (st.screen = Screen.quiz → ∀ t ∈ st.wrongLogOf subject.id,
    t ∈ st.wrongAnswersThisSession ∨
    t ∈ (st.questions.drop
      (st.currentIndex + (if st.answerState.isSome = true then 1 else 0))).map
        fun q => q.question)

/-- Specification side of `createSeededRandom`: one mulberry32 step on the
32-bit word `state`, giving the numerator of the value and the next word. -/
def mulberry32Word (state : Nat) : Nat × Nat :=
  let s := (state + 0x6D2B79F5) % 2 ^ 32
  let t := ((s ^^^ (s >>> 15)) * (1 ||| s)) % 2 ^ 32
  let t1 := ((t + ((t ^^^ (t >>> 7)) * (61 ||| t)) % 2 ^ 32) % 2 ^ 32) ^^^ t
  ((t1 ^^^ (t1 >>> 14)) % 2 ^ 32, s)

/-- The word reached from `word` after `n` mulberry32 steps. -/
def mulberry32Word.state (word : Nat) : Nat → Nat
  | 0 => word
  | n + 1 => (mulberry32Word (mulberry32Word.state word n)).2

/-- The numerator produced by the `(n+1)`-th mulberry32 step from `word`. -/
def mulberry32Word.value (word n : Nat) : Nat :=
  (mulberry32Word (mulberry32Word.state word n)).1

/-- Specification side of `stringToSeed`: the sum of `c_i * 31^(n-1-i)` over
the code units `c_0, ..., c_(n-1)`. -/
def polynomialSum (codes : List Nat) : Int :=
  ((List.range codes.length).map fun i =>
    (codes.getD i 0 : Int) * 31 ^ (codes.length - 1 - i)).sum

/-- The number of options of a question whose letter is its `correctAnswer`. -/
def Question.correctCount (q : Question) : Nat :=
  q.options.countP fun o => o.letter == some q.correctAnswer

/-- The blocks that `generateVariantsFromFlat` cuts out of a shuffled list,
with their variant numbers: blocks of `questionsPerVariant` elements, the last
one running to the end of the list. -/
def variantBlocks {α : Type} (shuffled : List α) (questionsPerVariant : Nat) :
    List (Nat × List α) :=
  (List.range (numVariants shuffled.length questionsPerVariant - 1 + 1)).map fun i =>
    (i + 1, slice shuffled (i * questionsPerVariant)
      (if i < numVariants shuffled.length questionsPerVariant - 1
       then (i + 1) * questionsPerVariant else shuffled.length))

/-- The input positions that land in each variant of a list of `n` questions:
the blocks of the seeded shuffle of the positions `0, ..., n - 1`. -/
def variantPositions (n questionsPerVariant : Nat) (subjectId : String) :
    List (Nat × List Nat) :=
  variantBlocks (shuffleArraySeeded (List.range n) (stringToSeed (subjectId ++ "_variants")))
    questionsPerVariant

/-- The number of questions answered so far in a running session. -/
def AppState.answered (st : AppState) : Nat :=
  st.currentIndex + (if st.answerState.isSome = true then 1 else 0)

/-- The invariant of the score of a session over `n` questions: the index is
in range, the score and the wrong set add up to the number of answered
questions while the session runs, and to `n` on the result screen. -/
def ScoreInv (n : Nat) (st : AppState) : Prop :=
  st.currentIndex < n ∧
  (st.screen = Screen.quiz →
    st.score + (st.wrongAnswersThisSession.length : Int) = (st.answered : Int)) ∧
  (st.screen = Screen.result →
    st.score + (st.wrongAnswersThisSession.length : Int) = (n : Int))

/-- Whether a value is a number. -/
def JsValue.isNumber : JsValue → Bool
  | JsValue.number _ => true
  | _ => false

/-- Whether a value has the shape of the statistics of a subject: an object
with the four numeric fields. -/
def JsValue.isStats : JsValue → Bool
  | JsValue.object fields =>
    ["totalAttempts", "totalQuestions", "totalCorrect", "totalTimeMs"].all fun k =>
      match fields.lookup k with
      | some v => v.isNumber
      | none => false
  | _ => false

/-- The default that the initial state passes for the statistics of a
subject. -/
def zeroStatsJson : JsValue :=
  JsValue.object [("totalAttempts", JsValue.number 0), ("totalQuestions", JsValue.number 0),
    ("totalCorrect", JsValue.number 0), ("totalTimeMs", JsValue.number 0)]

/-- The value of `JSON.parse` on the JSON texts `null`, `true` and `false`,
the only texts on which it is used below; other strings are left unparsed. -/
def parseLiteral (text : String) : Option JsValue :=
  if text = "null" then some JsValue.null
  else if text = "true" then some (JsValue.boolean true)
  else if text = "false" then some (JsValue.boolean false)
  else none

/-! ## Sample data used by the witnesses -/

/-- A sample question with two options, the first one correct. -/
def sampleQuestion (n : Nat) : Question :=
  ⟨toString n, "q" ++ toString n, [⟨some "а", "x"⟩, ⟨some "б", "y"⟩], "а", none⟩

/-- A sample question bank of `n` questions. -/
def sampleBank (n : Nat) : List Question := (List.range n).map sampleQuestion

/-- A random source that always returns 0, so that every step of a shuffle
swaps with position 0. -/
def zeroRandom : Nat → RandomValue := fun _ => ⟨0, 1⟩

/-- A question whose stored correct answer matches none of its options. -/
def unmatchedQuestion : Question :=
  ⟨"7", "q", [⟨some "а", "x"⟩, ⟨some "б", "y"⟩, ⟨some "в", "z"⟩], "е", none⟩

/-- A sample subject without predefined variants. -/
def sampleSubject : Subject := ⟨"s", sampleBank 2, false, 40⟩

/-- The state of the application on the welcome screen of the sample subject,
with nothing stored. -/
def sampleWelcome : AppState :=
  { screen := Screen.welcome, selectedSubject := some sampleSubject, selectedVariant := none,
    questions := [], currentIndex := 0, score := 0, startTime := none, endTime := none,
    isErrorReviewMode := false, wrongAnswersThisSession := [], completedVariants := [],
    globalStats := [], wrongAnswers := [], selectedAnswer := none, answerState := none,
    pendingNext := [], storage := [], storageWritable := true }

/-- The session over variant 1 of the sample subject, started at time 1000. -/
def sampleSession : AppState :=
  handleStartQuiz [sampleSubject] zeroRandom 1000 (some (VariantSel.number 1)) sampleWelcome

/-- A run of the sample session: the first question is skipped, the second is
answered wrongly, and the skipped one is then answered correctly. -/
def sampleOps : List SessionOp :=
  [SessionOp.skip, SessionOp.answer 0, SessionOp.next 2000, SessionOp.answer 1]

/-- A subject whose forty questions form one variant. -/
def subject40 : Subject := ⟨"s40", sampleBank 40, false, 40⟩

/-- The session over variant 1 of `subject40`, started at time 1000. -/
def session40 : AppState :=
  handleStartQuiz [subject40] zeroRandom 1000 (some (VariantSel.number 1))
    { sampleWelcome with selectedSubject := some subject40 }

/-- A run of `session40` in which every question is answered once: the first
17 wrongly, the other 23 correctly; the timer of the last answer is pending. -/
def ops40 : List SessionOp :=
  (List.replicate 17 [SessionOp.answer 0, SessionOp.next 2000]).flatten ++
    (List.replicate 22 [SessionOp.answer 1, SessionOp.next 2000]).flatten ++
    [SessionOp.answer 1]

/-- The sample session played to its end with two wrong answers. -/
def sampleFailed : AppState :=
  runApp [sampleSubject] sampleWelcome
    [AppEvent.startQuiz (VariantSel.number 1) zeroRandom 1000,
     AppEvent.session (SessionOp.answer 0), AppEvent.session (SessionOp.next 2000),
     AppEvent.session (SessionOp.answer 0), AppEvent.session (SessionOp.next 3000)]

/-- Back to the menu, then the same variant played again with two correct
answers. -/
def sampleRetry : List AppEvent :=
  [AppEvent.menu, AppEvent.startQuiz (VariantSel.number 1) zeroRandom 4000,
   AppEvent.session (SessionOp.answer 1), AppEvent.session (SessionOp.next 5000),
   AppEvent.session (SessionOp.answer 1), AppEvent.session (SessionOp.next 6000)]

/-- The welcome screen after the failed sample session: both questions are
in the log of the sample subject. -/
def sampleReviewMenu : AppState := runApp [sampleSubject] sampleFailed [AppEvent.menu]

/-- The error review started from `sampleReviewMenu` at time 7000. -/
def sampleReview : AppState := handleStartErrorReview zeroRandom 7000 sampleReviewMenu

/-- A run of the error review in which both questions are answered
correctly; the timer of the second answer is pending. -/
def sampleReviewOps : List SessionOp :=
  [SessionOp.answer 1, SessionOp.next 8000, SessionOp.answer 1]

/-- A subject without questions. -/
def emptySubject : Subject := ⟨"e", [], false, 40⟩

/-- The marathon over the subject without questions, started at time 1000: a
session with zero questions. -/
def emptySession : AppState :=
  handleStartQuiz [emptySubject] zeroRandom 1000 (some VariantSel.marathon)
    { sampleWelcome with selectedSubject := some emptySubject }

/-- The sample session in which the first question is answered wrongly, the
timer advances, the second question is answered correctly, and the user
leaves for the menu before the timer of that answer fires. -/
def sampleAbandoned : AppState :=
  runApp [sampleSubject] sampleWelcome
    [AppEvent.startQuiz (VariantSel.number 1) zeroRandom 1000,
     AppEvent.session (SessionOp.answer 0), AppEvent.session (SessionOp.next 2000),
     AppEvent.session (SessionOp.answer 1), AppEvent.exit]

/-- The sample session left for the menu right after its first answer. -/
def sampleAbandonedEarly : AppState :=
  runApp [sampleSubject] sampleWelcome
    [AppEvent.startQuiz (VariantSel.number 1) zeroRandom 1000,
     AppEvent.session (SessionOp.answer 0), AppEvent.exit]

/-- A subject with one question. -/
def oneSubject : Subject := ⟨"s1", sampleBank 1, false, 40⟩

/-- The sample session is left after its first answer and the variant is
started again; the timer of the abandoned session then advances the new
session past its first question, the question shown is answered correctly and
its timer fires at time 4100. -/
def staleAdvanceTrace : List AppEvent :=
  [AppEvent.startQuiz (VariantSel.number 1) zeroRandom 1000,
   AppEvent.session (SessionOp.answer 1), AppEvent.exit,
   AppEvent.startQuiz (VariantSel.number 1) zeroRandom 1200,
   AppEvent.session (SessionOp.next 2500),
   AppEvent.session (SessionOp.answer 1),
   AppEvent.session (SessionOp.next 4100)]

/-- The sample session is left after its first answer and the variant is
started again; the first question of the new session is answered before the
timer of the abandoned session fires, the second one before the timer of the
first answer fires. -/
def staleIndexTrace : List AppEvent :=
  [AppEvent.startQuiz (VariantSel.number 1) zeroRandom 1000,
   AppEvent.session (SessionOp.answer 1), AppEvent.exit,
   AppEvent.startQuiz (VariantSel.number 1) zeroRandom 1200,
   AppEvent.session (SessionOp.answer 1),
   AppEvent.session (SessionOp.next 2500),
   AppEvent.session (SessionOp.answer 1),
   AppEvent.session (SessionOp.next 2800)]

/-- A session of the sample subject is left after its first answer; a session
of the subject with one question is started, answered and left; the sample
subject is started again and its two questions are answered wrongly, the timer
of the first abandoned session advancing it in between. The last event of
`staleStatsTrace` is the timer of the one-question session. -/
def staleStatsStart : List AppEvent :=
  [AppEvent.startQuiz (VariantSel.number 1) zeroRandom 1000,
   AppEvent.session (SessionOp.answer 0), AppEvent.exit,
   AppEvent.backToSubjects, AppEvent.selectSubject "s1",
   AppEvent.startQuiz (VariantSel.number 1) zeroRandom 1100,
   AppEvent.session (SessionOp.answer 0), AppEvent.exit,
   AppEvent.backToSubjects, AppEvent.selectSubject "s",
   AppEvent.startQuiz (VariantSel.number 1) zeroRandom 1200,
   AppEvent.session (SessionOp.answer 0),
   AppEvent.session (SessionOp.next 2500),
   AppEvent.session (SessionOp.answer 0)]

/-- The events of `staleStatsStart` followed by the timer of the one-question
session, which fires at time 2600. -/
def staleStatsTrace : List AppEvent :=
  staleStatsStart ++ [AppEvent.session (SessionOp.next 2600)]

/-! ## Lemmas on swaps and shuffles -/

theorem swapAt_length {α : Type} (a : List α) (i j : Nat) :
    (swapAt a i j).length = a.length := by
  unfold swapAt
  split <;> simp

theorem swapAt_perm {α : Type} (a : List α) (i j : Nat) : (swapAt a i j).Perm a := by
  classical
  unfold swapAt
  split
  next x y hx hy =>
    obtain ⟨hi, hxi⟩ := List.getElem?_eq_some.1 hx
    obtain ⟨hj, hyj⟩ := List.getElem?_eq_some.1 hy
    rw [List.perm_iff_count]
    intro b
    have hj2 : j < (a.set i y).length := by simpa using hj
    rw [List.count_set x b (a.set i y) j hj2, List.count_set y b a i hi]
    have hel : (a.set i y)[j] = y := by
      rw [List.getElem_set]
      split
      · rfl
      · exact hyj
    rw [hel, hxi]
    have hmem : x ∈ a := hxi ▸ List.getElem_mem hi
    have hc : (if (x == b) = true then 1 else 0) ≤ List.count b a := by
      split
      next h =>
        have hxb : x = b := by simpa using h
        subst hxb
        exact List.count_pos_iff.2 hmem
      · exact Nat.zero_le _
    omega
  next => exact List.Perm.refl a

theorem swapAt_map {α β : Type} (f : α → β) (a : List α) (i j : Nat) :
    swapAt (a.map f) i j = (swapAt a i j).map f := by
  unfold swapAt
  rcases hi : a[i]? with _ | x <;> rcases hj : a[j]? with _ | y <;>
    simp [List.getElem?_map, hi, hj, List.map_set]

theorem shuffleArraySeeded_loop_perm {α : Type} (i : Nat) (state : Int) (l : List α) :
    (shuffleArraySeeded.loop i state l).Perm l := by
  induction i generalizing state l with
  | zero => exact List.Perm.refl l
  | succ i ih =>
    simp only [shuffleArraySeeded.loop]
    exact (ih _ _).trans (swapAt_perm l _ _)

theorem shuffleArraySeeded_perm {α : Type} (l : List α) (seed : Int) :
    (shuffleArraySeeded l seed).Perm l :=
  shuffleArraySeeded_loop_perm _ _ _

theorem shuffleArraySeeded_length {α : Type} (l : List α) (seed : Int) :
    (shuffleArraySeeded l seed).length = l.length :=
  (shuffleArraySeeded_perm l seed).length_eq

theorem shuffleArray_loop_perm {α : Type} (random : Nat → RandomValue) (i calls : Nat)
    (l : List α) : (shuffleArray.loop random i calls l).Perm l := by
  induction i generalizing calls l with
  | zero => exact List.Perm.refl l
  | succ i ih =>
    simp only [shuffleArray.loop]
    exact (ih _ _).trans (swapAt_perm l _ _)

theorem shuffleArray_perm {α : Type} (random : Nat → RandomValue) (l : List α) :
    (shuffleArray random l).Perm l :=
  shuffleArray_loop_perm _ _ _ _

/-! ## Lemmas on the partition into blocks -/

theorem slice_map {α β : Type} (f : α → β) (l : List α) (a b : Nat) :
    slice (l.map f) a b = (slice l a b).map f := by
  simp [slice, List.map_take, List.map_drop]

theorem slice_length {α : Type} (l : List α) (a b : Nat) :
    (slice l a b).length = min (b - a) (l.length - a) := by
  simp [slice]

theorem slice_getElem? {α : Type} (l : List α) (a b p : Nat) (hp : p < (slice l a b).length) :
    (slice l a b)[p]? = l[a + p]? := by
  rw [slice_length] at hp
  simp only [slice]
  rw [List.getElem?_take_of_lt (by omega), List.getElem?_drop]

theorem slice_drop {α : Type} (l : List α) (K a b : Nat) :
    slice l (a + K) (b + K) = slice (l.drop K) a b := by
  simp only [slice, List.drop_drop]
  congr 1
  · omega
  · congr 1
    omega

theorem blocks_flatten {α : Type} (K m : Nat) (l : List α) (h : m * K ≤ l.length) :
    ((List.range (m + 1)).map fun i =>
      slice l (i * K) (if i < m then (i + 1) * K else l.length)).flatten = l := by
  induction m generalizing l with
  | zero => simp [slice, List.range_succ]
  | succ m ih =>
    have hK : K ≤ l.length := by
      have : (m + 1) * K = m * K + K := by ring
      omega
    have hm : m * K ≤ (l.drop K).length := by
      have : (m + 1) * K = m * K + K := by ring
      rw [List.length_drop]
      omega
    rw [List.range_succ_eq_map, List.map_cons, List.flatten_cons, List.map_map]
    have htail : ((fun i => slice l (i * K) (if i < m + 1 then (i + 1) * K else l.length)) ∘
        Nat.succ) = fun i => slice (l.drop K) (i * K)
          (if i < m then (i + 1) * K else (l.drop K).length) := by
      funext i
      have e1 : (i + 1) * K = i * K + K := by ring
      have e2 : (i + 1 + 1) * K = (i + 1) * K + K := by ring
      simp only [Function.comp, Nat.succ_eq_add_one]
      by_cases hi : i < m
      · simp only [hi, Nat.add_lt_add_iff_right, if_true]
        rw [e2, e1, slice_drop]
      · simp only [hi, Nat.add_lt_add_iff_right, if_false]
        have e3 : l.length = (l.drop K).length + K := by
          rw [List.length_drop]
          omega
        rw [e1]
        conv_lhs => rw [e3]
        rw [slice_drop]
    rw [htail, ih (l.drop K) hm]
    simp [slice]

theorem numVariants_pos (n K : Nat) : 0 < numVariants n K := by
  unfold numVariants
  simp only
  generalize n / K = a
  split <;> omega

theorem numVariants_pred_mul_le (n K : Nat) : (numVariants n K - 1) * K ≤ n := by
  have h1 : numVariants n K - 1 ≤ n / K := by
    unfold numVariants
    simp only
    generalize n / K = a
    split <;> omega
  exact (Nat.mul_le_mul_right K h1).trans (Nat.div_mul_le_self n K)

theorem map_content_mapIdx_restamp (v : Nat) (l : List Question) :
    (l.mapIdx fun idx q => restamp v idx q).map Question.content = l.map Question.content := by
  apply List.ext_getElem?
  intro i
  simp only [List.getElem?_map, List.getElem?_mapIdx]
  cases l[i]? <;> simp [restamp, Question.content]

/-- The normal form of the result of `generateVariantsFromFlat`: blocks of
`questionsPerVariant` questions of the shuffled list, the last block running
to the end of the list. -/
theorem generateVariantsFromFlat_eq (qs : List Question) (K : Nat) (sid : String) :
    generateVariantsFromFlat qs K sid =
      (List.range (numVariants qs.length K - 1 + 1)).map fun i =>
        (i + 1, (slice (shuffleArraySeeded qs (stringToSeed (sid ++ "_variants"))) (i * K)
          (if i < numVariants qs.length K - 1 then (i + 1) * K
           else (shuffleArraySeeded qs (stringToSeed (sid ++ "_variants"))).length)).mapIdx
            fun idx q => restamp (i + 1) idx q) := by
  have hpos := numVariants_pos qs.length K
  have hnv : numVariants qs.length K - 1 + 1 = numVariants qs.length K := by omega
  rw [hnv]
  unfold generateVariantsFromFlat
  simp only
  have hnv2 : (if qs.length % K > 0 ∧ decide (qs.length % K > 20) = true then qs.length / K + 1
      else max 1 (qs.length / K)) = numVariants qs.length K := rfl
  rw [hnv2]
  apply List.map_congr_left
  intro i hi
  have hi2 : i < numVariants qs.length K := List.mem_range.1 hi
  congr 2
  by_cases hr : qs.length % K > 20
  · have hv : numVariants qs.length K = qs.length / K + 1 := by
      unfold numVariants
      simp only
      rw [if_pos ⟨by omega, by simpa using hr⟩]
    simp only [hr, decide_True, if_true]
    by_cases h1 : i < qs.length / K
    · rw [if_pos h1, if_pos (by omega)]
    · rw [if_neg h1, if_neg (by omega)]
  · simp only [hr, decide_False, Bool.false_eq_true, if_false]
    by_cases h1 : i = numVariants qs.length K - 1
    · rw [if_pos h1, if_neg (by omega)]
    · rw [if_neg h1, if_pos (by omega)]

/-- The variant numbers and sizes of the result, in terms of the index
`m = numVariants - 1` of the last variant. -/
theorem generateVariantsFromFlat_sizes (qs : List Question) (K : Nat) (sid : String) :
    (generateVariantsFromFlat qs K sid).map (fun p => (p.1, p.2.length)) =
      (List.range (numVariants qs.length K - 1)).map (fun i => (i + 1, K)) ++
        [(numVariants qs.length K - 1 + 1,
          qs.length - (numVariants qs.length K - 1) * K)] := by
  rw [generateVariantsFromFlat_eq]
  have hle := numVariants_pred_mul_le qs.length K
  generalize numVariants qs.length K - 1 = m at hle ⊢
  rw [List.range_succ, List.map_append, List.map_append, List.map_map, List.map_map]
  congr 1
  · apply List.map_congr_left
    intro i hi
    have hi2 : i < m := List.mem_range.1 hi
    have h1 : (i + 1) * K ≤ m * K := Nat.mul_le_mul_right K hi2
    have e1 : (i + 1) * K = i * K + K := by ring
    simp only [Function.comp, hi2, if_true, List.length_mapIdx, slice_length,
      shuffleArraySeeded_length, Prod.mk.injEq, true_and]
    omega
  · simp only [List.map_cons, List.map_nil, lt_irrefl, if_false, List.length_mapIdx,
      slice_length, shuffleArraySeeded_length]
    simp [slice_length, shuffleArraySeeded_length]

/-! ## Claims on the variant partitioner -/

/-- C1: for a positive `questionsPerVariant`, the variants returned by
`generateVariantsFromFlat`, concatenated in variant order and read without the
re-stamped `id` and `variant` fields, are a permutation of the input list: no
question is duplicated or dropped. -/
theorem generateVariantsFromFlat_partition (qs : List Question) (K : Nat) (sid : String)
    (_hK : 0 < K) :
    (((generateVariantsFromFlat qs K sid).map fun p => p.2.map Question.content).flatten).Perm
      (qs.map Question.content) := by
  rw [generateVariantsFromFlat_eq, List.map_map]
  have hblocks := blocks_flatten K (numVariants qs.length K - 1)
    ((shuffleArraySeeded qs (stringToSeed (sid ++ "_variants"))).map Question.content)
    (by rw [List.length_map, shuffleArraySeeded_length]
        exact numVariants_pred_mul_le qs.length K)
  have hfun : ((fun p : Nat × List Question => p.2.map Question.content) ∘ fun i =>
      (i + 1, (slice (shuffleArraySeeded qs (stringToSeed (sid ++ "_variants"))) (i * K)
        (if i < numVariants qs.length K - 1 then (i + 1) * K
         else (shuffleArraySeeded qs (stringToSeed (sid ++ "_variants"))).length)).mapIdx
          fun idx q => restamp (i + 1) idx q)) =
      fun i => slice ((shuffleArraySeeded qs (stringToSeed (sid ++ "_variants"))).map
        Question.content) (i * K)
        (if i < numVariants qs.length K - 1 then (i + 1) * K
         else ((shuffleArraySeeded qs (stringToSeed (sid ++ "_variants"))).map
          Question.content).length) := by
    funext i
    simp only [Function.comp, map_content_mapIdx_restamp, slice_map, List.length_map]
  rw [hfun, hblocks]
  exact (shuffleArraySeeded_perm qs _).map _

/-- Witness of C1 on a bank of five questions split by two. -/
theorem generateVariantsFromFlat_partition_witness :
    (((generateVariantsFromFlat (sampleBank 5) 2 "x").map
      fun p => p.2.map Question.content).flatten).Perm ((sampleBank 5).map Question.content) :=
  generateVariantsFromFlat_partition (sampleBank 5) 2 "x" (by decide)

/-- C2: when `N mod K > 20`, there are exactly `N / K + 1` variants, numbered
from 1; the first `N / K` hold `K` questions each and the last one holds
`N mod K` questions. -/
theorem generateVariantsFromFlat_extra_variant (qs : List Question) (K : Nat) (sid : String)
    (_hK : 0 < K) (hrem : 20 < qs.length % K) :
    (generateVariantsFromFlat qs K sid).length = qs.length / K + 1 ∧
    (generateVariantsFromFlat qs K sid).map (fun p => (p.1, p.2.length)) =
      (List.range (qs.length / K)).map (fun i => (i + 1, K)) ++
        [(qs.length / K + 1, qs.length % K)] := by
  have hv : numVariants qs.length K - 1 = qs.length / K := by
    unfold numVariants
    simp only
    rw [if_pos ⟨by omega, by simpa using hrem⟩]
    exact Nat.add_sub_cancel _ _
  have hsz := generateVariantsFromFlat_sizes qs K sid
  rw [hv] at hsz
  have hmod : qs.length - qs.length / K * K = qs.length % K := by
    have := Nat.div_add_mod qs.length K
    rw [Nat.mul_comm] at this
    omega
  rw [hmod] at hsz
  refine ⟨?_, hsz⟩
  have := congrArg List.length hsz
  simpa using this

/-- Witness of C2: 105 questions by 40 give variants of sizes 40, 40 and 25. -/
theorem generateVariantsFromFlat_extra_variant_witness :
    (generateVariantsFromFlat (sampleBank 105) 40 "culture").length = 105 / 40 + 1 ∧
    (generateVariantsFromFlat (sampleBank 105) 40 "culture").map (fun p => (p.1, p.2.length)) =
      [(1, 40), (2, 40), (3, 25)] := by
  have h := generateVariantsFromFlat_extra_variant (sampleBank 105) 40 "culture"
    (by decide) (by simp [sampleBank])
  simpa [sampleBank, List.range_succ] using h

/-- C3: when `N ≥ K` and `N mod K ≤ 20`, there are exactly `max 1 (N / K)`
variants, numbered from 1; every variant but the last holds `K` questions and
the last one holds `K + N mod K` questions. -/
theorem generateVariantsFromFlat_merged_remainder (qs : List Question) (K : Nat)
    (sid : String) (hK : 0 < K) (hN : K ≤ qs.length) (hrem : qs.length % K ≤ 20) :
    (generateVariantsFromFlat qs K sid).length = max 1 (qs.length / K) ∧
    (generateVariantsFromFlat qs K sid).map (fun p => (p.1, p.2.length)) =
      (List.range (qs.length / K - 1)).map (fun i => (i + 1, K)) ++
        [(qs.length / K, K + qs.length % K)] := by
  have hdiv : 1 ≤ qs.length / K := (Nat.one_le_div_iff hK).2 hN
  have hv : numVariants qs.length K - 1 = qs.length / K - 1 := by
    unfold numVariants
    simp only
    rw [if_neg (by simp; omega)]
    generalize qs.length / K = a at hdiv ⊢
    omega
  have hsz := generateVariantsFromFlat_sizes qs K sid
  rw [hv] at hsz
  have hlast : qs.length - (qs.length / K - 1) * K = K + qs.length % K := by
    have h1 := Nat.div_add_mod qs.length K
    have h2 : (qs.length / K - 1) * K + K = K * (qs.length / K) := by
      have : (qs.length / K - 1 + 1) * K = (qs.length / K - 1) * K + K := by ring
      rw [← this, Nat.sub_add_cancel hdiv, Nat.mul_comm]
    omega
  rw [hlast, Nat.sub_add_cancel hdiv] at hsz
  refine ⟨?_, hsz⟩
  have := congrArg List.length hsz
  simp only [List.length_map, List.length_append, List.length_range, List.length_cons,
    List.length_nil] at this
  rw [this]
  generalize qs.length / K = a at hdiv ⊢
  omega

/-- Witness of C3: 90 questions by 40 give variants of sizes 40 and 50. -/
theorem generateVariantsFromFlat_merged_remainder_witness :
    (generateVariantsFromFlat (sampleBank 90) 40 "culture").length = max 1 (90 / 40) ∧
    (generateVariantsFromFlat (sampleBank 90) 40 "culture").map (fun p => (p.1, p.2.length)) =
      [(1, 40), (2, 50)] := by
  have h := generateVariantsFromFlat_merged_remainder (sampleBank 90) 40 "culture"
    (by decide) (by simp [sampleBank]) (by simp [sampleBank])
  simpa [sampleBank, List.range_succ] using h


/-- C4: when `N < K` (also for `N = 0` and for `N > 20`), the result is
exactly one variant, numbered 1, which holds all `N` questions: the shuffled
input, re-stamped. -/
theorem generateVariantsFromFlat_single_variant (qs : List Question) (K : Nat) (sid : String)
    (hN : qs.length < K) :
    generateVariantsFromFlat qs K sid =
      [(1, (shuffleArraySeeded qs (stringToSeed (sid ++ "_variants"))).mapIdx
        fun idx q => restamp 1 idx q)] ∧
    ∀ vqs, generateVariantsFromFlat qs K sid = [(1, vqs)] →
      vqs.length = qs.length ∧ (vqs.map Question.content).Perm (qs.map Question.content) := by
  have hdiv : qs.length / K = 0 := Nat.div_eq_of_lt hN
  have hv : numVariants qs.length K - 1 = 0 := by
    unfold numVariants
    simp only
    rw [hdiv]
    split <;> rfl
  have hgen : generateVariantsFromFlat qs K sid =
      [(1, (shuffleArraySeeded qs (stringToSeed (sid ++ "_variants"))).mapIdx
        fun idx q => restamp 1 idx q)] := by
    rw [generateVariantsFromFlat_eq, hv]
    simp [slice, List.range_succ]
  refine ⟨hgen, ?_⟩
  intro vqs hvqs
  rw [hgen] at hvqs
  have hq : vqs = (shuffleArraySeeded qs (stringToSeed (sid ++ "_variants"))).mapIdx
      fun idx q => restamp 1 idx q := by
    simpa using hvqs.symm
  subst hq
  refine ⟨by simp [shuffleArraySeeded_length], ?_⟩
  rw [map_content_mapIdx_restamp]
  exact (shuffleArraySeeded_perm qs _).map _

/-- Witness of C4: 25 questions with 40 per variant give one variant of 25. -/
theorem generateVariantsFromFlat_single_variant_witness :
    (generateVariantsFromFlat (sampleBank 25) 40 "culture").map (fun p => (p.1, p.2.length)) =
      [(1, 25)] := by
  have h := (generateVariantsFromFlat_single_variant (sampleBank 25) 40 "culture"
    (by simp [sampleBank])).1
  rw [h]
  simp [shuffleArraySeeded_length, sampleBank]

/-- C5: for a positive `questionsPerVariant`, the keys of the result are
`1, ..., numVariants`, and the question at position `p` of variant `v` has id
`v-(p+1)` in decimal, variant `v`, and the question text, options and correct
answer of the question at position `(v-1) * K + p` of the shuffled input. -/
theorem generateVariantsFromFlat_stamps (qs : List Question) (K : Nat) (sid : String)
    (_hK : 0 < K) :
    (generateVariantsFromFlat qs K sid).map Prod.fst = List.range' 1 (numVariants qs.length K) ∧
    ∀ v vqs, (v, vqs) ∈ generateVariantsFromFlat qs K sid → ∀ p q, vqs[p]? = some q →
      q.id = toString v ++ "-" ++ toString (p + 1) ∧ q.variant = some v ∧
      ∃ q0, (shuffleArraySeeded qs (stringToSeed (sid ++ "_variants")))[(v - 1) * K + p]? =
          some q0 ∧
        q.question = q0.question ∧ q.options = q0.options ∧
        q.correctAnswer = q0.correctAnswer := by
  have hpos := numVariants_pos qs.length K
  constructor
  · rw [generateVariantsFromFlat_eq, List.map_map,
      show numVariants qs.length K - 1 + 1 = numVariants qs.length K by omega,
      List.range'_eq_map_range]
    apply List.map_congr_left
    intro i _
    simp [Nat.add_comm]
  · intro v vqs hmem p q hq
    rw [generateVariantsFromFlat_eq, List.mem_map] at hmem
    obtain ⟨i, _, hi⟩ := hmem
    simp only [Prod.mk.injEq] at hi
    obtain ⟨hv, hvqs⟩ := hi
    subst hv
    subst hvqs
    rw [List.getElem?_mapIdx] at hq
    have hp : p < (slice (shuffleArraySeeded qs (stringToSeed (sid ++ "_variants"))) (i * K)
        (if i < numVariants qs.length K - 1 then (i + 1) * K
         else (shuffleArraySeeded qs (stringToSeed (sid ++ "_variants"))).length)).length := by
      by_contra hcon
      rw [List.getElem?_eq_none (by omega)] at hq
      simp at hq
    rw [slice_getElem? _ _ _ _ hp] at hq
    rcases hsh : (shuffleArraySeeded qs (stringToSeed (sid ++ "_variants")))[i * K + p]? with
      _ | q0
    · rw [hsh] at hq
      simp at hq
    · rw [hsh] at hq
      simp only [Option.map_some', Option.some.injEq] at hq
      subst hq
      refine ⟨rfl, rfl, q0, ?_, rfl, rfl, rfl⟩
      simpa using hsh

set_option maxRecDepth 100000 in
/-- Witness of C5 on a bank of five questions split by two: the keys and the
stamped ids. -/
theorem generateVariantsFromFlat_stamps_witness :
    (generateVariantsFromFlat (sampleBank 5) 2 "x").map Prod.fst =
      List.range' 1 (numVariants (sampleBank 5).length 2) ∧
    (generateVariantsFromFlat (sampleBank 5) 2 "x").map (fun p => p.2.map fun q => q.id) =
      [["1-1", "1-2"], ["2-1", "2-2", "2-3"]] :=
  ⟨(generateVariantsFromFlat_stamps (sampleBank 5) 2 "x" (by decide)).1, by decide⟩

theorem shuffleArraySeeded_loopIn_eq {α : Type} (i cell : Nat) (heap : GeneratorHeap)
    (shuffled : List α) (hcell : cell < heap.length) :
    (shuffleArraySeeded.loopIn i cell heap shuffled).1 =
      shuffleArraySeeded.loop i (heap.getD cell 0) shuffled ∧
    ∃ state, (shuffleArraySeeded.loopIn i cell heap shuffled).2 = heap.set cell state := by
  induction i generalizing heap shuffled with
  | zero =>
    refine ⟨rfl, heap.getD cell 0, ?_⟩
    simp only [shuffleArraySeeded.loopIn]
    rw [List.getD_eq_getElem _ _ hcell]
    apply List.ext_getElem?
    intro k
    by_cases hk : cell = k
    · subst hk
      simp [hcell]
    · simp [List.getElem?_set_ne hk]
  | succ i ih =>
    simp only [shuffleArraySeeded.loopIn, shuffleArraySeeded.loop, createSeededRandom.call]
    have hlen : cell < (heap.set cell (mulberry32 (heap.getD cell 0)).2).length := by
      simpa using hcell
    obtain ⟨h1, state, h2⟩ := ih (heap.set cell (mulberry32 (heap.getD cell 0)).2)
      (swapAt shuffled (i + 1)
        (RandomValue.floorMul ⟨(mulberry32 (heap.getD cell 0)).1, 4294967296⟩ (i + 1 + 1))) hlen
    refine ⟨?_, state, ?_⟩
    · rw [h1, List.getD_eq_getElem _ _ hlen, List.getElem_set_self]
    · rw [h2, List.set_set]

/-- A run of `shuffleArraySeeded` in a heap returns the list of the pure
embedding and leaves the heap extended by the cell of its own generator. -/
theorem shuffleArraySeeded_run_eq {α : Type} (heap : GeneratorHeap) (array : List α)
    (seed : Int) :
    (shuffleArraySeeded.run heap array seed).1 = shuffleArraySeeded array seed ∧
    ∃ state, (shuffleArraySeeded.run heap array seed).2 = heap ++ [state] := by
  unfold shuffleArraySeeded.run shuffleArraySeeded createSeededRandom.alloc
  simp only
  have hcell : heap.length < (heap ++ [seed]).length := by simp
  obtain ⟨h1, state, h2⟩ := shuffleArraySeeded_loopIn_eq (array.length - 1) heap.length
    (heap ++ [seed]) array hcell
  refine ⟨?_, state, ?_⟩
  · rw [h1]
    congr 1
    simp [List.getD_eq_getElem?_getD]
  · rw [h2]
    simp

theorem generateVariantsFromFlat_run_eq (heap : GeneratorHeap) (qs : List Question) (K : Nat)
    (sid : String) :
    (generateVariantsFromFlat.run heap qs K sid).1 = generateVariantsFromFlat qs K sid ∧
    ∃ state, (generateVariantsFromFlat.run heap qs K sid).2 = heap ++ [state] := by
  obtain ⟨h1, state, h2⟩ := shuffleArraySeeded_run_eq heap qs (stringToSeed (sid ++ "_variants"))
  unfold generateVariantsFromFlat.run generateVariantsFromFlat
  simp only
  rw [h1]
  exact ⟨rfl, state, h2⟩

/-- C6: `generateVariantsFromFlat` run in any heap of generator closures (for
`K > 0`): the result does not depend on the heap in which it runs, so two
invocations with equal arguments return equal results, in particular the
second of two consecutive invocations and an invocation after a restart; the
closures that exist before the call are left as they are, the call adding its
own generator only; and the result is the value of the pure embedding, a
function of the three arguments. -/
theorem generateVariantsFromFlat_deterministic (qs : List Question) (K : Nat) (sid : String)
    (_hK : 0 < K) (heap heap2 : GeneratorHeap) :
    (generateVariantsFromFlat.run heap qs K sid).1 =
      (generateVariantsFromFlat.run heap2 qs K sid).1 ∧
    (generateVariantsFromFlat.run (generateVariantsFromFlat.run heap qs K sid).2 qs K sid).1 =
      (generateVariantsFromFlat.run heap qs K sid).1 ∧
    (generateVariantsFromFlat.run heap qs K sid).2.take heap.length = heap ∧
    (generateVariantsFromFlat.run heap qs K sid).2.length = heap.length + 1 ∧
    (generateVariantsFromFlat.run heap qs K sid).1 = generateVariantsFromFlat qs K sid := by
  obtain ⟨h1, state, h2⟩ := generateVariantsFromFlat_run_eq heap qs K sid
  refine ⟨?_, ?_, ?_, ?_, h1⟩
  · rw [h1, (generateVariantsFromFlat_run_eq heap2 qs K sid).1]
  · rw [h1, (generateVariantsFromFlat_run_eq _ qs K sid).1]
  · rw [h2]
    simp
  · rw [h2]
    simp

set_option maxRecDepth 100000 in
/-- Witness of C6 on a bank of five questions: a run in the empty heap and a
run in a heap that holds the states of two other generators. -/
theorem generateVariantsFromFlat_deterministic_witness :
    (generateVariantsFromFlat.run [] (sampleBank 5) 2 "x").1 =
      (generateVariantsFromFlat.run [7, -3] (sampleBank 5) 2 "x").1 ∧
    ((generateVariantsFromFlat.run [7, -3] (sampleBank 5) 2 "x").1.map
      fun p => p.2.map fun q => q.id) = [["1-1", "1-2"], ["2-1", "2-2", "2-3"]] ∧
    (generateVariantsFromFlat.run [7, -3] (sampleBank 5) 2 "x").2.take 2 = [7, -3] :=
  ⟨(generateVariantsFromFlat_deterministic (sampleBank 5) 2 "x" (by decide) [] [7, -3]).1,
    by decide,
    (generateVariantsFromFlat_deterministic (sampleBank 5) 2 "x" (by decide) [7, -3] []).2.2.1⟩

/-! ## Lemmas on the option shuffle -/

theorem shuffleArray_length {α : Type} (random : Nat → RandomValue) (l : List α) :
    (shuffleArray random l).length = l.length :=
  (shuffleArray_perm random l).length_eq

theorem relabel_length (l : List AnswerOption) : (relabel l).length = l.length := by
  simp [relabel]

theorem relabel_getElem? (l : List AnswerOption) (i : Nat) :
    (relabel l)[i]? = l[i]?.map fun opt => { letter := letters[i]?, text := opt.text } := by
  simp [relabel, List.getElem?_mapIdx]

theorem relabel_map_text (l : List AnswerOption) :
    (relabel l).map (fun o => o.text) = l.map fun o => o.text := by
  apply List.ext_getElem?
  intro i
  simp only [List.getElem?_map, relabel_getElem?]
  cases l[i]? <;> simp

theorem letters_getElem? (i : Nat) (h : i < 5) : ∃ l, letters[i]? = some l ∧ l ≠ "" := by
  interval_cases i <;> simp [letters]

theorem letters_getElem?_inj (i j : Nat) (hi : i < 5) (hj : j < 5)
    (h : letters[i]? = letters[j]?) : i = j := by
  interval_cases i <;> interval_cases j <;> simp [letters] at h <;> rfl

theorem relabel_map_letter (l : List AnswerOption) (h : l.length ≤ 5) :
    (relabel l).map (fun o => o.letter) = (letters.take l.length).map some := by
  apply List.ext_getElem?
  intro i
  simp only [List.getElem?_map, relabel_getElem?]
  by_cases hi : i < l.length
  · obtain ⟨x, hx, _⟩ := letters_getElem? i (by omega)
    rw [List.getElem?_take_of_lt hi, hx, List.getElem?_eq_getElem hi]
    simp [hx]
  · have h1 : l[i]? = none := List.getElem?_eq_none (by omega)
    have h2 : (letters.take l.length)[i]? = none :=
      List.getElem?_eq_none (by rw [List.length_take]; omega)
    rw [h1, h2]
    rfl

theorem letters_nodup : letters.Nodup := by
  simp [letters]

/-- The result of `shuffleOptions` when the stored correct answer matches the
option `c`. -/
theorem shuffleOptions_matched (random : Nat → RandomValue) (q : Question) (c : AnswerOption)
    (hc : q.options.find? (fun o => o.letter == some q.correctAnswer) = some c) :
    shuffleOptions random q =
      { q with
        options := relabel (shuffleArray random q.options)
        correctAnswer :=
          match (relabel (shuffleArray random q.options)).find? (fun o => o.text == c.text) with
          | some o =>
            (match o.letter with
             | some l => if l = "" then q.correctAnswer else l
             | none => q.correctAnswer)
          | none => q.correctAnswer } := by
  unfold shuffleOptions
  simp only [hc]
  rfl

/-- In the matched case with at most five options, the new correct answer is
the letter of the first relabelled option with the text of `c`. -/
theorem shuffleOptions_found (random : Nat → RandomValue) (q : Question) (c : AnswerOption)
    (hlen : q.options.length ≤ 5)
    (hc : q.options.find? (fun o => o.letter == some q.correctAnswer) = some c) :
    ∃ o i, (relabel (shuffleArray random q.options))[i]? = some o ∧ i < 5 ∧
      o.text = c.text ∧ o.letter = some (shuffleOptions random q).correctAnswer := by
  have hperm := shuffleArray_perm random q.options
  have hcmem : c ∈ shuffleArray random q.options :=
    hperm.symm.subset (List.mem_of_find?_eq_some hc)
  obtain ⟨k, hk⟩ := List.getElem?_of_mem hcmem
  have hex : ∃ x, x ∈ relabel (shuffleArray random q.options) ∧ (x.text == c.text) = true := by
    refine ⟨{ letter := letters[k]?, text := c.text }, ?_, by simp⟩
    rw [List.mem_iff_getElem?]
    exact ⟨k, by rw [relabel_getElem?, hk]; rfl⟩
  rcases hfind : (relabel (shuffleArray random q.options)).find? (fun o => o.text == c.text)
    with _ | o
  · rw [List.find?_eq_none] at hfind
    obtain ⟨x, hx, hxt⟩ := hex
    exact absurd hxt (hfind x hx)
  · have hotext : o.text = c.text := by simpa using List.find?_some hfind
    obtain ⟨i, hi⟩ := List.getElem?_of_mem (List.mem_of_find?_eq_some hfind)
    have hilt : i < 5 := by
      by_contra hcon
      rw [List.getElem?_eq_none (by rw [relabel_length, shuffleArray_length]; omega)] at hi
      simp at hi
    obtain ⟨l, hl, hlne⟩ := letters_getElem? i hilt
    have holetter : o.letter = some l := by
      rw [relabel_getElem?] at hi
      rcases hs : (shuffleArray random q.options)[i]? with _ | x
      · rw [hs] at hi
        simp at hi
      · rw [hs] at hi
        simp only [Option.map_some', Option.some.injEq] at hi
        rw [← hi]
        exact hl
    refine ⟨o, i, hi, hilt, hotext, ?_⟩
    rw [shuffleOptions_matched random q c hc]
    simp only [hfind, holetter, hlne, if_false]

/-! ## Claims on the option shuffle -/

/-- C7: for a question with at most five options whose `correctAnswer`
matches the option `c` (the first option with that letter), and for every
random source, the `correctAnswer` of the result of `shuffleOptions` is the
letter of an option with the text of `c`, and every option carrying that
letter has the text of `c`. -/
theorem shuffleOptions_correctAnswer (random : Nat → RandomValue) (q : Question)
    (c : AnswerOption) (hlen : q.options.length ≤ 5)
    (hc : q.options.find? (fun o => o.letter == some q.correctAnswer) = some c) :
    (∃ o ∈ (shuffleOptions random q).options,
      o.letter = some (shuffleOptions random q).correctAnswer ∧ o.text = c.text) ∧
    ∀ o ∈ (shuffleOptions random q).options,
      o.letter = some (shuffleOptions random q).correctAnswer → o.text = c.text := by
  obtain ⟨o, i, hi, hilt, hotext, holetter⟩ := shuffleOptions_found random q c hlen hc
  have hopts : (shuffleOptions random q).options = relabel (shuffleArray random q.options) := by
    rw [shuffleOptions_matched random q c hc]
  rw [hopts]
  refine ⟨⟨o, List.mem_iff_getElem?.2 ⟨i, hi⟩, holetter, hotext⟩, ?_⟩
  intro o2 ho2 hl2
  obtain ⟨j, hj⟩ := List.getElem?_of_mem ho2
  have hjlt : j < 5 := by
    by_contra hcon
    rw [List.getElem?_eq_none (by rw [relabel_length, shuffleArray_length]; omega)] at hj
    simp at hj
  have hli : o.letter = letters[i]? := by
    rw [relabel_getElem?] at hi
    rcases hs : (shuffleArray random q.options)[i]? with _ | x
    · rw [hs] at hi
      simp at hi
    · rw [hs] at hi
      simp only [Option.map_some', Option.some.injEq] at hi
      rw [← hi]
  have hlj : o2.letter = letters[j]? := by
    rw [relabel_getElem?] at hj
    rcases hs : (shuffleArray random q.options)[j]? with _ | x
    · rw [hs] at hj
      simp at hj
    · rw [hs] at hj
      simp only [Option.map_some', Option.some.injEq] at hj
      rw [← hj]
  have hij : i = j := letters_getElem?_inj i j hilt hjlt (by rw [← hli, ← hlj, holetter, hl2])
  subst hij
  rw [hi] at hj
  have : o = o2 := by simpa using hj
  rw [← this]
  exact hotext

set_option maxRecDepth 100000 in
/-- Witness of C7: with the source that always returns 0 the two options of
the sample question change places and the correct answer becomes the second
letter. -/
theorem shuffleOptions_correctAnswer_witness :
    ((∃ o ∈ (shuffleOptions zeroRandom (sampleQuestion 0)).options,
      o.letter = some (shuffleOptions zeroRandom (sampleQuestion 0)).correctAnswer ∧
        o.text = "x") ∧
    ∀ o ∈ (shuffleOptions zeroRandom (sampleQuestion 0)).options,
      o.letter = some (shuffleOptions zeroRandom (sampleQuestion 0)).correctAnswer →
        o.text = "x") ∧
    (shuffleOptions zeroRandom (sampleQuestion 0)).correctAnswer = "б" :=
  ⟨shuffleOptions_correctAnswer zeroRandom (sampleQuestion 0) ⟨some "а", "x"⟩
    (by decide) (by decide), by decide⟩

/-- C8: for a question with `n` options, `1 ≤ n ≤ 5`, whose `correctAnswer`
matches an option, and for every random source, the result of `shuffleOptions`
has `n` options, the option at position `i` carries the letter at position `i`
of the alphabet (so the letters are pairwise distinct), the option texts are a
permutation of the input option texts, and `id` and the question text are
unchanged. -/
theorem shuffleOptions_relabels (random : Nat → RandomValue) (q : Question) (c : AnswerOption)
    (_h1 : 1 ≤ q.options.length) (h5 : q.options.length ≤ 5)
    (hc : q.options.find? (fun o => o.letter == some q.correctAnswer) = some c) :
    (shuffleOptions random q).options.length = q.options.length ∧
    (shuffleOptions random q).options.map (fun o => o.letter) =
      (letters.take q.options.length).map some ∧
    ((shuffleOptions random q).options.map fun o => o.letter).Nodup ∧
    ((shuffleOptions random q).options.map fun o => o.text).Perm
      (q.options.map fun o => o.text) ∧
    (shuffleOptions random q).id = q.id ∧
    (shuffleOptions random q).question = q.question := by
  have hopts : (shuffleOptions random q).options = relabel (shuffleArray random q.options) := by
    rw [shuffleOptions_matched random q c hc]
  have hlen := shuffleArray_length random q.options
  have hletters : (relabel (shuffleArray random q.options)).map (fun o => o.letter) =
      (letters.take q.options.length).map some := by
    rw [relabel_map_letter _ (by omega), hlen]
  rw [hopts]
  refine ⟨by rw [relabel_length, hlen], hletters, ?_, ?_, ?_, ?_⟩
  · rw [hletters]
    exact (letters_nodup.sublist (List.take_sublist _ _)).map (Option.some_injective _)
  · rw [relabel_map_text]
    exact (shuffleArray_perm random q.options).map _
  · rw [shuffleOptions_matched random q c hc]
  · rw [shuffleOptions_matched random q c hc]

set_option maxRecDepth 100000 in
/-- Witness of C8: the two options of the sample question after the shuffle
with the source that always returns 0. -/
theorem shuffleOptions_relabels_witness :
    (shuffleOptions zeroRandom (sampleQuestion 0)).options.length = 2 ∧
    (shuffleOptions zeroRandom (sampleQuestion 0)).options = [⟨some "а", "y"⟩, ⟨some "б", "x"⟩] :=
  ⟨(shuffleOptions_relabels zeroRandom (sampleQuestion 0) ⟨some "а", "x"⟩
    (by decide) (by decide) (by decide)).1, by decide⟩

/-- C9: when no option carries the stored `correctAnswer` letter,
`shuffleOptions` returns the question itself, for every random source. -/
theorem shuffleOptions_unmatched (random : Nat → RandomValue) (q : Question)
    (h : ∀ o ∈ q.options, o.letter ≠ some q.correctAnswer) :
    shuffleOptions random q = q := by
  have hnone : q.options.find? (fun o => o.letter == some q.correctAnswer) = none := by
    rw [List.find?_eq_none]
    intro o ho
    simpa using h o ho
  unfold shuffleOptions
  simp only [hnone]

set_option maxRecDepth 100000 in
/-- Witness of C9 on a question whose correct answer is a letter that no
option carries. -/
theorem shuffleOptions_unmatched_witness :
    shuffleOptions zeroRandom unmatchedQuestion = unmatchedQuestion :=
  shuffleOptions_unmatched zeroRandom unmatchedQuestion (by decide)

/-! ## Lemmas on objects -/

theorem Obj.get_set_self {V : Type} (o : Obj V) (k : String) (v : V) :
    Obj.get (Obj.set o k v) k = some v := by
  unfold Obj.get Obj.set
  induction o with
  | nil => simp [List.lookup]
  | cons p o ih =>
    obtain ⟨a, b⟩ := p
    by_cases hak : a = k
    · subst hak
      simp [List.lookup]
    · have hka : (k == a) = false := by simpa using fun h => hak h.symm
      have hak2 : (a == k) = false := by simpa using hak
      by_cases hany : (o.any fun p => p.1 == k) = true
      · rw [if_pos hany] at ih
        simp only [List.any_cons, hak2, Bool.false_or, hany, if_true, List.map_cons,
          Bool.false_eq_true, if_false, List.lookup, hka]
        exact ih
      · rw [if_neg hany] at ih
        simp only [List.any_cons, hak2, Bool.false_or, hany, if_false, List.cons_append,
          List.lookup, hka]
        exact ih

theorem lookup_map_set_ne {V : Type} (o : List (String × V)) (k k2 : String) (v : V)
    (h : k2 ≠ k) :
    List.lookup k2 (o.map fun p => if p.1 == k then (k, v) else p) = List.lookup k2 o := by
  have hk : (k2 == k) = false := by simpa using h
  induction o with
  | nil => rfl
  | cons p o ih =>
    obtain ⟨a, b⟩ := p
    rw [List.map_cons]
    by_cases hak : a = k
    · subst hak
      have e : (if ((a, b).1 == a) = true then (a, v) else (a, b)) = (a, v) := by simp
      rw [e, List.lookup_cons, List.lookup_cons, hk]
      exact ih
    · have e : (if ((a, b).1 == k) = true then (k, v) else (a, b)) = (a, b) := by simp [hak]
      rw [e, List.lookup_cons, List.lookup_cons, ih]

theorem lookup_append_ne {V : Type} (o : List (String × V)) (k k2 : String) (v : V)
    (h : k2 ≠ k) :
    List.lookup k2 (o ++ [(k, v)]) = List.lookup k2 o := by
  have hk : (k2 == k) = false := by simpa using h
  rw [List.lookup_append]
  simp [List.lookup_cons, hk]

theorem Obj.get_set_ne {V : Type} (o : Obj V) (k k2 : String) (v : V) (h : k2 ≠ k) :
    Obj.get (Obj.set o k v) k2 = Obj.get o k2 := by
  unfold Obj.get Obj.set
  split
  · exact lookup_map_set_ne o k k2 v h
  · exact lookup_append_ne o k k2 v h

/-! ## Lemmas on the session operations -/

@[simp] theorem saveToStorage_screen (key : String) (data : Stored) (st : AppState) :
    (saveToStorage key data st).screen = st.screen := by
  unfold saveToStorage
  split <;> rfl

@[simp] theorem saveToStorage_selectedSubject (key : String) (data : Stored) (st : AppState) :
    (saveToStorage key data st).selectedSubject = st.selectedSubject := by
  unfold saveToStorage
  split <;> rfl

@[simp] theorem saveToStorage_selectedVariant (key : String) (data : Stored) (st : AppState) :
    (saveToStorage key data st).selectedVariant = st.selectedVariant := by
  unfold saveToStorage
  split <;> rfl

@[simp] theorem saveToStorage_questions (key : String) (data : Stored) (st : AppState) :
    (saveToStorage key data st).questions = st.questions := by
  unfold saveToStorage
  split <;> rfl

@[simp] theorem saveToStorage_currentIndex (key : String) (data : Stored) (st : AppState) :
    (saveToStorage key data st).currentIndex = st.currentIndex := by
  unfold saveToStorage
  split <;> rfl

@[simp] theorem saveToStorage_score (key : String) (data : Stored) (st : AppState) :
    (saveToStorage key data st).score = st.score := by
  unfold saveToStorage
  split <;> rfl

@[simp] theorem saveToStorage_startTime (key : String) (data : Stored) (st : AppState) :
    (saveToStorage key data st).startTime = st.startTime := by
  unfold saveToStorage
  split <;> rfl

@[simp] theorem saveToStorage_endTime (key : String) (data : Stored) (st : AppState) :
    (saveToStorage key data st).endTime = st.endTime := by
  unfold saveToStorage
  split <;> rfl

@[simp] theorem saveToStorage_isErrorReviewMode (key : String) (data : Stored) (st : AppState) :
    (saveToStorage key data st).isErrorReviewMode = st.isErrorReviewMode := by
  unfold saveToStorage
  split <;> rfl

@[simp] theorem saveToStorage_wrongAnswersThisSession (key : String) (data : Stored) (st : AppState) :
    (saveToStorage key data st).wrongAnswersThisSession = st.wrongAnswersThisSession := by
  unfold saveToStorage
  split <;> rfl

@[simp] theorem saveToStorage_completedVariants (key : String) (data : Stored) (st : AppState) :
    (saveToStorage key data st).completedVariants = st.completedVariants := by
  unfold saveToStorage
  split <;> rfl

@[simp] theorem saveToStorage_globalStats (key : String) (data : Stored) (st : AppState) :
    (saveToStorage key data st).globalStats = st.globalStats := by
  unfold saveToStorage
  split <;> rfl

@[simp] theorem saveToStorage_wrongAnswers (key : String) (data : Stored) (st : AppState) :
    (saveToStorage key data st).wrongAnswers = st.wrongAnswers := by
  unfold saveToStorage
  split <;> rfl

@[simp] theorem saveToStorage_selectedAnswer (key : String) (data : Stored) (st : AppState) :
    (saveToStorage key data st).selectedAnswer = st.selectedAnswer := by
  unfold saveToStorage
  split <;> rfl

@[simp] theorem saveToStorage_answerState (key : String) (data : Stored) (st : AppState) :
    (saveToStorage key data st).answerState = st.answerState := by
  unfold saveToStorage
  split <;> rfl

@[simp] theorem saveToStorage_pendingNext (key : String) (data : Stored) (st : AppState) :
    (saveToStorage key data st).pendingNext = st.pendingNext := by
  unfold saveToStorage
  split <;> rfl

@[simp] theorem saveToStorage_storageWritable (key : String) (data : Stored) (st : AppState) :
    (saveToStorage key data st).storageWritable = st.storageWritable := by
  unfold saveToStorage
  split <;> rfl

@[simp] theorem commit_screen (old new : AppState) : (commit old new).screen = new.screen := by
  unfold commit
  split <;> rfl

@[simp] theorem commit_selectedSubject (old new : AppState) : (commit old new).selectedSubject = new.selectedSubject := by
  unfold commit
  split <;> rfl

@[simp] theorem commit_selectedVariant (old new : AppState) : (commit old new).selectedVariant = new.selectedVariant := by
  unfold commit
  split <;> rfl

@[simp] theorem commit_questions (old new : AppState) : (commit old new).questions = new.questions := by
  unfold commit
  split <;> rfl

@[simp] theorem commit_currentIndex (old new : AppState) : (commit old new).currentIndex = new.currentIndex := by
  unfold commit
  split <;> rfl

@[simp] theorem commit_score (old new : AppState) : (commit old new).score = new.score := by
  unfold commit
  split <;> rfl

@[simp] theorem commit_startTime (old new : AppState) : (commit old new).startTime = new.startTime := by
  unfold commit
  split <;> rfl

@[simp] theorem commit_endTime (old new : AppState) : (commit old new).endTime = new.endTime := by
  unfold commit
  split <;> rfl

@[simp] theorem commit_isErrorReviewMode (old new : AppState) : (commit old new).isErrorReviewMode = new.isErrorReviewMode := by
  unfold commit
  split <;> rfl

@[simp] theorem commit_wrongAnswersThisSession (old new : AppState) : (commit old new).wrongAnswersThisSession = new.wrongAnswersThisSession := by
  unfold commit
  split <;> rfl

@[simp] theorem commit_completedVariants (old new : AppState) : (commit old new).completedVariants = new.completedVariants := by
  unfold commit
  split <;> rfl

@[simp] theorem commit_globalStats (old new : AppState) : (commit old new).globalStats = new.globalStats := by
  unfold commit
  split <;> rfl

@[simp] theorem commit_wrongAnswers (old new : AppState) : (commit old new).wrongAnswers = new.wrongAnswers := by
  unfold commit
  split <;> rfl

@[simp] theorem commit_pendingNext (old new : AppState) : (commit old new).pendingNext = new.pendingNext := by
  unfold commit
  split <;> rfl

@[simp] theorem commit_storageWritable (old new : AppState) : (commit old new).storageWritable = new.storageWritable := by
  unfold commit
  split <;> rfl

@[simp] theorem commit_storage (old new : AppState) : (commit old new).storage = new.storage := by
  unfold commit
  split <;> rfl

theorem commit_answerState (old new : AppState) :
    (commit old new).answerState = new.answerState ∨ (commit old new).answerState = none := by
  unfold commit
  split
  · exact Or.inl rfl
  · exact Or.inr rfl

theorem commit_of_key (old new : AppState)
    (h : questionScreenKey old = questionScreenKey new)
    (hs : (questionScreenKey new).isSome = true) : commit old new = new := by
  unfold commit
  rw [if_pos ⟨h, hs⟩]

@[simp] theorem commit_captured (old new : AppState) :
    (commit old new).captured = new.captured := by
  simp [AppState.captured]

@[simp] theorem commit_statsOf (old new : AppState) (sid : String) :
    (commit old new).statsOf sid = new.statsOf sid := by
  simp [AppState.statsOf]

@[simp] theorem commit_recordOf (old new : AppState) (sid key : String) :
    (commit old new).recordOf sid key = new.recordOf sid key := by
  simp [AppState.recordOf]

@[simp] theorem handleAnswer_screen (isCorrect : Bool) (text : String) (st : AppState) :
    (handleAnswer isCorrect text st).screen = st.screen := by
  unfold handleAnswer
  split
  · split <;> simp
  · rfl

@[simp] theorem handleAnswer_selectedSubject (isCorrect : Bool) (text : String) (st : AppState) :
    (handleAnswer isCorrect text st).selectedSubject = st.selectedSubject := by
  unfold handleAnswer
  split
  · split <;> simp
  · rfl

@[simp] theorem handleAnswer_selectedVariant (isCorrect : Bool) (text : String) (st : AppState) :
    (handleAnswer isCorrect text st).selectedVariant = st.selectedVariant := by
  unfold handleAnswer
  split
  · split <;> simp
  · rfl

@[simp] theorem handleAnswer_questions (isCorrect : Bool) (text : String) (st : AppState) :
    (handleAnswer isCorrect text st).questions = st.questions := by
  unfold handleAnswer
  split
  · split <;> simp
  · rfl

@[simp] theorem handleAnswer_currentIndex (isCorrect : Bool) (text : String) (st : AppState) :
    (handleAnswer isCorrect text st).currentIndex = st.currentIndex := by
  unfold handleAnswer
  split
  · split <;> simp
  · rfl

@[simp] theorem handleAnswer_startTime (isCorrect : Bool) (text : String) (st : AppState) :
    (handleAnswer isCorrect text st).startTime = st.startTime := by
  unfold handleAnswer
  split
  · split <;> simp
  · rfl

@[simp] theorem handleAnswer_isErrorReviewMode (isCorrect : Bool) (text : String) (st : AppState) :
    (handleAnswer isCorrect text st).isErrorReviewMode = st.isErrorReviewMode := by
  unfold handleAnswer
  split
  · split <;> simp
  · rfl

@[simp] theorem handleAnswer_answerState (isCorrect : Bool) (text : String) (st : AppState) :
    (handleAnswer isCorrect text st).answerState = st.answerState := by
  unfold handleAnswer
  split
  · split <;> simp
  · rfl

@[simp] theorem handleAnswer_pendingNext (isCorrect : Bool) (text : String) (st : AppState) :
    (handleAnswer isCorrect text st).pendingNext = st.pendingNext := by
  unfold handleAnswer
  split
  · split <;> simp
  · rfl

@[simp] theorem handleAnswer_completedVariants (isCorrect : Bool) (text : String) (st : AppState) :
    (handleAnswer isCorrect text st).completedVariants = st.completedVariants := by
  unfold handleAnswer
  split
  · split <;> simp
  · rfl

@[simp] theorem handleAnswer_globalStats (isCorrect : Bool) (text : String) (st : AppState) :
    (handleAnswer isCorrect text st).globalStats = st.globalStats := by
  unfold handleAnswer
  split
  · split <;> simp
  · rfl

@[simp] theorem handleAnswer_selectedAnswer (isCorrect : Bool) (text : String) (st : AppState) :
    (handleAnswer isCorrect text st).selectedAnswer = st.selectedAnswer := by
  unfold handleAnswer
  split
  · split <;> simp
  · rfl

theorem handleAnswer_captured (isCorrect : Bool) (text : String) (st : AppState) :
    (handleAnswer isCorrect text st).captured = st.captured := by
  simp [AppState.captured]

theorem handleNextQuestion_advance (c : Captured) (now : Int) (st : AppState)
    (h : c.currentIndex + 1 < c.questions.length) :
    handleNextQuestion c now st = { st with currentIndex := st.currentIndex + 1 } := by
  unfold handleNextQuestion
  rw [if_pos h]

theorem handleNextQuestion_final_fields (c : Captured) (now : Int) (st : AppState)
    (subject : Subject) (h : ¬ c.currentIndex + 1 < c.questions.length)
    (hs : c.selectedSubject = some subject) :
    (handleNextQuestion c now st).screen = Screen.result ∧
    (handleNextQuestion c now st).questions = st.questions ∧
    (handleNextQuestion c now st).currentIndex = st.currentIndex ∧
    (handleNextQuestion c now st).selectedSubject = st.selectedSubject ∧
    (handleNextQuestion c now st).pendingNext = st.pendingNext ∧
    (handleNextQuestion c now st).wrongAnswersThisSession = st.wrongAnswersThisSession := by
  unfold handleNextQuestion
  rw [if_neg h]
  simp only [hs]
  split_ifs <;> simp

theorem handleNextQuestion_final_stats (c : Captured) (now : Int) (st : AppState)
    (subject : Subject) (h : ¬ c.currentIndex + 1 < c.questions.length)
    (hs : c.selectedSubject = some subject) :
    (handleNextQuestion c now st).globalStats =
      Obj.set st.globalStats subject.id
        { totalAttempts := (st.statsOf subject.id).totalAttempts + 1
          totalQuestions := (st.statsOf subject.id).totalQuestions + c.questions.length
          totalCorrect := (st.statsOf subject.id).totalCorrect +
            ((c.questions.length : Int) - (st.wrongAnswersThisSession.length : Int))
          totalTimeMs := (st.statsOf subject.id).totalTimeMs + (now - c.startTime.getD 0) } := by
  unfold handleNextQuestion
  rw [if_neg h]
  simp only [hs]
  split_ifs <;> simp [AppState.statsOf]

theorem handleNextQuestion_final_records (c : Captured) (now : Int) (st : AppState)
    (subject : Subject) (h : ¬ c.currentIndex + 1 < c.questions.length)
    (hs : c.selectedSubject = some subject) :
    (handleNextQuestion c now st).completedVariants = st.completedVariants ∨
    (handleNextQuestion c now st).completedVariants =
      Obj.set st.completedVariants subject.id
        (Obj.set ((Obj.get st.completedVariants subject.id).getD []) (variantKey c.selectedVariant)
          (finalRecord c.questions.length st.wrongAnswersThisSession.length now)) := by
  unfold handleNextQuestion
  rw [if_neg h]
  simp only [hs]
  split_ifs <;> simp [finalRecord]

theorem handleNextQuestion_final_new_record (c : Captured) (now : Int) (st : AppState)
    (subject : Subject) (h : ¬ c.currentIndex + 1 < c.questions.length)
    (hs : c.selectedSubject = some subject) (hr : c.isErrorReviewMode = false)
    (hnone : Obj.get ((Obj.get st.completedVariants subject.id).getD [])
      (variantKey c.selectedVariant) = none) :
    (handleNextQuestion c now st).completedVariants =
      Obj.set st.completedVariants subject.id
        (Obj.set ((Obj.get st.completedVariants subject.id).getD []) (variantKey c.selectedVariant)
          (finalRecord c.questions.length st.wrongAnswersThisSession.length now)) := by
  unfold handleNextQuestion
  rw [if_neg h]
  simp only [hs]
  split_ifs <;> simp_all [finalRecord]

theorem questionScreenKey_isSome (st : AppState)
    (h : st.screen = Screen.quiz ∧ 0 < st.questions.length) :
    (questionScreenKey st).isSome = true := by
  unfold questionScreenKey
  rw [if_pos h]
  rfl

theorem questionScreenKey_congr (st st2 : AppState) (h1 : st2.screen = st.screen)
    (h2 : st2.questions = st.questions) (h3 : st2.currentIndex = st.currentIndex) :
    questionScreenKey st = questionScreenKey st2 := by
  unfold questionScreenKey
  rw [h1, h2, h3]

theorem handleSelectAnswer_unanswered (question : Question) (option : AnswerOption)
    (st : AppState) (h : st.answerState = none) :
    (handleSelectAnswer question option st).screen = st.screen ∧
    (handleSelectAnswer question option st).questions = st.questions ∧
    (handleSelectAnswer question option st).currentIndex = st.currentIndex ∧
    (handleSelectAnswer question option st).selectedSubject = st.selectedSubject ∧
    (handleSelectAnswer question option st).captured = st.captured ∧
    (handleSelectAnswer question option st).pendingNext = st.pendingNext ++ [st.captured] ∧
    (handleSelectAnswer question option st).answerState.isSome = true := by
  unfold handleSelectAnswer
  rw [h]
  simp [AppState.captured]

theorem SessionInv_answer (n : Nat) (subject : Subject) (st : AppState) (optionIndex : Nat)
    (h : SessionInv n subject st) :
    SessionInv n subject ((SessionOp.answer optionIndex).apply st) := by
  unfold SessionOp.apply
  simp only
  split
  next hm =>
    split
    next question _ =>
      split
      next option _ =>
        by_cases ha : st.answerState.isSome = true
        · have hsame : handleSelectAnswer question option st = st := by
            unfold handleSelectAnswer
            rw [if_pos ha]
          rw [hsame, commit_of_key st st rfl (questionScreenKey_isSome st hm)]
          exact h
        · have hnone : st.answerState = none := by
            cases hst : st.answerState with
            | none => rfl
            | some b => rw [hst] at ha; simp at ha
          obtain ⟨h1, h2, h3, h4, h5, h6, h7⟩ :=
            handleSelectAnswer_unanswered question option st hnone
          have hkey := questionScreenKey_congr st (handleSelectAnswer question option st) h1 h2 h3
          have hsome : (questionScreenKey (handleSelectAnswer question option st)).isSome = true := by
            rw [← hkey]
            exact questionScreenKey_isSome st hm
          rw [commit_of_key _ _ hkey hsome]
          obtain ⟨i1, i2, i3, i4⟩ := h
          have hp : st.pendingNext = [] := by
            rcases i4 with hp | ⟨_, hsome2, _⟩
            · exact hp
            · exact absurd hsome2 ha
          refine ⟨by rw [h2]; exact i1, by rw [h4]; exact i2, ?_, ?_⟩
          · intro hq
            rw [h3]
            exact i3 (by rw [← h1]; exact hq)
          · right
            refine ⟨by rw [h6, hp, h5]; rfl, h7, by rw [h1]; exact hm.1⟩
      next => exact h
    next => exact h
  next => exact h

theorem SessionInv_skip (n : Nat) (subject : Subject) (st : AppState)
    (h : SessionInv n subject st) :
    SessionInv n subject (SessionOp.skip.apply st) := by
  unfold SessionOp.apply
  simp only
  split
  next hm =>
    split
    next question hq =>
      by_cases ha : st.answerState.isSome = true
      · have hsame : handleSkip st = st := by
          unfold handleSkip
          rw [if_pos ha]
        rw [hsame, commit_of_key st st rfl (questionScreenKey_isSome st hm)]
        exact h
      · obtain ⟨i1, i2, i3, i4⟩ := h
        have hp : st.pendingNext = [] := by
          rcases i4 with hp | ⟨_, hsome2, _⟩
          · exact hp
          · exact absurd hsome2 ha
        have hskip : handleSkip st =
            { st with questions := st.questions.eraseIdx st.currentIndex ++ [question] } := by
          unfold handleSkip
          rw [if_neg ha]
          unfold handleSkipQuestion
          rw [hq]
        have hlt : st.currentIndex < st.questions.length := by
          rw [i1]
          exact i3 hm.1
        rw [hskip]
        refine ⟨?_, ?_, ?_, ?_⟩
        · simp only [commit_questions, List.length_append, List.length_cons, List.length_nil]
          rw [List.length_eraseIdx_of_lt hlt]
          omega
        · simpa using i2
        · intro _
          simpa using i3 hm.1
        · left
          simpa using hp
    next => exact h
  next => exact h

theorem SessionInv_next (n : Nat) (subject : Subject) (st : AppState) (now : Int)
    (h : SessionInv n subject st) :
    SessionInv n subject ((SessionOp.next now).apply st) := by
  unfold SessionOp.apply
  simp only
  split
  next => exact h
  next c rest hpend =>
    obtain ⟨i1, i2, i3, i4⟩ := h
    rcases i4 with hp | ⟨hp, _, hquiz⟩
    · rw [hp] at hpend
      simp at hpend
    · rw [hp] at hpend
      have hc : c = st.captured := by
        have := List.cons.inj hpend
        exact this.1.symm
      have hrest : rest = [] := by
        have := List.cons.inj hpend
        exact this.2.symm
      subst hc
      subst hrest
      by_cases hadv : st.captured.currentIndex + 1 < st.captured.questions.length
      · rw [handleNextQuestion_advance _ _ _ hadv]
        refine ⟨by simpa using i1, by simpa using i2, ?_, Or.inl (by simp)⟩
        intro _
        have : st.currentIndex + 1 < st.questions.length := hadv
        simp only [commit_currentIndex]
        omega
      · obtain ⟨f1, f2, f3, f4, f5, _⟩ := handleNextQuestion_final_fields st.captured now
          { st with pendingNext := [] } subject hadv i2
        refine ⟨?_, ?_, ?_, Or.inl ?_⟩
        · rw [commit_questions, f2]
          exact i1
        · rw [commit_selectedSubject, f4]
          exact i2
        · intro hq
          rw [commit_screen, f1] at hq
          cases hq
        · rw [commit_pendingNext, f5]

theorem SessionInv_apply (n : Nat) (subject : Subject) (st : AppState) (op : SessionOp)
    (h : SessionInv n subject st) : SessionInv n subject (op.apply st) := by
  cases op with
  | answer optionIndex => exact SessionInv_answer n subject st optionIndex h
  | skip => exact SessionInv_skip n subject st h
  | next now => exact SessionInv_next n subject st now h

theorem SessionInv_run (n : Nat) (subject : Subject) (ops : List SessionOp) (st : AppState)
    (h : SessionInv n subject st) : SessionInv n subject (runSession st ops) := by
  induction ops generalizing st with
  | nil => exact h
  | cons op ops ih => exact ih (op.apply st) (SessionInv_apply n subject st op h)

theorem SessionInv_of_start (n : Nat) (subject : Subject) (st : AppState) (hn : 1 ≤ n)
    (h : SessionStart n st) (hs : st.selectedSubject = some subject) :
    SessionInv n subject st := by
  obtain ⟨_, h2, h3, _, _, _, h7, _⟩ := h
  exact ⟨h2, hs, fun _ => by omega, Or.inl h7⟩

/-! ## Claims on the quiz session -/

/-- C10: in a session over `n ≥ 1` questions, after any sequence of answer,
skip and next operations, a `next` that finalizes adds `n` minus the number of
entries of the session-local wrong set to `totalCorrect` of the subject, and
every completion record that it writes has that score (and total `n`); it does
write one when the session is not an error review and no record is stored
under the variant key. -/
theorem finalScore_eq_total_minus_wrong (n : Nat) (subject : Subject) (st0 : AppState)
    (hn : 1 ≤ n) (h0 : SessionStart n st0) (hs : st0.selectedSubject = some subject)
    (ops : List SessionOp) (now : Int)
    (hquiz : (runSession st0 ops).screen = Screen.quiz)
    (hfin : ((SessionOp.next now).apply (runSession st0 ops)).screen = Screen.result) :
    (((SessionOp.next now).apply (runSession st0 ops)).statsOf subject.id).totalCorrect =
      ((runSession st0 ops).statsOf subject.id).totalCorrect +
        ((n : Int) - ((runSession st0 ops).wrongAnswersThisSession.length : Int)) ∧
    (∀ key r, ((SessionOp.next now).apply (runSession st0 ops)).recordOf subject.id key = some r →
      (runSession st0 ops).recordOf subject.id key ≠ some r →
        r.score = (n : Int) - ((runSession st0 ops).wrongAnswersThisSession.length : Int) ∧
        r.total = n) ∧
    ((runSession st0 ops).isErrorReviewMode = false →
      (runSession st0 ops).recordOf subject.id
        (variantKey (runSession st0 ops).selectedVariant) = none →
      ∃ r, ((SessionOp.next now).apply (runSession st0 ops)).recordOf subject.id
          (variantKey (runSession st0 ops).selectedVariant) = some r ∧
        r.score = (n : Int) - ((runSession st0 ops).wrongAnswersThisSession.length : Int)) := by
  have hinv := SessionInv_run n subject ops st0 (SessionInv_of_start n subject st0 hn h0 hs)
  generalize runSession st0 ops = st at hinv hquiz hfin ⊢
  obtain ⟨i1, i2, i3, i4⟩ := hinv
  have hstep : (SessionOp.next now).apply st =
      commit st (handleNextQuestion st.captured now { st with pendingNext := [] }) ∧
      ¬ st.captured.currentIndex + 1 < st.captured.questions.length := by
    rcases i4 with hp | ⟨hp, _, _⟩
    · have hsame : (SessionOp.next now).apply st = st := by
        unfold SessionOp.apply
        simp only [hp]
      rw [hsame, hquiz] at hfin
      cases hfin
    · have hap : (SessionOp.next now).apply st =
          commit st (handleNextQuestion st.captured now { st with pendingNext := [] }) := by
        unfold SessionOp.apply
        simp only [hp]
      refine ⟨hap, ?_⟩
      intro hadv
      rw [hap, handleNextQuestion_advance _ _ _ hadv, commit_screen] at hfin
      rw [show ({ st with pendingNext := [], currentIndex := st.currentIndex + 1 } :
        AppState).screen = st.screen from rfl, hquiz] at hfin
      cases hfin
  obtain ⟨hap, hnadv⟩ := hstep
  have hcs : st.captured.selectedSubject = some subject := i2
  have hlen : st.captured.questions.length = n := i1
  have hstats := handleNextQuestion_final_stats st.captured now { st with pendingNext := [] }
    subject hnadv hcs
  have hrec := handleNextQuestion_final_records st.captured now { st with pendingNext := [] }
    subject hnadv hcs
  rw [hap]
  refine ⟨?_, ?_, ?_⟩
  · rw [commit_statsOf]
    unfold AppState.statsOf
    rw [hstats, Obj.get_set_self]
    simp only [Option.getD_some, hlen]
    rfl
  · intro key r hr hne
    rw [commit_recordOf] at hr
    unfold AppState.recordOf at hr hne
    rcases hrec with hsame | hset
    · rw [hsame] at hr
      exact absurd hr hne
    · rw [hset, Obj.get_set_self, Option.getD_some] at hr
      by_cases hkey : key = variantKey st.captured.selectedVariant
      · subst hkey
        rw [Obj.get_set_self] at hr
        have : r = finalRecord st.captured.questions.length
            st.wrongAnswersThisSession.length now := by
          simpa using hr.symm
        subst this
        rw [hlen]
        exact ⟨rfl, rfl⟩
      · rw [Obj.get_set_ne _ _ _ _ hkey] at hr
        exact absurd hr hne
  · intro hrev hnone
    have hnew := handleNextQuestion_final_new_record st.captured now
      { st with pendingNext := [] } subject hnadv hcs hrev hnone
    refine ⟨finalRecord n st.wrongAnswersThisSession.length now, ?_, rfl⟩
    rw [commit_recordOf]
    unfold AppState.recordOf
    rw [hnew, Obj.get_set_self, Option.getD_some, hlen]
    exact Obj.get_set_self _ _ _

set_option maxRecDepth 1000000 in
/-- Witness of C10: in the sample session of two questions, one skip and one
wrong answer, finalization adds 2 - 1 = 1 to `totalCorrect` and stores a
record with score 1. -/
theorem finalScore_eq_total_minus_wrong_witness :
    SessionStart 2 sampleSession ∧
    (runSession sampleSession sampleOps).wrongAnswersThisSession = ["q1"] ∧
    (((SessionOp.next 3000).apply (runSession sampleSession sampleOps)).statsOf
      sampleSubject.id).totalCorrect =
      ((runSession sampleSession sampleOps).statsOf sampleSubject.id).totalCorrect +
        ((2 : Nat) - ((runSession sampleSession sampleOps).wrongAnswersThisSession.length : Int)) ∧
    ((SessionOp.next 3000).apply (runSession sampleSession sampleOps)).recordOf "s" "variant_1" =
      some ⟨1, 2, JsNumber.finite 50, 3000⟩ :=
  ⟨by unfold SessionStart; decide, by decide,
    (finalScore_eq_total_minus_wrong 2 sampleSubject sampleSession (by decide)
      (by unfold SessionStart; decide) (by decide) sampleOps 3000 (by decide) (by decide)).1,
    by decide⟩

/-! ## Lemmas on the double-precision percentage -/

theorem log2Floor_go_spec (fuel n : Nat) (h1 : 1 ≤ n) (h2 : n ≤ fuel) :
    2 ^ log2Floor.go fuel n ≤ n ∧ n < 2 ^ (log2Floor.go fuel n + 1) := by
  induction fuel generalizing n with
  | zero => omega
  | succ fuel ih =>
    unfold log2Floor.go
    by_cases hn : n < 2
    · rw [if_pos hn]
      have : n = 1 := by omega
      subst this
      simp
    · rw [if_neg hn]
      have h3 := ih (n / 2) (by omega) (by omega)
      obtain ⟨h4, h5⟩ := h3
      constructor
      · rw [pow_succ]
        omega
      · rw [pow_succ]
        omega

theorem log2Floor_spec (n : Nat) (h1 : 1 ≤ n) :
    2 ^ log2Floor n ≤ n ∧ n < 2 ^ (log2Floor n + 1) :=
  log2Floor_go_spec n n h1 (le_refl n)

theorem two_pow_toNat_div (e : Int) :
    ((2 : ℚ) ^ e.toNat) / (2 : ℚ) ^ (-e).toNat = (2 : ℚ) ^ e := by
  rcases le_total 0 e with h | h
  · have h1 : (-e).toNat = 0 := Int.toNat_eq_zero.2 (by omega)
    rw [h1, pow_zero, div_one, ← zpow_natCast, Int.toNat_of_nonneg h]
  · have h1 : e.toNat = 0 := Int.toNat_eq_zero.2 h
    have h2 : ((-e).toNat : Int) = -e := Int.toNat_of_nonneg (by omega)
    rw [h1, pow_zero, one_div, ← zpow_natCast, h2, ← zpow_neg, neg_neg]

theorem roundHalfEven_near (n d : Nat) (hd : 0 < d) :
    2 * (if d < 2 * (n % d) then n / d + 1 else if 2 * (n % d) < d then n / d
      else if n / d % 2 = 0 then n / d else n / d + 1) * d ≤ 2 * n + d ∧
    2 * n ≤ 2 * (if d < 2 * (n % d) then n / d + 1 else if 2 * (n % d) < d then n / d
      else if n / d % 2 = 0 then n / d else n / d + 1) * d + d := by
  have h1 := Nat.div_add_mod n d
  have h0 := Nat.mod_lt n hd
  have e1 : 2 * (n / d + 1) * d = 2 * (d * (n / d)) + 2 * d := by ring
  have e2 : 2 * (n / d) * d = 2 * (d * (n / d)) := by ring
  generalize n / d = q at *
  generalize n % d = r at *
  generalize d * q = dq at *
  split_ifs <;> constructor <;> omega

theorem roundToDouble_snd (num den : Nat) :
    (roundToDouble num den).2 =
      if 2 ^ 52 * den * 2 ^ ((log2Floor num : Int) - (log2Floor den : Int) - 52).toNat ≤
          num * 2 ^ (-((log2Floor num : Int) - (log2Floor den : Int) - 52)).toNat
      then (log2Floor num : Int) - (log2Floor den : Int) - 52
      else (log2Floor num : Int) - (log2Floor den : Int) - 52 - 1 := rfl

theorem roundToDouble_fst (num den : Nat) :
    (roundToDouble num den).1 =
      if den * 2 ^ (roundToDouble num den).2.toNat <
          2 * (num * 2 ^ (-(roundToDouble num den).2).toNat %
            (den * 2 ^ (roundToDouble num den).2.toNat))
      then num * 2 ^ (-(roundToDouble num den).2).toNat /
          (den * 2 ^ (roundToDouble num den).2.toNat) + 1
      else if 2 * (num * 2 ^ (-(roundToDouble num den).2).toNat %
            (den * 2 ^ (roundToDouble num den).2.toNat)) <
          den * 2 ^ (roundToDouble num den).2.toNat
      then num * 2 ^ (-(roundToDouble num den).2).toNat /
          (den * 2 ^ (roundToDouble num den).2.toNat)
      else if num * 2 ^ (-(roundToDouble num den).2).toNat /
          (den * 2 ^ (roundToDouble num den).2.toNat) % 2 = 0
      then num * 2 ^ (-(roundToDouble num den).2).toNat /
          (den * 2 ^ (roundToDouble num den).2.toNat)
      else num * 2 ^ (-(roundToDouble num den).2).toNat /
          (den * 2 ^ (roundToDouble num den).2.toNat) + 1 := rfl

/-- The mantissa is the scaled quotient rounded to within one half. -/
theorem roundToDouble_mantissa (num den : Nat) (hd : 0 < den) :
    |((roundToDouble num den).1 : ℚ) - (num : ℚ) / den / (2 : ℚ) ^ (roundToDouble num den).2| ≤
      1 / 2 := by
  rw [roundToDouble_fst]
  generalize (roundToDouble num den).2 = e
  have hnear := roundHalfEven_near (num * 2 ^ (-e).toNat) (den * 2 ^ e.toNat) (by positivity)
  generalize (if den * 2 ^ e.toNat < 2 * (num * 2 ^ (-e).toNat % (den * 2 ^ e.toNat))
      then num * 2 ^ (-e).toNat / (den * 2 ^ e.toNat) + 1
      else if 2 * (num * 2 ^ (-e).toNat % (den * 2 ^ e.toNat)) < den * 2 ^ e.toNat
      then num * 2 ^ (-e).toNat / (den * 2 ^ e.toNat)
      else if num * 2 ^ (-e).toNat / (den * 2 ^ e.toNat) % 2 = 0
      then num * 2 ^ (-e).toNat / (den * 2 ^ e.toNat)
      else num * 2 ^ (-e).toNat / (den * 2 ^ e.toNat) + 1) = m at hnear ⊢
  obtain ⟨h1, h2⟩ := hnear
  have hdq : (0 : ℚ) < (den : ℚ) * 2 ^ e.toNat := by positivity
  have hscaled : (num : ℚ) / den / (2 : ℚ) ^ e =
      ((num : ℚ) * 2 ^ (-e).toNat) / ((den : ℚ) * 2 ^ e.toNat) := by
    rw [← two_pow_toNat_div e]
    have ha : ((2 : ℚ) ^ e.toNat) ≠ 0 := by positivity
    have hb : ((2 : ℚ) ^ (-e).toNat) ≠ 0 := by positivity
    have hden : (den : ℚ) ≠ 0 := by positivity
    field_simp
  rw [hscaled, abs_le]
  have h1q : (2 : ℚ) * m * (den * 2 ^ e.toNat) ≤ 2 * (num * 2 ^ (-e).toNat) + den * 2 ^ e.toNat := by
    exact_mod_cast h1
  have h2q : (2 : ℚ) * (num * 2 ^ (-e).toNat) ≤ 2 * m * (den * 2 ^ e.toNat) + den * 2 ^ e.toNat := by
    exact_mod_cast h2
  have hup : ((num : ℚ) * 2 ^ (-e).toNat) / ((den : ℚ) * 2 ^ e.toNat) ≤ (m : ℚ) + 1 / 2 := by
    rw [div_le_iff₀ hdq]
    linarith
  have hlo : (m : ℚ) - 1 / 2 ≤ ((num : ℚ) * 2 ^ (-e).toNat) / ((den : ℚ) * 2 ^ e.toNat) := by
    rw [le_div_iff₀ hdq]
    linarith
  constructor <;> linarith

/-- The exponent is small enough for the scaled quotient to reach `2^52`. -/
theorem roundToDouble_exponent (num den : Nat) (hn : 0 < num) (hd : 0 < den) :
    (2 : ℚ) ^ 52 * (2 : ℚ) ^ (roundToDouble num den).2 ≤ (num : ℚ) / den := by
  rw [roundToDouble_snd]
  obtain ⟨hk1, _⟩ := log2Floor_spec num hn
  obtain ⟨_, hd2⟩ := log2Floor_spec den hd
  generalize log2Floor num = k at *
  generalize log2Floor den = d0 at *
  have hdenq : (0 : ℚ) < den := by exact_mod_cast hd
  split
  next hcond =>
    rw [← two_pow_toNat_div, le_div_iff₀ hdenq]
    have hb : (0 : ℚ) < (2 : ℚ) ^ (-((k : Int) - (d0 : Int) - 52)).toNat := by positivity
    have hq : (2 : ℚ) ^ 52 * den * 2 ^ ((k : Int) - (d0 : Int) - 52).toNat ≤
        num * 2 ^ (-((k : Int) - (d0 : Int) - 52)).toNat := by
      exact_mod_cast hcond
    have hre : (2 : ℚ) ^ 52 * ((2 : ℚ) ^ ((k : Int) - (d0 : Int) - 52).toNat /
        (2 : ℚ) ^ (-((k : Int) - (d0 : Int) - 52)).toNat) * den =
        ((2 : ℚ) ^ 52 * den * 2 ^ ((k : Int) - (d0 : Int) - 52).toNat) /
          (2 : ℚ) ^ (-((k : Int) - (d0 : Int) - 52)).toNat := by ring
    rw [hre, div_le_iff₀ hb]
    exact hq
  next =>
    have hk1q : (2 : ℚ) ^ k ≤ num := by exact_mod_cast hk1
    have hd2q : (den : ℚ) < 2 ^ (d0 + 1) := by exact_mod_cast hd2
    have hpow : (2 : ℚ) ^ 52 * (2 : ℚ) ^ ((k : Int) - (d0 : Int) - 52 - 1) =
        (2 : ℚ) ^ k / 2 ^ (d0 + 1) := by
      rw [← zpow_natCast (2 : ℚ) k, ← zpow_natCast (2 : ℚ) (d0 + 1),
        ← zpow_natCast (2 : ℚ) 52, ← zpow_add₀ (by norm_num : (2 : ℚ) ≠ 0),
        ← zpow_sub₀ (by norm_num : (2 : ℚ) ≠ 0)]
      congr 1
      push_cast
      ring
    rw [hpow]
    have hp : (0 : ℚ) < 2 ^ (d0 + 1) := by positivity
    rw [div_le_div_iff₀ hp hdenq]
    have h2k : (0 : ℚ) < 2 ^ k := by positivity
    nlinarith

/-- The relative error of `roundToDouble` is at most `2^-53`. -/
theorem roundToDouble_error (num den : Nat) (hn : 0 < num) (hd : 0 < den) :
    |doubleValue (roundToDouble num den) - (num : ℚ) / den| ≤ (num : ℚ) / den / 2 ^ 53 := by
  have hm := roundToDouble_mantissa num den hd
  have he := roundToDouble_exponent num den hn hd
  unfold doubleValue
  generalize (roundToDouble num den).1 = m at *
  generalize (roundToDouble num den).2 = e at *
  generalize (num : ℚ) / den = x at *
  have hpe : (0 : ℚ) < (2 : ℚ) ^ e := by positivity
  have hxe : x / (2 : ℚ) ^ e * (2 : ℚ) ^ e = x := div_mul_cancel₀ x (ne_of_gt hpe)
  have habs : |(m : ℚ) * (2 : ℚ) ^ e - x| = |(m : ℚ) - x / (2 : ℚ) ^ e| * (2 : ℚ) ^ e := by
    rw [← abs_of_pos hpe, ← abs_mul, abs_of_pos hpe, sub_mul, hxe]
  rw [habs, le_div_iff₀ (by positivity)]
  have h1 : |(m : ℚ) - x / (2 : ℚ) ^ e| * (2 : ℚ) ^ e ≤ 1 / 2 * (2 : ℚ) ^ e :=
    mul_le_mul_of_nonneg_right hm (le_of_lt hpe)
  have h53 : (2 : ℚ) ^ 53 = 2 * 2 ^ 52 := by norm_num
  rw [h53]
  nlinarith

/-- `mathRound` of a non-negative double is the floor of its value plus one
half. -/
theorem mathRound_floor (m : Nat) (e : Int) :
    ((mathRound false m e : Int) : ℚ) ≤ doubleValue (m, e) + 1 / 2 ∧
    doubleValue (m, e) + 1 / 2 < ((mathRound false m e : Int) : ℚ) + 1 := by
  unfold mathRound doubleValue
  simp only [Bool.false_eq_true, if_false]
  by_cases he : 0 ≤ e
  · rw [if_pos he]
    have hz : (2 : ℚ) ^ e = (2 : ℚ) ^ e.toNat := by
      rw [← zpow_natCast, Int.toNat_of_nonneg he]
    rw [hz]
    push_cast
    constructor <;> linarith
  · rw [if_neg he]
    have hz : (2 : ℚ) ^ e = 1 / (2 : ℚ) ^ (-e).toNat := by
      rw [← two_pow_toNat_div e, Int.toNat_eq_zero.2 (by omega), pow_zero]
    rw [hz]
    have hD : (0 : Int) < 2 * 2 ^ (-e).toNat := by positivity
    have h1 := Int.ediv_mul_le (2 * (m : Int) + 2 ^ (-e).toNat) (ne_of_gt hD)
    have h2 := Int.lt_ediv_add_one_mul_self (2 * (m : Int) + 2 ^ (-e).toNat) hD
    generalize (2 * (m : Int) + 2 ^ (-e).toNat) / (2 * 2 ^ (-e).toNat) = p at h1 h2 ⊢
    have hDq : (0 : ℚ) < (2 : ℚ) ^ (-e).toNat := by positivity
    have h1q : (p : ℚ) * (2 * 2 ^ (-e).toNat) ≤ 2 * (m : ℚ) + 2 ^ (-e).toNat := by
      exact_mod_cast h1
    have h2q : 2 * (m : ℚ) + 2 ^ (-e).toNat < ((p : ℚ) + 1) * (2 * 2 ^ (-e).toNat) := by
      exact_mod_cast h2
    have hval : (m : ℚ) * (1 / (2 : ℚ) ^ (-e).toNat) + 1 / 2 =
        (2 * (m : ℚ) + 2 ^ (-e).toNat) / (2 * 2 ^ (-e).toNat) := by
      field_simp
      ring
    rw [hval]
    constructor
    · rw [le_div_iff₀ (by positivity)]
      exact h1q
    · rw [div_lt_iff₀ (by positivity)]
      exact h2q

/-- The recorded percentage is an integer within one half of `100 * f / n`. -/
theorem percentageOf_near (f n : Nat) (hn : 0 < n) (hfn : f ≤ n) (hbound : n < 2 ^ 32) :
    ∃ p : Int, percentageOf (f : Int) n = JsNumber.finite p ∧
      2 * (n : Int) * p ≤ 200 * (f : Int) + n ∧ 200 * (f : Int) ≤ 2 * (n : Int) * p + n := by
  unfold percentageOf
  rw [if_neg (by omega)]
  by_cases hf0 : f = 0
  · subst hf0
    refine ⟨0, by simp, by simp, by simp⟩
  · have hfpos : 0 < f := Nat.pos_of_ne_zero hf0
    rw [if_neg (by exact_mod_cast hf0)]
    simp only [Int.natAbs_ofNat, Int.natCast_nonneg, not_lt.2, decide_False]
    have herr1 := roundToDouble_error f n hfpos hn
    generalize roundToDouble f n = r1 at herr1 ⊢
    have hnq : (0 : ℚ) < n := by exact_mod_cast hn
    have hfq : (0 : ℚ) < f := by exact_mod_cast hfpos
    have hx0 : (0 : ℚ) < (f : ℚ) / n := div_pos hfq hnq
    have hx1 : (f : ℚ) / n ≤ 1 := by
      rw [div_le_one hnq]
      exact_mod_cast hfn
    have hv1 : doubleValue r1 = (r1.1 : ℚ) * 2 ^ r1.2.toNat / 2 ^ (-r1.2).toNat := by
      unfold doubleValue
      rw [← two_pow_toNat_div r1.2]
      ring
    have habs1 := abs_le.1 herr1
    have hv1pos : 0 < doubleValue r1 := by
      have : (f : ℚ) / n / 2 ^ 53 < (f : ℚ) / n := by
        rw [div_lt_iff₀ (by positivity)]
        have : (1 : ℚ) < 2 ^ 53 := by norm_num
        nlinarith
      linarith [habs1.1]
    have hm1 : 0 < r1.1 := by
      by_contra hcon
      have h0 : r1.1 = 0 := by omega
      rw [hv1, h0] at hv1pos
      simp at hv1pos
    have hnum2 : 0 < r1.1 * 100 * 2 ^ r1.2.toNat := by positivity
    have hden2 : 0 < 2 ^ (-r1.2).toNat := by positivity
    have herr2 := roundToDouble_error (r1.1 * 100 * 2 ^ r1.2.toNat) (2 ^ (-r1.2).toNat)
      hnum2 hden2
    have hq2 : ((r1.1 * 100 * 2 ^ r1.2.toNat : Nat) : ℚ) / ((2 ^ (-r1.2).toNat : Nat) : ℚ) =
        100 * doubleValue r1 := by
      rw [hv1]
      push_cast
      ring
    rw [hq2] at herr2
    generalize roundToDouble (r1.1 * 100 * 2 ^ r1.2.toNat) (2 ^ (-r1.2).toNat) = r2 at herr2 ⊢
    have hround := mathRound_floor r2.1 r2.2
    refine ⟨mathRound false r2.1 r2.2, rfl, ?_, ?_⟩
    all_goals
      generalize mathRound false r2.1 r2.2 = p at hround ⊢
      obtain ⟨hr1, hr2⟩ := hround
      have habs2 := abs_le.1 herr2
      have hrw : doubleValue (r2.1, r2.2) = doubleValue r2 := rfl
      rw [hrw] at hr1 hr2
      generalize doubleValue r2 = v2 at hr1 hr2 habs2
      generalize doubleValue r1 = v1 at habs1 habs2 hv1pos
      have hnb : (n : ℚ) < 2 ^ 32 := by exact_mod_cast hbound
      have hft : (n : ℚ) * ((f : ℚ) / n) = f := mul_div_cancel₀ _ (ne_of_gt hnq)
      generalize (f : ℚ) / n = x at *
      have h53 : (2 : ℚ) ^ 53 = 9007199254740992 := by norm_num
      have h32 : (2 : ℚ) ^ 32 = 4294967296 := by norm_num
      rw [h53] at habs1 habs2
      rw [h32] at hnb
      have e1 : x / 9007199254740992 = x * (1 / 9007199254740992) := by ring
      have e2 : 100 * v1 / 9007199254740992 = v1 * (100 / 9007199254740992) := by ring
      rw [e1] at habs1
      rw [e2] at habs2
      obtain ⟨a1, a2⟩ := habs1
      obtain ⟨b1, b2⟩ := habs2
      have hv1le : v1 ≤ 2 := by linarith
      have hdelta1 : v2 - 100 * x ≤ 1 / 8796093022208 := by linarith
      have hdelta2 : 100 * x - v2 ≤ 1 / 8796093022208 := by linarith
    · have hq : (2 : ℚ) * n * p < 200 * f + n + 1 := by
        have h1 : (2 : ℚ) * n * p ≤ 2 * n * (v2 + 1 / 2) :=
          mul_le_mul_of_nonneg_left hr1 (by positivity)
        have h2 : (2 : ℚ) * n * (v2 - 100 * x) ≤ 2 * n * (1 / 8796093022208) :=
          mul_le_mul_of_nonneg_left hdelta1 (by positivity)
        nlinarith
      have hz : 2 * (n : Int) * p < 200 * (f : Int) + n + 1 := by exact_mod_cast hq
      omega
    · have hq : (200 : ℚ) * f - n - 1 < 2 * n * p := by
        have h1 : (2 : ℚ) * n * (v2 + 1 / 2) < 2 * n * (p + 1) :=
          mul_lt_mul_of_pos_left hr2 (by positivity)
        have h2 : (2 : ℚ) * n * (100 * x - v2) ≤ 2 * n * (1 / 8796093022208) :=
          mul_le_mul_of_nonneg_left hdelta2 (by positivity)
        nlinarith
      have hz : 200 * (f : Int) - n - 1 < 2 * (n : Int) * p := by exact_mod_cast hq
      omega

/-! ## The operations of a session, case by case -/

theorem handleAnswer_wrong (text : String) (st : AppState) :
    handleAnswer false text st =
      { st with wrongAnswersThisSession := st.wrongAnswersThisSession ++ [text] } := by
  unfold handleAnswer
  simp

@[simp] theorem handleAnswer_correct_wrongAnswersThisSession (text : String) (st : AppState) :
    (handleAnswer true text st).wrongAnswersThisSession = st.wrongAnswersThisSession := by
  unfold handleAnswer
  simp only [if_true]
  split <;> simp

theorem handleAnswer_wrongAnswersThisSession_length (isCorrect : Bool) (text : String)
    (st : AppState) :
    (handleAnswer isCorrect text st).wrongAnswersThisSession.length ≤
      st.wrongAnswersThisSession.length + 1 := by
  cases isCorrect
  · rw [handleAnswer_wrong]
    simp
  · rw [handleAnswer_correct_wrongAnswersThisSession]
    omega

theorem answer_apply_cases (n : Nat) (subject : Subject) (st : AppState) (optionIndex : Nat)
    (h : SessionInv n subject st) :
    (SessionOp.answer optionIndex).apply st = st ∨
    ∃ q o, st.screen = Screen.quiz ∧ st.questions[st.currentIndex]? = some q ∧
      q.options[optionIndex]? = some o ∧ st.answerState = none ∧ st.pendingNext = [] ∧
      (SessionOp.answer optionIndex).apply st =
        { handleAnswer (o.letter == some q.correctAnswer) q.question
            { st with selectedAnswer := some o.letter,
                      answerState := some (o.letter == some q.correctAnswer) } with
          pendingNext := [st.captured] } := by
  unfold SessionOp.apply
  simp only
  split
  next hm =>
    split
    next question hq =>
      split
      next option ho =>
        by_cases ha : st.answerState.isSome = true
        · left
          have hsame : handleSelectAnswer question option st = st := by
            unfold handleSelectAnswer
            rw [if_pos ha]
          rw [hsame, commit_of_key st st rfl (questionScreenKey_isSome st hm)]
        · right
          have hnone : st.answerState = none := by
            cases hst : st.answerState with
            | none => rfl
            | some b => rw [hst] at ha; simp at ha
          obtain ⟨h1, h2, h3, _, _, _, _⟩ :=
            handleSelectAnswer_unanswered question option st hnone
          have hkey := questionScreenKey_congr st (handleSelectAnswer question option st) h1 h2 h3
          have hsome : (questionScreenKey (handleSelectAnswer question option st)).isSome = true := by
            rw [← hkey]
            exact questionScreenKey_isSome st hm
          obtain ⟨_, _, _, i4⟩ := h
          have hp : st.pendingNext = [] := by
            rcases i4 with hp | ⟨_, hsome2, _⟩
            · exact hp
            · exact absurd hsome2 ha
          refine ⟨question, option, hm.1, hq, ho, hnone, hp, ?_⟩
          rw [commit_of_key _ _ hkey hsome]
          unfold handleSelectAnswer
          rw [if_neg ha]
          simp [hp]
      next => exact Or.inl rfl
    next => exact Or.inl rfl
  next => exact Or.inl rfl

theorem skip_apply_cases (n : Nat) (subject : Subject) (st : AppState)
    (h : SessionInv n subject st) :
    SessionOp.skip.apply st = st ∨
    ∃ q, st.screen = Screen.quiz ∧ st.questions[st.currentIndex]? = some q ∧
      st.answerState = none ∧ st.pendingNext = [] ∧
      SessionOp.skip.apply st =
        commit st { st with questions := st.questions.eraseIdx st.currentIndex ++ [q] } := by
  unfold SessionOp.apply
  simp only
  split
  next hm =>
    split
    next question hq =>
      by_cases ha : st.answerState.isSome = true
      · left
        have hsame : handleSkip st = st := by
          unfold handleSkip
          rw [if_pos ha]
        rw [hsame, commit_of_key st st rfl (questionScreenKey_isSome st hm)]
      · right
        have hnone : st.answerState = none := by
          cases hst : st.answerState with
          | none => rfl
          | some b => rw [hst] at ha; simp at ha
        obtain ⟨_, _, _, i4⟩ := h
        have hp : st.pendingNext = [] := by
          rcases i4 with hp | ⟨_, hsome2, _⟩
          · exact hp
          · exact absurd hsome2 ha
        refine ⟨question, hm.1, hq, hnone, hp, ?_⟩
        unfold handleSkip
        rw [if_neg ha]
        unfold handleSkipQuestion
        rw [hq]
    next => exact Or.inl rfl
  next => exact Or.inl rfl

theorem next_apply_cases (n : Nat) (subject : Subject) (st : AppState) (now : Int)
    (h : SessionInv n subject st) :
    (st.pendingNext = [] ∧ (SessionOp.next now).apply st = st) ∨
    (st.pendingNext = [st.captured] ∧ st.answerState.isSome = true ∧
      st.screen = Screen.quiz ∧ st.currentIndex + 1 < st.questions.length ∧
      (SessionOp.next now).apply st =
        commit st { st with pendingNext := [], currentIndex := st.currentIndex + 1 }) ∨
    (st.pendingNext = [st.captured] ∧ st.answerState.isSome = true ∧
      st.screen = Screen.quiz ∧ ¬ st.currentIndex + 1 < st.questions.length ∧
      (SessionOp.next now).apply st =
        commit st (handleNextQuestion st.captured now { st with pendingNext := [] })) := by
  obtain ⟨_, _, _, i4⟩ := h
  rcases i4 with hp | ⟨hp, hsome, hquiz⟩
  · left
    refine ⟨hp, ?_⟩
    unfold SessionOp.apply
    simp only [hp]
  · right
    have hap : (SessionOp.next now).apply st =
        commit st (handleNextQuestion st.captured now { st with pendingNext := [] }) := by
      unfold SessionOp.apply
      simp only [hp]
    by_cases hadv : st.currentIndex + 1 < st.questions.length
    · left
      refine ⟨hp, hsome, hquiz, hadv, ?_⟩
      rw [hap, handleNextQuestion_advance _ _ _ hadv]
    · right
      exact ⟨hp, hsome, hquiz, hadv, hap⟩

theorem SessionCount_apply (n : Nat) (subject : Subject) (st : AppState) (op : SessionOp)
    (h : SessionInv n subject st) (hc : SessionCount st) : SessionCount (op.apply st) := by
  cases op with
  | answer optionIndex =>
    rcases answer_apply_cases n subject st optionIndex h with hsame | ⟨q, o, hq, _, _, ha, _, hap⟩
    · rw [hsame]
      exact hc
    · rw [hap]
      intro _
      have h0 := hc hq
      rw [ha] at h0
      simp only [Option.isSome_none, Bool.false_eq_true, if_false, Nat.add_zero] at h0
      have hl := handleAnswer_wrongAnswersThisSession_length (o.letter == some q.correctAnswer)
        q.question { st with selectedAnswer := some o.letter,
                             answerState := some (o.letter == some q.correctAnswer) }
      simp only [handleAnswer_currentIndex, handleAnswer_answerState, Option.isSome_some,
        if_true]
      exact le_trans hl (by simpa using h0)
  | skip =>
    rcases skip_apply_cases n subject st h with hsame | ⟨q, hq, _, ha, _, hap⟩
    · rw [hsame]
      exact hc
    · rw [hap]
      intro _
      have h0 := hc hq
      rw [ha] at h0
      simp only [Option.isSome_none, Bool.false_eq_true, if_false, Nat.add_zero] at h0
      simp only [commit_wrongAnswersThisSession, commit_currentIndex]
      exact le_trans h0 (Nat.le_add_right _ _)
  | next now =>
    rcases next_apply_cases n subject st now h with ⟨_, hsame⟩ | ⟨_, _, hq, _, hap⟩ |
      ⟨_, _, _, hadv, hap⟩
    · rw [hsame]
      exact hc
    · rw [hap]
      intro _
      have h0 := hc hq
      simp only [commit_wrongAnswersThisSession, commit_currentIndex]
      have : st.wrongAnswersThisSession.length ≤ st.currentIndex + 1 := by
        refine le_trans h0 ?_
        split <;> omega
      omega
    · rw [hap]
      intro hq2
      obtain ⟨f1, _⟩ := handleNextQuestion_final_fields st.captured now
        { st with pendingNext := [] } subject hadv h.2.1
      rw [commit_screen, f1] at hq2
      cases hq2

theorem SessionCount_run (n : Nat) (subject : Subject) (ops : List SessionOp) (st : AppState)
    (h : SessionInv n subject st) (hc : SessionCount st) :
    SessionCount (runSession st ops) := by
  induction ops generalizing st with
  | nil => exact hc
  | cons op ops ih =>
    exact ih (op.apply st) (SessionInv_apply n subject st op h)
      (SessionCount_apply n subject st op h hc)

theorem SessionCount_of_start (n : Nat) (st : AppState) (h : SessionStart n st) :
    SessionCount st := by
  obtain ⟨_, _, _, _, h5, _⟩ := h
  intro _
  rw [h5]
  exact Nat.zero_le _

/-- A `next` that takes a running session to the result screen is the
finalizing call of `handleNextQuestion` of the current render; the question
list has `n` entries and the wrong set at most `n`. -/
theorem session_finalization (n : Nat) (subject : Subject) (st0 : AppState)
    (hn : 1 ≤ n) (h0 : SessionStart n st0) (hs : st0.selectedSubject = some subject)
    (ops : List SessionOp) (now : Int)
    (hquiz : (runSession st0 ops).screen = Screen.quiz)
    (hfin : ((SessionOp.next now).apply (runSession st0 ops)).screen = Screen.result) :
    (SessionOp.next now).apply (runSession st0 ops) =
      commit (runSession st0 ops) (handleNextQuestion (runSession st0 ops).captured now
        { runSession st0 ops with pendingNext := [] }) ∧
    ¬ (runSession st0 ops).captured.currentIndex + 1 <
      (runSession st0 ops).captured.questions.length ∧
    (runSession st0 ops).captured.selectedSubject = some subject ∧
    (runSession st0 ops).captured.questions.length = n ∧
    (runSession st0 ops).wrongAnswersThisSession.length ≤ n := by
  have hinv := SessionInv_run n subject ops st0 (SessionInv_of_start n subject st0 hn h0 hs)
  have hcount := SessionCount_run n subject ops st0
    (SessionInv_of_start n subject st0 hn h0 hs) (SessionCount_of_start n st0 h0)
  generalize runSession st0 ops = st at hinv hcount hquiz hfin ⊢
  rcases next_apply_cases n subject st now hinv with ⟨_, hsame⟩ | ⟨_, _, _, _, hap⟩ |
    ⟨_, _, _, hadv, hap⟩
  · rw [hsame, hquiz] at hfin
    cases hfin
  · rw [hap, commit_screen] at hfin
    rw [show ({ st with pendingNext := [], currentIndex := st.currentIndex + 1 } :
      AppState).screen = st.screen from rfl, hquiz] at hfin
    cases hfin
  · obtain ⟨i1, i2, i3, _⟩ := hinv
    refine ⟨hap, hadv, i2, i1, ?_⟩
    have h1 := hcount hquiz
    have h2 := i3 hquiz
    have : st.wrongAnswersThisSession.length ≤ st.currentIndex + 1 := by
      refine le_trans h1 ?_
      split <;> omega
    omega

/-- The recorded percentage is the exact percentage, or one less when
`100 * f / n` lies halfway between two integers. -/
theorem percentageOf_exact_or_below (f n : Nat) (hn : 0 < n) (hfn : f ≤ n)
    (hbound : n < 2 ^ 32) :
    ∃ p : Int, percentageOf (f : Int) n = JsNumber.finite p ∧ 0 ≤ p ∧ p ≤ 100 ∧
      (p = exactPercentage f n ∨
        (p = exactPercentage f n - 1 ∧ (200 * (f : Int) + n) % (2 * (n : Int)) = 0)) := by
  obtain ⟨p, hp, h1, h2⟩ := percentageOf_near f n hn hfn hbound
  have hnz : (0 : Int) < n := by exact_mod_cast hn
  have hfz : (f : Int) ≤ n := by exact_mod_cast hfn
  have hf0 : (0 : Int) ≤ f := Int.natCast_nonneg f
  have h2n : (0 : Int) < 2 * (n : Int) := by omega
  refine ⟨p, hp, ?_, ?_, ?_⟩
  · by_contra hcon
    have : p ≤ -1 := by omega
    nlinarith
  · by_contra hcon
    have : 101 ≤ p := by omega
    nlinarith
  · unfold exactPercentage
    have hle : p ≤ (200 * (f : Int) + n) / (2 * (n : Int)) := by
      apply Int.le_ediv_of_mul_le h2n
      linarith
    have hge : (200 * (f : Int) + n) / (2 * (n : Int)) ≤ p + 1 := by
      apply Int.ediv_le_of_le_mul h2n
      linarith
    have hdm := Int.ediv_add_emod (200 * (f : Int) + n) (2 * (n : Int))
    have hmod0 := Int.emod_nonneg (200 * (f : Int) + n) (ne_of_gt h2n)
    generalize (200 * (f : Int) + n) / (2 * (n : Int)) = E at *
    generalize (200 * (f : Int) + n) % (2 * (n : Int)) = r at *
    by_cases hE : p = E
    · exact Or.inl hE
    · right
      have hE1 : E = p + 1 := by omega
      refine ⟨by omega, ?_⟩
      subst hE1
      nlinarith

/-- A record that a finalization writes is the final record, under the variant
key of the session. -/
theorem finalization_written_record (c : Captured) (now : Int) (st : AppState)
    (subject : Subject) (h : ¬ c.currentIndex + 1 < c.questions.length)
    (hs : c.selectedSubject = some subject) (key : String) (r : CompletionRecord)
    (hr : (handleNextQuestion c now st).recordOf subject.id key = some r)
    (hne : st.recordOf subject.id key ≠ some r) :
    key = variantKey c.selectedVariant ∧
    r = finalRecord c.questions.length st.wrongAnswersThisSession.length now := by
  unfold AppState.recordOf at hr hne
  rcases handleNextQuestion_final_records c now st subject h hs with hsame | hset
  · rw [hsame] at hr
    exact absurd hr hne
  · rw [hset, Obj.get_set_self, Option.getD_some] at hr
    by_cases hkey : key = variantKey c.selectedVariant
    · subst hkey
      rw [Obj.get_set_self] at hr
      exact ⟨rfl, by simpa using hr.symm⟩
    · rw [Obj.get_set_ne _ _ _ _ hkey] at hr
      exact absurd hr hne

/-! ## Claims on the recorded percentage -/

set_option maxRecDepth 1000000 in
/-- C11, as stated, fails: in a session of 40 questions in which every
question is answered once, 17 of them wrongly, the recorded percentage is 57,
while the integer nearest to `100 * 23 / 40 = 57.5` with halves rounded up
is 58. -/
theorem recorded_percentage_not_exact :
    SessionStart 40 session40 ∧
    (runSession session40 ops40).screen = Screen.quiz ∧
    (runSession session40 ops40).currentIndex = 39 ∧
    (runSession session40 ops40).wrongAnswersThisSession.length = 17 ∧
    ((SessionOp.next 3000).apply (runSession session40 ops40)).recordOf "s40" "variant_1" =
      some ⟨23, 40, JsNumber.finite 57, 3000⟩ ∧
    exactPercentage 23 40 = 58 ∧
    JsNumber.finite 57 ≠ JsNumber.finite (exactPercentage 23 40) := by
  refine ⟨by unfold SessionStart; decide!, by decide!, by decide!, by decide!, by decide!,
    by decide, by decide⟩

/-- C11, amended: in a session over `1 ≤ n < 2^32` questions, at a `next` that
finalizes, `0 ≤ finalScore ≤ n`, and the percentage of every record written is
an integer between 0 and 100 that is the integer nearest to
`100 * finalScore / n` with halves rounded up, or one less than it when
`100 * finalScore / n` lies exactly halfway between two integers. -/
theorem recorded_percentage_near_exact (n : Nat) (subject : Subject) (st0 : AppState)
    (hn : 1 ≤ n) (hbound : n < 2 ^ 32) (h0 : SessionStart n st0)
    (hs : st0.selectedSubject = some subject) (ops : List SessionOp) (now : Int)
    (hquiz : (runSession st0 ops).screen = Screen.quiz)
    (hfin : ((SessionOp.next now).apply (runSession st0 ops)).screen = Screen.result) :
    0 ≤ (n : Int) - ((runSession st0 ops).wrongAnswersThisSession.length : Int) ∧
    (n : Int) - ((runSession st0 ops).wrongAnswersThisSession.length : Int) ≤ n ∧
    ∀ key r, ((SessionOp.next now).apply (runSession st0 ops)).recordOf subject.id key = some r →
      (runSession st0 ops).recordOf subject.id key ≠ some r →
      r.score = (n : Int) - ((runSession st0 ops).wrongAnswersThisSession.length : Int) ∧
      ∃ p : Int, r.percentage = JsNumber.finite p ∧ 0 ≤ p ∧ p ≤ 100 ∧
        (p = exactPercentage r.score n ∨
          (p = exactPercentage r.score n - 1 ∧
            (200 * r.score + (n : Int)) % (2 * (n : Int)) = 0)) := by
  obtain ⟨hap, hadv, hcs, hlen, hw⟩ :=
    session_finalization n subject st0 hn h0 hs ops now hquiz hfin
  generalize runSession st0 ops = st at hap hadv hcs hlen hw ⊢
  refine ⟨by omega, by omega, ?_⟩
  intro key r hr hne
  rw [hap, commit_recordOf] at hr
  obtain ⟨_, hrec⟩ := finalization_written_record st.captured now
    { st with pendingNext := [] } subject hadv hcs key r hr hne
  rw [hlen] at hrec
  subst hrec
  have hcast : ((n - st.wrongAnswersThisSession.length : Nat) : Int) =
      (n : Int) - (st.wrongAnswersThisSession.length : Int) := Nat.cast_sub hw
  obtain ⟨p, hp, hp0, hp100, hex⟩ :=
    percentageOf_exact_or_below (n - st.wrongAnswersThisSession.length) n hn
      (Nat.sub_le _ _) hbound
  rw [hcast] at hp hex
  exact ⟨rfl, p, hp, hp0, hp100, hex⟩

set_option maxRecDepth 1000000 in
/-- Witness of the amended C11 on the session of 40 questions with 17 wrong
answers: the record written has percentage 57, one less than 58, and
`200 * 23 + 40` is a multiple of 80. -/
theorem recorded_percentage_near_exact_witness :
    ∃ p : Int, JsNumber.finite 57 = JsNumber.finite p ∧ 0 ≤ p ∧ p ≤ 100 ∧
      (p = exactPercentage 23 40 ∨
        (p = exactPercentage 23 40 - 1 ∧ (200 * (23 : Int) + (40 : Nat)) % (2 * (40 : Nat)) = 0)) :=
  ((recorded_percentage_near_exact 40 subject40 session40 (by decide) (by decide)
    (by unfold SessionStart; decide!) (by decide!) ops40 3000 (by decide!) (by decide!)).2.2
      "variant_1" ⟨23, 40, JsNumber.finite 57, 3000⟩ (by decide!) (by decide!)).2

/-! ## Lemmas on finalization -/

theorem JsNumber.gt_irrefl (a : JsNumber) : a.gt a = false := by
  cases a <;> simp [JsNumber.gt]

theorem JsNumber.gt_trans (a b c : JsNumber) (h1 : a.gt b = true) (h2 : b.gt c = true) :
    a.gt c = true := by
  cases a <;> cases b <;> cases c <;> simp_all [JsNumber.gt]
  omega

theorem uniqueInOrder_foldl {α : Type} [DecidableEq α] (list acc : List α) (hacc : acc.Nodup) :
    (list.foldl (fun acc x => if x ∈ acc then acc else acc ++ [x]) acc).Nodup ∧
    ∀ t, t ∈ list.foldl (fun acc x => if x ∈ acc then acc else acc ++ [x]) acc ↔
      t ∈ acc ∨ t ∈ list := by
  induction list generalizing acc with
  | nil => simpa using hacc
  | cons x xs ih =>
    simp only [List.foldl_cons]
    by_cases hx : x ∈ acc
    · rw [if_pos hx]
      obtain ⟨h1, h2⟩ := ih acc hacc
      refine ⟨h1, fun t => ?_⟩
      rw [h2, List.mem_cons]
      constructor
      · rintro (h | h)
        · exact Or.inl h
        · exact Or.inr (Or.inr h)
      · rintro (h | h | h)
        · exact Or.inl h
        · exact Or.inl (h ▸ hx)
        · exact Or.inr h
    · rw [if_neg hx]
      have hnd : (acc ++ [x]).Nodup := by
        rw [List.nodup_append]
        refine ⟨hacc, List.nodup_singleton x, ?_⟩
        intro a ha hb
        rw [List.mem_singleton] at hb
        exact hx (hb ▸ ha)
      obtain ⟨h1, h2⟩ := ih (acc ++ [x]) hnd
      refine ⟨h1, fun t => ?_⟩
      rw [h2, List.mem_append, List.mem_singleton, List.mem_cons]
      tauto

theorem uniqueInOrder_nodup {α : Type} [DecidableEq α] (list : List α) :
    (uniqueInOrder list).Nodup :=
  (uniqueInOrder_foldl list [] List.nodup_nil).1

theorem mem_uniqueInOrder {α : Type} [DecidableEq α] (list : List α) (t : α) :
    t ∈ uniqueInOrder list ↔ t ∈ list := by
  have := (uniqueInOrder_foldl list [] List.nodup_nil).2 t
  simpa [uniqueInOrder] using this

/-- The completion records after a finalizing call of `handleNextQuestion`. -/
theorem handleNextQuestion_final_completed (c : Captured) (now : Int) (st : AppState)
    (subject : Subject) (h : ¬ c.currentIndex + 1 < c.questions.length)
    (hs : c.selectedSubject = some subject) :
    (handleNextQuestion c now st).completedVariants =
      if c.isErrorReviewMode = false ∧
          (st.recordOf subject.id (variantKey c.selectedVariant) = none ∨
            ∃ e, st.recordOf subject.id (variantKey c.selectedVariant) = some e ∧
              (percentageOf ((c.questions.length : Int) -
                (st.wrongAnswersThisSession.length : Int)) c.questions.length).gt
                  e.percentage = true) then
        Obj.set st.completedVariants subject.id
          (Obj.set ((Obj.get st.completedVariants subject.id).getD [])
            (variantKey c.selectedVariant)
            (finalRecord c.questions.length st.wrongAnswersThisSession.length now))
      else st.completedVariants := by
  unfold handleNextQuestion AppState.recordOf
  rw [if_neg h]
  simp only [hs]
  rcases hrec : Obj.get ((Obj.get st.completedVariants subject.id).getD [])
    (variantKey c.selectedVariant) with _ | e
  · cases hrev : c.isErrorReviewMode <;> split_ifs <;> simp_all [finalRecord]
  · cases hrev : c.isErrorReviewMode <;>
      cases hgt : (percentageOf ((c.questions.length : Int) -
        (st.wrongAnswersThisSession.length : Int)) c.questions.length).gt e.percentage <;>
      split_ifs <;> simp_all [finalRecord]

/-- The missed-question log after a finalizing call of `handleNextQuestion`. -/
theorem handleNextQuestion_final_wrongAnswers (c : Captured) (now : Int) (st : AppState)
    (subject : Subject) (h : ¬ c.currentIndex + 1 < c.questions.length)
    (hs : c.selectedSubject = some subject) :
    (handleNextQuestion c now st).wrongAnswers =
      if c.isErrorReviewMode = false ∧ 0 < st.wrongAnswersThisSession.length then
        Obj.set st.wrongAnswers subject.id
          (uniqueInOrder (st.wrongLogOf subject.id ++ st.wrongAnswersThisSession))
      else st.wrongAnswers := by
  unfold handleNextQuestion AppState.wrongLogOf
  rw [if_neg h]
  simp only [hs]
  cases hrev : c.isErrorReviewMode <;> split_ifs <;> simp_all

/-- The finalizing step of a `Finalizing` state. -/
theorem Finalizing.step {n : Nat} {subject : Subject} {st : AppState} {now : Int}
    (h : Finalizing n subject st now) :
    (SessionOp.next now).apply st =
      commit st (handleNextQuestion st.captured now { st with pendingNext := [] }) ∧
    ¬ st.captured.currentIndex + 1 < st.captured.questions.length ∧
    st.captured.selectedSubject = some subject ∧
    st.captured.questions.length = n ∧
    st.wrongAnswersThisSession.length ≤ n := by
  obtain ⟨hn, st0, ops, h0, hs, hst, hquiz, hfin⟩ := h
  subst hst
  exact session_finalization n subject st0 hn h0 hs ops now hquiz hfin

/-! ## Claims on finalization -/

/-- C12: at a finalization, the completion records of the subject change if
and only if the session is not an error review and either no record is stored
under the variant key or the new percentage is greater than the stored one;
then that key is set to the record of score, total, percentage and time of
this finalization; every other key keeps its record; and otherwise (a tie, a
lower percentage, an error review) the stored records are left as they are. -/
theorem completion_record_update (n : Nat) (subject : Subject) (st : AppState) (now : Int)
    (h : Finalizing n subject st now) :
    ((∃ key, ((SessionOp.next now).apply st).recordOf subject.id key ≠
        st.recordOf subject.id key) ↔ RecordImproves n subject st) ∧
    (RecordImproves n subject st →
      ((SessionOp.next now).apply st).recordOf subject.id (variantKey st.selectedVariant) =
        some { score := (n : Int) - (st.wrongAnswersThisSession.length : Int), total := n,
               percentage :=
                percentageOf ((n : Int) - (st.wrongAnswersThisSession.length : Int)) n,
               completedAt := now }) ∧
    (∀ key, key ≠ variantKey st.selectedVariant →
      ((SessionOp.next now).apply st).recordOf subject.id key = st.recordOf subject.id key) ∧
    (¬ RecordImproves n subject st →
      ((SessionOp.next now).apply st).completedVariants = st.completedVariants) := by
  obtain ⟨hap, hadv, hcs, hlen, _⟩ := h.step
  have hcv := handleNextQuestion_final_completed st.captured now
    { st with pendingNext := [] } subject hadv hcs
  rw [hlen] at hcv
  have hcond : (st.captured.isErrorReviewMode = false ∧
      (({ st with pendingNext := [] } : AppState).recordOf subject.id
          (variantKey st.captured.selectedVariant) = none ∨
        ∃ e, ({ st with pendingNext := [] } : AppState).recordOf subject.id
            (variantKey st.captured.selectedVariant) = some e ∧
          (percentageOf ((n : Int) -
            (({ st with pendingNext := [] } : AppState).wrongAnswersThisSession.length : Int))
              n).gt e.percentage = true)) ↔ RecordImproves n subject st := Iff.rfl
  have hkeys : ∀ key, key ≠ variantKey st.selectedVariant →
      ((SessionOp.next now).apply st).recordOf subject.id key = st.recordOf subject.id key := by
    intro key hkey
    rw [hap, commit_recordOf]
    unfold AppState.recordOf
    rw [hcv]
    split
    · rw [Obj.get_set_self, Option.getD_some]
      exact Obj.get_set_ne _ _ _ _ hkey
    · rfl
  have hwrite : RecordImproves n subject st →
      ((SessionOp.next now).apply st).recordOf subject.id (variantKey st.selectedVariant) =
        some (finalRecord n st.wrongAnswersThisSession.length now) := by
    intro himp
    rw [hap, commit_recordOf]
    unfold AppState.recordOf
    rw [hcv, if_pos (hcond.2 himp), Obj.get_set_self, Option.getD_some]
    exact Obj.get_set_self _ _ _
  have hkeep : ¬ RecordImproves n subject st →
      ((SessionOp.next now).apply st).completedVariants = st.completedVariants := by
    intro hnot
    rw [hap, commit_completedVariants, hcv, if_neg (fun hc => hnot (hcond.1 hc))]
  refine ⟨⟨?_, ?_⟩, hwrite, hkeys, hkeep⟩
  · rintro ⟨key, hkey⟩
    by_contra hnot
    apply hkey
    unfold AppState.recordOf
    rw [hkeep hnot]
  · intro himp
    refine ⟨variantKey st.selectedVariant, ?_⟩
    rw [hwrite himp]
    obtain ⟨_, hnone | ⟨e, he, hgt⟩⟩ := himp
    · rw [hnone]
      simp
    · rw [he]
      intro heq
      have hee : finalRecord n st.wrongAnswersThisSession.length now = e := by
        simpa using heq
      rw [← hee] at hgt
      have hself := JsNumber.gt_irrefl
        (percentageOf ((n : Int) - (st.wrongAnswersThisSession.length : Int)) n)
      rw [show (finalRecord n st.wrongAnswersThisSession.length now).percentage =
        percentageOf ((n : Int) - (st.wrongAnswersThisSession.length : Int)) n from rfl,
        hself] at hgt
      cases hgt

set_option maxRecDepth 1000000 in
/-- Witness of C12 on the sample session: no record is stored, so the
finalization writes the record of score 1 of 2 under `variant_1`. -/
theorem completion_record_update_witness :
    Finalizing 2 sampleSubject (runSession sampleSession sampleOps) 3000 ∧
    ((SessionOp.next 3000).apply (runSession sampleSession sampleOps)).recordOf "s"
      "variant_1" = some ⟨1, 2, JsNumber.finite 50, 3000⟩ :=
  ⟨⟨by decide, sampleSession, sampleOps, by unfold SessionStart; decide!, by decide!, rfl,
      by decide!, by decide!⟩,
    (completion_record_update 2 sampleSubject (runSession sampleSession sampleOps) 3000
      ⟨by decide, sampleSession, sampleOps, by unfold SessionStart; decide!, by decide!, rfl,
        by decide!, by decide!⟩).2.1 ⟨by decide!, Or.inl (by decide!)⟩⟩

/-! ## Lemmas on the events of the application -/

theorem RecordsKept.refl (st : AppState) : RecordsKept st st :=
  fun _ _ e h => ⟨e, h, Or.inl rfl⟩

theorem RecordsKept.of_eq (st st2 : AppState)
    (h : st2.completedVariants = st.completedVariants) : RecordsKept st st2 := by
  intro sid key e he
  refine ⟨e, ?_, Or.inl rfl⟩
  unfold AppState.recordOf at he ⊢
  rw [h]
  exact he

theorem RecordsKept.trans {st st2 st3 : AppState} (h1 : RecordsKept st st2)
    (h2 : RecordsKept st2 st3) : RecordsKept st st3 := by
  intro sid key e he
  obtain ⟨e2, he2, hrel2⟩ := h1 sid key e he
  obtain ⟨e3, he3, hrel3⟩ := h2 sid key e2 he2
  refine ⟨e3, he3, ?_⟩
  rcases hrel2 with rfl | hgt2
  · exact hrel3
  · rcases hrel3 with rfl | hgt3
    · exact Or.inr hgt2
    · exact Or.inr (JsNumber.gt_trans _ _ _ hgt3 hgt2)

theorem handleNextQuestion_recordsKept (c : Captured) (now : Int) (st : AppState) :
    RecordsKept st (handleNextQuestion c now st) := by
  by_cases hadv : c.currentIndex + 1 < c.questions.length
  · rw [handleNextQuestion_advance c now st hadv]
    exact RecordsKept.of_eq _ _ rfl
  · rcases hs : c.selectedSubject with _ | subject
    · apply RecordsKept.of_eq
      unfold handleNextQuestion
      rw [if_neg hadv]
      simp only [hs]
    · have hcv := handleNextQuestion_final_completed c now st subject hadv hs
      by_cases hcond : c.isErrorReviewMode = false ∧
          (st.recordOf subject.id (variantKey c.selectedVariant) = none ∨
            ∃ e, st.recordOf subject.id (variantKey c.selectedVariant) = some e ∧
              (percentageOf ((c.questions.length : Int) -
                (st.wrongAnswersThisSession.length : Int)) c.questions.length).gt
                  e.percentage = true)
      · rw [if_pos hcond] at hcv
        intro sid key e he
        unfold AppState.recordOf
        rw [hcv]
        by_cases hsid : sid = subject.id
        · subst hsid
          rw [Obj.get_set_self, Option.getD_some]
          by_cases hkey : key = variantKey c.selectedVariant
          · subst hkey
            rw [Obj.get_set_self]
            refine ⟨_, rfl, Or.inr ?_⟩
            obtain ⟨_, hnone | ⟨e0, he0, hgt⟩⟩ := hcond
            · rw [hnone] at he
              cases he
            · rw [he0] at he
              have : e0 = e := by simpa using he
              subst this
              exact hgt
          · rw [Obj.get_set_ne _ _ _ _ hkey]
            exact ⟨e, he, Or.inl rfl⟩
        · rw [Obj.get_set_ne _ _ _ _ hsid]
          exact ⟨e, he, Or.inl rfl⟩
      · rw [if_neg hcond] at hcv
        exact RecordsKept.of_eq _ _ hcv

@[simp] theorem handleSelectAnswer_completedVariants (question : Question)
    (option : AnswerOption) (st : AppState) :
    (handleSelectAnswer question option st).completedVariants = st.completedVariants := by
  unfold handleSelectAnswer
  split <;> simp

@[simp] theorem handleSkip_completedVariants (st : AppState) :
    (handleSkip st).completedVariants = st.completedVariants := by
  unfold handleSkip handleSkipQuestion
  split
  · rfl
  · split <;> rfl

theorem sessionOp_recordsKept (op : SessionOp) (st : AppState) :
    RecordsKept st (op.apply st) := by
  cases op with
  | answer optionIndex =>
    apply RecordsKept.of_eq
    unfold SessionOp.apply
    simp only
    split
    · split
      · split <;> simp
      · rfl
    · rfl
  | skip =>
    apply RecordsKept.of_eq
    unfold SessionOp.apply
    simp only
    split
    · split <;> simp
    · rfl
  | next now =>
    unfold SessionOp.apply
    simp only
    split
    · exact RecordsKept.refl st
    next c rest _ =>
      have h1 : RecordsKept st { st with pendingNext := rest } := RecordsKept.of_eq _ _ rfl
      have h2 := handleNextQuestion_recordsKept c now { st with pendingNext := rest }
      have h3 : RecordsKept (handleNextQuestion c now { st with pendingNext := rest })
          (commit st (handleNextQuestion c now { st with pendingNext := rest })) :=
        RecordsKept.of_eq _ _ (commit_completedVariants _ _)
      exact (h1.trans h2).trans h3

@[simp] theorem handleStartQuiz_completedVariants (subjects : List Subject)
    (random : Nat → RandomValue) (now : Int) (variant : Option VariantSel) (st : AppState) :
    (handleStartQuiz subjects random now variant st).completedVariants =
      st.completedVariants := by
  unfold handleStartQuiz
  split
  · rfl
  · split <;> simp

@[simp] theorem handleStartErrorReview_completedVariants (random : Nat → RandomValue)
    (now : Int) (st : AppState) :
    (handleStartErrorReview random now st).completedVariants = st.completedVariants := by
  unfold handleStartErrorReview
  split
  · rfl
  · simp only
    split_ifs <;> simp

@[simp] theorem handleMenu_completedVariants (st : AppState) :
    (handleMenu st).completedVariants = st.completedVariants := by
  simp [handleMenu]

@[simp] theorem handleSelectSubject_completedVariants (subjects : List Subject)
    (subjectId : String) (st : AppState) :
    (handleSelectSubject subjects subjectId st).completedVariants = st.completedVariants := by
  simp [handleSelectSubject]

@[simp] theorem handleBackToSubjects_completedVariants (st : AppState) :
    (handleBackToSubjects st).completedVariants = st.completedVariants := by
  simp [handleBackToSubjects]

@[simp] theorem handleRestart_completedVariants (subjects : List Subject)
    (random : Nat → RandomValue) (now : Int) (st : AppState) :
    (handleRestart subjects random now st).completedVariants = st.completedVariants := by
  unfold handleRestart
  split <;> simp

theorem appEvent_recordsKept (subjects : List Subject) (ev : AppEvent) (st : AppState)
    (h : ev ≠ AppEvent.resetStats) : RecordsKept st (ev.apply subjects st) := by
  cases ev with
  | resetStats => exact absurd rfl h
  | session op => exact sessionOp_recordsKept op st
  | selectSubject subjectId =>
    apply RecordsKept.of_eq
    unfold AppEvent.apply
    simp only
    split <;> simp
  | backToSubjects =>
    apply RecordsKept.of_eq
    unfold AppEvent.apply
    simp only
    split <;> simp
  | startQuiz variant random now =>
    apply RecordsKept.of_eq
    unfold AppEvent.apply
    simp only
    split <;> simp
  | startErrorReview random now =>
    apply RecordsKept.of_eq
    unfold AppEvent.apply
    simp only
    split
    · rfl
    · split <;> simp
  | exit =>
    apply RecordsKept.of_eq
    unfold AppEvent.apply
    simp only
    split <;> simp
  | restart random now =>
    apply RecordsKept.of_eq
    unfold AppEvent.apply
    simp only
    split <;> simp
  | menu =>
    apply RecordsKept.of_eq
    unfold AppEvent.apply
    simp only
    split <;> simp

theorem runApp_recordsKept (subjects : List Subject) (evs : List AppEvent) (st : AppState)
    (h : ∀ ev ∈ evs, ev ≠ AppEvent.resetStats) : RecordsKept st (runApp subjects st evs) := by
  induction evs generalizing st with
  | nil => exact RecordsKept.refl st
  | cons ev evs ih =>
    have h1 := appEvent_recordsKept subjects ev st (h ev (List.mem_cons_self _ _))
    have h2 := ih (ev.apply subjects st) (fun e he => h e (List.mem_cons_of_mem _ he))
    exact h1.trans h2

/-! ## Claims on the stored completion records -/

/-- C13: along every sequence of events of the application without a reset
(sessions of any variant, marathon or error review, completed or abandoned), a
completion record stored for a subject under a key is never removed, and the
record stored later is the same record or one with a greater percentage. -/
theorem record_never_decreases (subjects : List Subject) (st : AppState) (evs : List AppEvent)
    (hnr : ∀ ev ∈ evs, ev ≠ AppEvent.resetStats) (sid key : String) (e : CompletionRecord)
    (h : st.recordOf sid key = some e) :
    ∃ e2, (runApp subjects st evs).recordOf sid key = some e2 ∧
      (e2 = e ∨ e2.percentage.gt e.percentage = true) :=
  runApp_recordsKept subjects evs st hnr sid key e h

set_option maxRecDepth 1000000 in
/-- Witness of C13: after a completion of variant 1 with 0 %, a second
completion with 100 % replaces the record. -/
theorem record_never_decreases_witness :
    sampleFailed.recordOf "s" "variant_1" = some ⟨0, 2, JsNumber.finite 0, 3000⟩ ∧
    (runApp [sampleSubject] sampleFailed sampleRetry).recordOf "s" "variant_1" =
      some ⟨2, 2, JsNumber.finite 100, 6000⟩ ∧
    ∃ e2, (runApp [sampleSubject] sampleFailed sampleRetry).recordOf "s" "variant_1" = some e2 ∧
      (e2 = ⟨0, 2, JsNumber.finite 0, 3000⟩ ∨
        e2.percentage.gt (JsNumber.finite 0) = true) :=
  ⟨by decide!, by decide!,
    record_never_decreases [sampleSubject] sampleFailed sampleRetry
      (by
        intro ev hev
        simp only [sampleRetry, List.mem_cons, List.mem_singleton, List.mem_nil_iff,
          or_false] at hev
        rcases hev with h | h | h | h | h | h <;> rw [h] <;> exact fun hc => by cases hc)
      "s" "variant_1" ⟨0, 2, JsNumber.finite 0, 3000⟩ (by decide!)⟩

/-! ## Claims on the statistics and the missed-question log -/

theorem SessionOp.apply_globalStats (op : SessionOp) (st : AppState) :
    (op.apply st).globalStats = st.globalStats ∨
      ((op.apply st).screen = Screen.result ∧ ∃ now, op = SessionOp.next now) := by
  cases op with
  | answer optionIndex =>
    left
    unfold SessionOp.apply handleSelectAnswer
    simp only
    split
    · split
      · split
        · split <;> simp
        · rfl
      · rfl
    · rfl
  | skip =>
    left
    unfold SessionOp.apply handleSkip handleSkipQuestion
    simp only
    split
    · split
      · split
        · simp
        · split <;> simp
      · rfl
    · rfl
  | next now =>
    unfold SessionOp.apply
    simp only
    split
    · exact Or.inl rfl
    next c rest _ =>
      by_cases hadv : c.currentIndex + 1 < c.questions.length
      · left
        rw [handleNextQuestion_advance _ _ _ hadv]
        simp
      · rcases hs : c.selectedSubject with _ | subject
        · left
          unfold handleNextQuestion
          rw [if_neg hadv]
          simp [hs]
        · right
          obtain ⟨f1, _⟩ := handleNextQuestion_final_fields c now
            { st with pendingNext := rest } subject hadv hs
          exact ⟨by rw [commit_screen, f1], now, rfl⟩

/-- The finalization of a session that runs from its start with no timer of
an earlier session pending changes the statistics of the subject by exactly
one attempt, `n` questions, `finalScore = n - |wrong set|` correct answers and
`now - startTime` milliseconds; the score added is not negative, so with
`startTime ≤ now` no field decreases; and an operation of a session that
changes the statistics is a `next` that finalizes. -/
theorem stats_update (n : Nat) (subject : Subject) (st : AppState) (now : Int)
    (h : Finalizing n subject st now) :
    ((SessionOp.next now).apply st).statsOf subject.id =
      { totalAttempts := (st.statsOf subject.id).totalAttempts + 1
        totalQuestions := (st.statsOf subject.id).totalQuestions + n
        totalCorrect := (st.statsOf subject.id).totalCorrect +
          ((n : Int) - (st.wrongAnswersThisSession.length : Int))
        totalTimeMs := (st.statsOf subject.id).totalTimeMs + (now - st.startTime.getD 0) } ∧
    0 ≤ (n : Int) - (st.wrongAnswersThisSession.length : Int) ∧
    (st.startTime.getD 0 ≤ now →
      (st.statsOf subject.id).totalAttempts ≤
        (((SessionOp.next now).apply st).statsOf subject.id).totalAttempts ∧
      (st.statsOf subject.id).totalQuestions ≤
        (((SessionOp.next now).apply st).statsOf subject.id).totalQuestions ∧
      (st.statsOf subject.id).totalCorrect ≤
        (((SessionOp.next now).apply st).statsOf subject.id).totalCorrect ∧
      (st.statsOf subject.id).totalTimeMs ≤
        (((SessionOp.next now).apply st).statsOf subject.id).totalTimeMs) ∧
    (∀ (op : SessionOp) (s : AppState), (op.apply s).globalStats ≠ s.globalStats →
      (op.apply s).screen = Screen.result ∧ ∃ t, op = SessionOp.next t) := by
  obtain ⟨hap, hadv, hcs, hlen, hw⟩ := h.step
  have hstats := handleNextQuestion_final_stats st.captured now
    { st with pendingNext := [] } subject hadv hcs
  have heq : ((SessionOp.next now).apply st).statsOf subject.id =
      { totalAttempts := (st.statsOf subject.id).totalAttempts + 1
        totalQuestions := (st.statsOf subject.id).totalQuestions + n
        totalCorrect := (st.statsOf subject.id).totalCorrect +
          ((n : Int) - (st.wrongAnswersThisSession.length : Int))
        totalTimeMs := (st.statsOf subject.id).totalTimeMs + (now - st.startTime.getD 0) } := by
    rw [hap, commit_statsOf]
    unfold AppState.statsOf
    rw [hstats, Obj.get_set_self, Option.getD_some, hlen]
    rfl
  refine ⟨heq, by omega, ?_, ?_⟩
  · intro hclock
    rw [heq]
    simp only
    refine ⟨by omega, by omega, by omega, by omega⟩
  · intro op s hne
    rcases SessionOp.apply_globalStats op s with hsame | hfin
    · exact absurd hsame hne
    · exact hfin

set_option maxRecDepth 1000000 in
/-- The statistics after the sample session, started at 1000 and finalized at
3000 with one wrong answer of two. -/
theorem stats_update_witness :
    ((SessionOp.next 3000).apply (runSession sampleSession sampleOps)).statsOf "s" =
      { totalAttempts := 0 + 1, totalQuestions := 0 + (2 : Nat), totalCorrect := 0 + (2 - 1),
        totalTimeMs := 0 + (3000 - 1000) } :=
  (stats_update 2 sampleSubject (runSession sampleSession sampleOps) 3000
    ⟨by decide, sampleSession, sampleOps, by unfold SessionStart; decide!, by decide!, rfl,
      by decide!, by decide!⟩).1

set_option maxRecDepth 1000000 in
/-- C14 fails on the code, through the timer that is never cleared (the
defect of C23). Along `staleStatsTrace`, which contains no reset and whose
clock never goes back, the timer of the abandoned session of the subject with
one question fires while a session of the sample subject runs with two
entries in the wrong set: it finalizes with `finalScore = 1 - 2`, so that
`totalCorrect` of the subject with one question falls from 0 to -1, and the
statistics that change are not those of the active subject. -/
theorem stale_timer_decreases_totalCorrect :
    (staleStatsTrace.all fun ev =>
      match ev with
      | AppEvent.resetStats => false
      | _ => true) = true ∧
    (runApp [sampleSubject, oneSubject] sampleWelcome staleStatsStart).statsOf "s1" =
      ⟨0, 0, 0, 0⟩ ∧
    (runApp [sampleSubject, oneSubject] sampleWelcome staleStatsStart).wrongAnswersThisSession =
      ["q0", "q1"] ∧
    (runApp [sampleSubject, oneSubject] sampleWelcome staleStatsTrace).statsOf "s1" =
      ⟨1, 1, -1, 1500⟩ ∧
    (runApp [sampleSubject, oneSubject] sampleWelcome staleStatsTrace).selectedSubject =
      some sampleSubject ∧
    (runApp [sampleSubject, oneSubject] sampleWelcome staleStatsTrace).statsOf "s" =
      ⟨0, 0, 0, 0⟩ := by
  decide

/-- C15: at the finalization of a session that is not an error review and has
a wrong answer, the subject's log becomes the duplicate-free list of the texts
that were in the log or in the session's wrong set; at the finalization of a
session without a wrong answer, and of an error review, the logs are left as
they are. -/
theorem wrong_log_merge (n : Nat) (subject : Subject) (st : AppState) (now : Int)
    (h : Finalizing n subject st now) :
    (st.isErrorReviewMode = false → st.wrongAnswersThisSession ≠ [] →
      (∀ t, t ∈ ((SessionOp.next now).apply st).wrongLogOf subject.id ↔
        t ∈ st.wrongLogOf subject.id ∨ t ∈ st.wrongAnswersThisSession) ∧
      (((SessionOp.next now).apply st).wrongLogOf subject.id).Nodup) ∧
    (st.isErrorReviewMode = false → st.wrongAnswersThisSession = [] →
      ((SessionOp.next now).apply st).wrongAnswers = st.wrongAnswers) ∧
    (st.isErrorReviewMode = true →
      ((SessionOp.next now).apply st).wrongAnswers = st.wrongAnswers) := by
  obtain ⟨hap, hadv, hcs, _, _⟩ := h.step
  have hwa := handleNextQuestion_final_wrongAnswers st.captured now
    { st with pendingNext := [] } subject hadv hcs
  have hwa2 : ((SessionOp.next now).apply st).wrongAnswers =
      if st.isErrorReviewMode = false ∧ 0 < st.wrongAnswersThisSession.length then
        Obj.set st.wrongAnswers subject.id
          (uniqueInOrder (st.wrongLogOf subject.id ++ st.wrongAnswersThisSession))
      else st.wrongAnswers := by
    rw [hap, commit_wrongAnswers, hwa]
    rfl
  refine ⟨?_, ?_, ?_⟩
  · intro hrev hne
    have hpos : 0 < st.wrongAnswersThisSession.length := List.length_pos.2 hne
    have hlog : ((SessionOp.next now).apply st).wrongLogOf subject.id =
        uniqueInOrder (st.wrongLogOf subject.id ++ st.wrongAnswersThisSession) := by
      unfold AppState.wrongLogOf
      rw [hwa2, if_pos ⟨hrev, hpos⟩, Obj.get_set_self, Option.getD_some]
      rfl
    rw [hlog]
    refine ⟨fun t => ?_, uniqueInOrder_nodup _⟩
    rw [mem_uniqueInOrder, List.mem_append]
  · intro _ hnil
    rw [hwa2, if_neg]
    rw [hnil]
    simp
  · intro hrev
    rw [hwa2, if_neg]
    rw [hrev]
    simp

set_option maxRecDepth 1000000 in
/-- Witness of C15 on the sample session: the missed question `q1` enters the
empty log. -/
theorem wrong_log_merge_witness :
    ((SessionOp.next 3000).apply (runSession sampleSession sampleOps)).wrongLogOf "s" = ["q1"] ∧
    (((SessionOp.next 3000).apply (runSession sampleSession sampleOps)).wrongLogOf
      sampleSubject.id).Nodup :=
  ⟨by decide!,
    ((wrong_log_merge 2 sampleSubject (runSession sampleSession sampleOps) 3000
      ⟨by decide, sampleSession, sampleOps, by unfold SessionStart; decide!, by decide!, rfl,
        by decide!, by decide!⟩).1 (by decide!) (by decide!)).2⟩

/-! ## Claims on answering and skipping -/

theorem mounted_of_current (st : AppState) (q : Question) (hscreen : st.screen = Screen.quiz)
    (hq : st.questions[st.currentIndex]? = some q) :
    st.screen = Screen.quiz ∧ 0 < st.questions.length := by
  refine ⟨hscreen, ?_⟩
  obtain ⟨hlt, _⟩ := List.getElem?_eq_some.1 hq
  omega

/-- An accepted answer: the state after choosing option `o` of the displayed,
unanswered question `q`. -/
theorem answer_apply_unanswered (st : AppState) (q : Question) (o : AnswerOption)
    (optionIndex : Nat) (hscreen : st.screen = Screen.quiz)
    (hq : st.questions[st.currentIndex]? = some q) (ho : q.options[optionIndex]? = some o)
    (hun : st.answerState = none) :
    (SessionOp.answer optionIndex).apply st =
      { handleAnswer (o.letter == some q.correctAnswer) q.question
          { st with selectedAnswer := some o.letter,
                    answerState := some (o.letter == some q.correctAnswer) } with
        pendingNext := st.pendingNext ++ [st.captured] } := by
  have hm := mounted_of_current st q hscreen hq
  obtain ⟨h1, h2, h3, _, _, _, _⟩ := handleSelectAnswer_unanswered q o st hun
  have hkey := questionScreenKey_congr st (handleSelectAnswer q o st) h1 h2 h3
  have hsome : (questionScreenKey (handleSelectAnswer q o st)).isSome = true := by
    rw [← hkey]
    exact questionScreenKey_isSome st hm
  have hap : (SessionOp.answer optionIndex).apply st = commit st (handleSelectAnswer q o st) := by
    unfold SessionOp.apply
    simp only
    rw [if_pos hm]
    simp only [hq, ho]
  rw [hap, commit_of_key _ _ hkey hsome]
  unfold handleSelectAnswer
  rw [if_neg (by rw [hun]; simp)]
  simp only [handleAnswer_pendingNext]

theorem handleAnswer_correct_review (text : String) (st : AppState) (subject : Subject)
    (hrev : st.isErrorReviewMode = true) (hs : st.selectedSubject = some subject) :
    (handleAnswer true text st).wrongAnswers =
      Obj.set st.wrongAnswers subject.id
        ((st.wrongLogOf subject.id).filter fun t => t != text) := by
  unfold handleAnswer AppState.wrongLogOf
  simp [hrev, hs]

theorem handleAnswer_wrongAnswers_same (isCorrect : Bool) (text : String) (st : AppState)
    (h : isCorrect = false ∨ st.isErrorReviewMode = false) :
    (handleAnswer isCorrect text st).wrongAnswers = st.wrongAnswers := by
  unfold handleAnswer
  rcases h with h | h
  · simp [h]
  · split
    · simp [h]
    · rfl

/-- C16: when an answer to the displayed question `q` is accepted, then in an
error review a correct answer makes the subject's log the previous log without
the entries equal to the text of `q`, the other entries in their order; a
wrong answer in an error review, and any answer outside an error review, leave
the logs as they are. -/
theorem answer_updates_log (st : AppState) (subject : Subject) (q : Question)
    (o : AnswerOption) (optionIndex : Nat) (hscreen : st.screen = Screen.quiz)
    (hs : st.selectedSubject = some subject)
    (hq : st.questions[st.currentIndex]? = some q) (ho : q.options[optionIndex]? = some o)
    (hun : st.answerState = none) :
    (st.isErrorReviewMode = true → o.letter = some q.correctAnswer →
      ((SessionOp.answer optionIndex).apply st).wrongLogOf subject.id =
        (st.wrongLogOf subject.id).filter fun t => t != q.question) ∧
    (st.isErrorReviewMode = true → o.letter ≠ some q.correctAnswer →
      ((SessionOp.answer optionIndex).apply st).wrongAnswers = st.wrongAnswers) ∧
    (st.isErrorReviewMode = false →
      ((SessionOp.answer optionIndex).apply st).wrongAnswers = st.wrongAnswers) := by
  rw [answer_apply_unanswered st q o optionIndex hscreen hq ho hun]
  refine ⟨?_, ?_, ?_⟩
  · intro hrev hcorrect
    have hb : (o.letter == some q.correctAnswer) = true := by simpa using hcorrect
    unfold AppState.wrongLogOf
    simp only [hb]
    rw [handleAnswer_correct_review q.question
      { st with selectedAnswer := some o.letter, answerState := some true } subject hrev hs,
      Obj.get_set_self, Option.getD_some]
    rfl
  · intro _ hwrong
    have hb : (o.letter == some q.correctAnswer) = false := by simpa using hwrong
    simp only [hb]
    rw [handleAnswer_wrongAnswers_same false q.question _ (Or.inl rfl)]
  · intro hrev
    simp only
    rw [handleAnswer_wrongAnswers_same (o.letter == some q.correctAnswer) q.question
      { st with selectedAnswer := some o.letter,
                answerState := some (o.letter == some q.correctAnswer) } (Or.inr hrev)]

/-- C19: a skip of the displayed, unanswered question at index `i` turns the
question list into the questions before `i`, those after `i`, and then the
question at `i`; the length and the questions as a multiset are unchanged, as
are `currentIndex`, the score and the session's wrong set; at the last index
the list is unchanged. -/
theorem skip_moves_current_to_end (st : AppState) (q : Question)
    (hscreen : st.screen = Screen.quiz) (hq : st.questions[st.currentIndex]? = some q)
    (hun : st.answerState = none) :
    (SessionOp.skip.apply st).questions =
      st.questions.take st.currentIndex ++ st.questions.drop (st.currentIndex + 1) ++ [q] ∧
    (SessionOp.skip.apply st).questions.length = st.questions.length ∧
    (SessionOp.skip.apply st).questions.Perm st.questions ∧
    (SessionOp.skip.apply st).currentIndex = st.currentIndex ∧
    (SessionOp.skip.apply st).score = st.score ∧
    (SessionOp.skip.apply st).wrongAnswersThisSession = st.wrongAnswersThisSession ∧
    (st.currentIndex + 1 = st.questions.length →
      (SessionOp.skip.apply st).questions = st.questions) := by
  have hm := mounted_of_current st q hscreen hq
  obtain ⟨hlt, hget⟩ := List.getElem?_eq_some.1 hq
  have hap : SessionOp.skip.apply st =
      commit st { st with questions := st.questions.eraseIdx st.currentIndex ++ [q] } := by
    unfold SessionOp.apply
    simp only
    rw [if_pos hm]
    simp only [hq]
    unfold handleSkip handleSkipQuestion
    rw [if_neg (by rw [hun]; simp)]
    simp only [hq]
  have hqs : (SessionOp.skip.apply st).questions =
      st.questions.take st.currentIndex ++ st.questions.drop (st.currentIndex + 1) ++ [q] := by
    rw [hap, commit_questions]
    simp only
    rw [List.eraseIdx_eq_take_drop_succ]
  have hsplit : st.questions =
      st.questions.take st.currentIndex ++ q :: st.questions.drop (st.currentIndex + 1) := by
    conv_lhs => rw [← List.take_append_drop st.currentIndex st.questions]
    rw [List.drop_eq_getElem_cons hlt, hget]
  refine ⟨hqs, ?_, ?_, ?_, ?_, ?_, ?_⟩
  · rw [hqs]
    conv_rhs => rw [hsplit]
    simp only [List.length_append, List.length_cons, List.length_nil]
    omega
  · rw [hqs]
    conv_rhs => rw [hsplit]
    rw [List.append_assoc]
    exact List.Perm.append_left _ (List.perm_append_singleton q _)
  · rw [hap, commit_currentIndex]
  · rw [hap, commit_score]
  · rw [hap, commit_wrongAnswersThisSession]
  · intro hlast
    rw [hqs]
    conv_rhs => rw [hsplit]
    have hnil : st.questions.drop (st.currentIndex + 1) = [] := by
      apply List.drop_eq_nil_of_le
      omega
    rw [hnil]
    simp

/-- C20: once the displayed question has a recorded answer, choosing an
option and pressing skip leave the whole state as it is (score, wrong set,
logs and question list included); and an accepted answer records itself, so a
second one is not accepted. -/
theorem answered_question_ignores_input (st : AppState) (optionIndex : Nat)
    (h : st.answerState.isSome = true) :
    (SessionOp.answer optionIndex).apply st = st ∧ SessionOp.skip.apply st = st ∧
    ∀ (s : AppState) (q : Question) (o : AnswerOption) (i : Nat),
      s.screen = Screen.quiz → s.questions[s.currentIndex]? = some q →
      q.options[i]? = some o → s.answerState = none →
      ((SessionOp.answer i).apply s).answerState.isSome = true := by
  refine ⟨?_, ?_, ?_⟩
  · unfold SessionOp.apply
    simp only
    split
    next hm =>
      split
      · split
        · have hsame : ∀ q o, handleSelectAnswer q o st = st := by
            intro q o
            unfold handleSelectAnswer
            rw [if_pos h]
          rw [hsame, commit_of_key st st rfl (questionScreenKey_isSome st hm)]
        · rfl
      · rfl
    · rfl
  · unfold SessionOp.apply
    simp only
    split
    next hm =>
      split
      · have hsame : handleSkip st = st := by
          unfold handleSkip
          rw [if_pos h]
        rw [hsame, commit_of_key st st rfl (questionScreenKey_isSome st hm)]
      · rfl
    · rfl
  · intro s q o i hscreen hq ho hun
    rw [answer_apply_unanswered s q o i hscreen hq ho hun]
    simp

/-! ## Lemmas on the start of an error review -/

theorem shuffleOptions_question (random : Nat → RandomValue) (q : Question) :
    (shuffleOptions random q).question = q.question := by
  unfold shuffleOptions
  simp only
  split <;> rfl

theorem mapShuffleOptions_map_question (random : Nat → RandomValue) (calls : Nat)
    (l : List Question) :
    (mapShuffleOptions random calls l).map (fun q => q.question) =
      l.map fun q => q.question := by
  induction l generalizing calls with
  | nil => rfl
  | cons q qs ih =>
    simp only [mapShuffleOptions, List.map_cons, shuffleOptions_question, ih]

theorem mapShuffleOptions_length (random : Nat → RandomValue) (calls : Nat)
    (l : List Question) : (mapShuffleOptions random calls l).length = l.length := by
  have := congrArg List.length (mapShuffleOptions_map_question random calls l)
  simpa using this

theorem commit_answerState_of_unmounted (old new : AppState)
    (h : old.screen ≠ Screen.quiz) : (commit old new).answerState = none := by
  unfold commit
  have hold : questionScreenKey old = none := by
    unfold questionScreenKey
    rw [if_neg (fun hc => h hc.1)]
  split
  next hc =>
    rw [hold] at hc
    rw [← hc.1] at hc
    simp at hc
  · rfl

theorem commit_answerState_of_index_ne (old new : AppState)
    (h1 : old.screen = Screen.quiz) (h2 : 0 < old.questions.length)
    (hne : new.currentIndex ≠ old.currentIndex) : (commit old new).answerState = none := by
  unfold commit
  split
  next hc =>
    exfalso
    obtain ⟨hkey, hsome⟩ := hc
    unfold questionScreenKey at hkey
    rw [if_pos ⟨h1, h2⟩] at hkey
    split at hkey
    · simp only [Option.some.injEq, Prod.mk.injEq] at hkey
      exact hne hkey.1.symm
    · cases hkey
  · rfl

/-- The result of `handleStartErrorReview` in terms of the pool of missed
questions. -/
theorem handleStartErrorReview_eq (random : Nat → RandomValue) (now : Int) (st : AppState)
    (subject : Subject) (hs : st.selectedSubject = some subject) :
    handleStartErrorReview random now st =
      if subject.data.filter (fun q => (st.wrongLogOf subject.id).contains q.question) = []
      then st
      else
        commit st
          { st with
            wrongAnswersThisSession := []
            isErrorReviewMode := true
            selectedVariant := some VariantSel.errors
            questions := mapShuffleOptions random
              ((subject.data.filter fun q =>
                (st.wrongLogOf subject.id).contains q.question).length - 1)
              (shuffleArray random (subject.data.filter fun q =>
                (st.wrongLogOf subject.id).contains q.question))
            currentIndex := 0
            score := 0
            startTime := some now
            endTime := none
            screen := Screen.quiz } := by
  unfold handleStartErrorReview AppState.wrongLogOf
  simp only [hs]
  by_cases hlog : ((Obj.get st.wrongAnswers subject.id).getD []).length = 0
  · rw [if_pos hlog]
    have hnil : (Obj.get st.wrongAnswers subject.id).getD [] = [] := List.length_eq_zero.1 hlog
    rw [hnil]
    simp
  · rw [if_neg hlog]
    by_cases hpool : (subject.data.filter fun q =>
        ((Obj.get st.wrongAnswers subject.id).getD []).contains q.question) = []
    · rw [hpool]
      simp
    · rw [if_neg (fun hc => hpool (List.length_eq_zero.1 hc)), if_neg hpool]

/-- The fields of the session started by `handleStartErrorReview` from a
non-empty pool. -/
theorem startErrorReview_fields (random : Nat → RandomValue) (now : Int) (st : AppState)
    (subject : Subject) (hs : st.selectedSubject = some subject) :
    subject.data.filter (fun q => (st.wrongLogOf subject.id).contains q.question) ≠ [] →
      (handleStartErrorReview random now st).isErrorReviewMode = true ∧
      (handleStartErrorReview random now st).selectedVariant = some VariantSel.errors ∧
      (handleStartErrorReview random now st).score = 0 ∧
      (handleStartErrorReview random now st).currentIndex = 0 ∧
      (handleStartErrorReview random now st).wrongAnswersThisSession = [] ∧
      (handleStartErrorReview random now st).screen = Screen.quiz ∧
      ((handleStartErrorReview random now st).questions.map fun q => q.question).Perm
        ((subject.data.filter fun q => (st.wrongLogOf subject.id).contains q.question).map
          fun q => q.question) := by
  have heq := handleStartErrorReview_eq random now st subject hs
  intro hpool
  rw [heq, if_neg hpool]
  refine ⟨by simp, by simp, by simp, by simp, by simp, by simp, ?_⟩
  rw [commit_questions]
  simp only
  rw [mapShuffleOptions_map_question]
  exact (shuffleArray_perm random _).map _

/-! ## Claims on the error review -/

/-- C18: `handleStartErrorReview` takes as its pool the questions of the
subject whose text is an entry of the subject's log; with an empty pool it
returns the state as it is; otherwise the session it starts is an error
review with selector `errors`, score 0, index 0, an empty wrong set, and
question texts that are a permutation of the texts of the pool. -/
theorem startErrorReview_pool (random : Nat → RandomValue) (now : Int) (st : AppState)
    (subject : Subject) (hs : st.selectedSubject = some subject) :
    (subject.data.filter (fun q => (st.wrongLogOf subject.id).contains q.question) = [] →
      handleStartErrorReview random now st = st) ∧
    (subject.data.filter (fun q => (st.wrongLogOf subject.id).contains q.question) ≠ [] →
      (handleStartErrorReview random now st).isErrorReviewMode = true ∧
      (handleStartErrorReview random now st).selectedVariant = some VariantSel.errors ∧
      (handleStartErrorReview random now st).score = 0 ∧
      (handleStartErrorReview random now st).currentIndex = 0 ∧
      (handleStartErrorReview random now st).wrongAnswersThisSession = [] ∧
      (handleStartErrorReview random now st).screen = Screen.quiz ∧
      ((handleStartErrorReview random now st).questions.map fun q => q.question).Perm
        ((subject.data.filter fun q => (st.wrongLogOf subject.id).contains q.question).map
          fun q => q.question)) := by
  have heq := handleStartErrorReview_eq random now st subject hs
  constructor
  · intro hpool
    rw [heq, if_pos hpool]
  · exact startErrorReview_fields random now st subject hs

@[simp] theorem handleNextQuestion_isErrorReviewMode (c : Captured) (now : Int)
    (st : AppState) :
    (handleNextQuestion c now st).isErrorReviewMode = st.isErrorReviewMode := by
  unfold handleNextQuestion
  split
  · rfl
  · simp only
    split
    · rfl
    · split_ifs <;> simp

theorem drop_current (l : List Question) (i : Nat) (q : Question) (h : l[i]? = some q) :
    l.drop i = q :: l.drop (i + 1) := by
  obtain ⟨hlt, hget⟩ := List.getElem?_eq_some.1 h
  rw [List.drop_eq_getElem_cons hlt, hget]

theorem drop_after_skip (l : List Question) (i : Nat) (q : Question) (h : l[i]? = some q) :
    (l.eraseIdx i ++ [q]).drop i = l.drop (i + 1) ++ [q] := by
  obtain ⟨hlt, _⟩ := List.getElem?_eq_some.1 h
  rw [List.eraseIdx_eq_take_drop_succ, List.append_assoc]
  exact List.drop_left' (by rw [List.length_take]; omega)

theorem ReviewInv_apply (n : Nat) (subject : Subject) (st : AppState) (op : SessionOp)
    (h : SessionInv n subject st) (hr : ReviewInv subject st) :
    ReviewInv subject (op.apply st) := by
  obtain ⟨hrev, hlog⟩ := hr
  cases op with
  | answer optionIndex =>
    rcases answer_apply_cases n subject st optionIndex h with hsame |
      ⟨q, o, hscreen, hq, _, hun, _, hap⟩
    · rw [hsame]
      exact ⟨hrev, hlog⟩
    · rw [hap]
      refine ⟨by simpa using hrev, ?_⟩
      intro _ t ht
      have hold := hlog hscreen
      rw [hun] at hold
      simp only [Option.isSome_none, Bool.false_eq_true, if_false, Nat.add_zero,
        drop_current st.questions st.currentIndex q hq, List.map_cons, List.mem_cons] at hold
      simp only [handleAnswer_questions, handleAnswer_currentIndex, handleAnswer_answerState,
        Option.isSome_some, if_true]
      cases hb : (o.letter == some q.correctAnswer)
      · rw [hb] at ht
        have hwa := handleAnswer_wrongAnswers_same false q.question
          { st with selectedAnswer := some o.letter, answerState := some false } (Or.inl rfl)
        have ht2 : t ∈ st.wrongLogOf subject.id := by
          unfold AppState.wrongLogOf at ht ⊢
          rw [show ({ handleAnswer false q.question
              { st with selectedAnswer := some o.letter, answerState := some false } with
              pendingNext := [st.captured] } : AppState).wrongAnswers =
            (handleAnswer false q.question
              { st with selectedAnswer := some o.letter, answerState := some false }).wrongAnswers
            from rfl, hwa] at ht
          exact ht
        rw [handleAnswer_wrong]
        simp only [List.mem_append, List.mem_singleton]
        rcases hold t ht2 with hw | hcur | hrest
        · exact Or.inl (Or.inl hw)
        · exact Or.inl (Or.inr hcur)
        · exact Or.inr hrest
      · rw [hb] at ht
        have hwa := handleAnswer_correct_review q.question
          { st with selectedAnswer := some o.letter, answerState := some true } subject
          hrev h.2.1
        have ht2 : t ∈ (st.wrongLogOf subject.id).filter fun t => t != q.question := by
          unfold AppState.wrongLogOf at ht
          rw [show ({ handleAnswer true q.question
              { st with selectedAnswer := some o.letter, answerState := some true } with
              pendingNext := [st.captured] } : AppState).wrongAnswers =
            (handleAnswer true q.question
              { st with selectedAnswer := some o.letter, answerState := some true }).wrongAnswers
            from rfl, hwa, Obj.get_set_self, Option.getD_some] at ht
          exact ht
        rw [List.mem_filter] at ht2
        obtain ⟨ht3, hne⟩ := ht2
        have hne2 : t ≠ q.question := by simpa using hne
        simp only [handleAnswer_correct_wrongAnswersThisSession]
        rcases hold t ht3 with hw | hcur | hrest
        · exact Or.inl hw
        · exact absurd hcur hne2
        · exact Or.inr hrest
  | skip =>
    rcases skip_apply_cases n subject st h with hsame | ⟨q, hscreen, hq, hun, _, hap⟩
    · rw [hsame]
      exact ⟨hrev, hlog⟩
    · rw [hap]
      refine ⟨by simpa using hrev, ?_⟩
      intro _ t ht
      have hold := hlog hscreen
      rw [hun] at hold
      simp only [Option.isSome_none, Bool.false_eq_true, if_false, Nat.add_zero,
        drop_current st.questions st.currentIndex q hq, List.map_cons, List.mem_cons] at hold
      have hans : (commit st
          { st with questions := st.questions.eraseIdx st.currentIndex ++ [q] }).answerState =
            none := by
        rcases commit_answerState st
          { st with questions := st.questions.eraseIdx st.currentIndex ++ [q] } with hc | hc
        · rw [hc]
          exact hun
        · exact hc
      have ht2 : t ∈ st.wrongLogOf subject.id := by
        unfold AppState.wrongLogOf at ht ⊢
        rw [commit_wrongAnswers] at ht
        exact ht
      rw [hans]
      simp only [commit_wrongAnswersThisSession, commit_questions, commit_currentIndex,
        Option.isSome_none, Bool.false_eq_true, if_false, Nat.add_zero,
        drop_after_skip st.questions st.currentIndex q hq, List.map_append, List.map_cons,
        List.map_nil, List.mem_append, List.mem_singleton]
      rcases hold t ht2 with hw | hcur | hrest
      · exact Or.inl hw
      · exact Or.inr (Or.inr hcur)
      · exact Or.inr (Or.inl hrest)
  | next now =>
    rcases next_apply_cases n subject st now h with ⟨_, hsame⟩ |
      ⟨_, hsome, hscreen, hadv, hap⟩ | ⟨_, _, _, hadv, hap⟩
    · rw [hsame]
      exact ⟨hrev, hlog⟩
    · rw [hap]
      refine ⟨by simpa using hrev, ?_⟩
      intro _ t ht
      have hold := hlog hscreen
      rw [hsome] at hold
      simp only [if_true] at hold
      have hans : (commit st
          { st with pendingNext := [], currentIndex := st.currentIndex + 1 }).answerState =
            none :=
        commit_answerState_of_index_ne st _ hscreen (by omega) (by simp)
      have ht2 : t ∈ st.wrongLogOf subject.id := by
        unfold AppState.wrongLogOf at ht ⊢
        rw [commit_wrongAnswers] at ht
        exact ht
      rw [hans]
      simp only [commit_wrongAnswersThisSession, commit_questions, commit_currentIndex,
        Option.isSome_none, Bool.false_eq_true, if_false, Nat.add_zero]
      exact hold t ht2
    · rw [hap]
      obtain ⟨f1, _⟩ := handleNextQuestion_final_fields st.captured now
        { st with pendingNext := [] } subject hadv h.2.1
      refine ⟨by simpa using hrev, ?_⟩
      intro hq2
      rw [commit_screen, f1] at hq2
      cases hq2

theorem ReviewInv_run (n : Nat) (subject : Subject) (ops : List SessionOp) (st : AppState)
    (h : SessionInv n subject st) (hr : ReviewInv subject st) :
    ReviewInv subject (runSession st ops) := by
  induction ops generalizing st with
  | nil => exact hr
  | cons op ops ih =>
    exact ih (op.apply st) (SessionInv_apply n subject st op h)
      (ReviewInv_apply n subject st op h hr)

/-- C17: let the subject's log be non-empty with every entry the text of a
question of the subject. An error review started by `handleStartErrorReview`
from a screen other than the quiz, with no timer pending, that reaches its
finalization with an empty wrong set (every question was answered correctly)
leaves the subject's log empty. -/
theorem review_session_clears_log (random : Nat → RandomValue) (now0 : Int) (st : AppState)
    (subject : Subject) (hs : st.selectedSubject = some subject)
    (hscreen : st.screen ≠ Screen.quiz) (hpend : st.pendingNext = [])
    (hlog : st.wrongLogOf subject.id ≠ [])
    (hentries : ∀ t ∈ st.wrongLogOf subject.id, ∃ q ∈ subject.data, q.question = t)
    (ops : List SessionOp) (now : Int)
    (hquiz : (runSession (handleStartErrorReview random now0 st) ops).screen = Screen.quiz)
    (hfin : ((SessionOp.next now).apply
      (runSession (handleStartErrorReview random now0 st) ops)).screen = Screen.result)
    (hcorrect :
      (runSession (handleStartErrorReview random now0 st) ops).wrongAnswersThisSession = []) :
    ((SessionOp.next now).apply
      (runSession (handleStartErrorReview random now0 st) ops)).wrongLogOf subject.id = [] := by
  have hpoolmem : ∀ t ∈ st.wrongLogOf subject.id,
      t ∈ (subject.data.filter fun q => (st.wrongLogOf subject.id).contains q.question).map
        fun q => q.question := by
    intro t ht
    obtain ⟨q, hq, hqt⟩ := hentries t ht
    rw [List.mem_map]
    refine ⟨q, ?_, hqt⟩
    rw [List.mem_filter]
    refine ⟨hq, ?_⟩
    rw [hqt]
    simpa using ht
  have hpool : (subject.data.filter fun q =>
      (st.wrongLogOf subject.id).contains q.question) ≠ [] := by
    obtain ⟨t, ht⟩ := List.exists_mem_of_ne_nil _ hlog
    intro hnil
    have := hpoolmem t ht
    rw [hnil] at this
    simp at this
  obtain ⟨s1, s2, s3, s4, s5, s6, s7⟩ := (startErrorReview_fields random now0 st subject hs) hpool
  have heq := handleStartErrorReview_eq random now0 st subject hs
  rw [if_neg hpool] at heq
  have hsub0 : (handleStartErrorReview random now0 st).selectedSubject = some subject := by
    rw [heq, commit_selectedSubject]
    exact hs
  have hpend0 : (handleStartErrorReview random now0 st).pendingNext = [] := by
    rw [heq, commit_pendingNext]
    exact hpend
  have hans0 : (handleStartErrorReview random now0 st).answerState = none := by
    rw [heq]
    exact commit_answerState_of_unmounted st _ hscreen
  have hlog0 : (handleStartErrorReview random now0 st).wrongLogOf subject.id =
      st.wrongLogOf subject.id := by
    unfold AppState.wrongLogOf
    rw [heq, commit_wrongAnswers]
  have hlen1 : 1 ≤ (handleStartErrorReview random now0 st).questions.length := by
    have hl := s7.length_eq
    rw [List.length_map, List.length_map] at hl
    rw [hl]
    exact List.length_pos.2 hpool
  have hstart : SessionStart (handleStartErrorReview random now0 st).questions.length
      (handleStartErrorReview random now0 st) :=
    ⟨s6, rfl, s4, s3, s5, hans0, hpend0, by rw [hsub0]; rfl⟩
  have hinv0 := SessionInv_of_start _ subject _ hlen1 hstart hsub0
  have hrev0 : ReviewInv subject (handleStartErrorReview random now0 st) := by
    refine ⟨s1, ?_⟩
    intro _ t ht
    right
    rw [hlog0] at ht
    rw [s4, hans0]
    simp only [Option.isSome_none, Bool.false_eq_true, if_false, Nat.add_zero, List.drop_zero]
    exact s7.symm.subset (hpoolmem t ht)
  have hinv := SessionInv_run _ subject ops _ hinv0
  have hrevr := ReviewInv_run _ subject ops _ hinv0 hrev0
  generalize (handleStartErrorReview random now0 st).questions.length = n at hinv
  generalize runSession (handleStartErrorReview random now0 st) ops = sf at *
  rcases next_apply_cases n subject sf now hinv with ⟨_, hsame⟩ | ⟨_, _, _, _, hap⟩ |
    ⟨_, hsome, _, hadv, hap⟩
  · rw [hsame, hquiz] at hfin
    cases hfin
  · rw [hap, commit_screen] at hfin
    rw [show ({ sf with pendingNext := [], currentIndex := sf.currentIndex + 1 } :
      AppState).screen = sf.screen from rfl, hquiz] at hfin
    cases hfin
  · obtain ⟨hrev, hlogf⟩ := hrevr
    have hwa := handleNextQuestion_final_wrongAnswers sf.captured now
      { sf with pendingNext := [] } subject hadv hinv.2.1
    have hsfrev : sf.captured.isErrorReviewMode = true := hrev
    rw [if_neg (by rw [hsfrev]; simp)] at hwa
    have hlogsame : ((SessionOp.next now).apply sf).wrongLogOf subject.id =
        sf.wrongLogOf subject.id := by
      unfold AppState.wrongLogOf
      rw [hap, commit_wrongAnswers, hwa]
    rw [hlogsame]
    have hall := hlogf hquiz
    rw [hsome, hcorrect] at hall
    simp only [if_true] at hall
    have hdrop : sf.questions.drop (sf.currentIndex + 1) = [] := by
      apply List.drop_eq_nil_of_le
      omega
    rw [hdrop] at hall
    apply List.eq_nil_iff_forall_not_mem.2
    intro t ht
    rcases hall t ht with hc | hc <;> simp at hc

/-! ## Witnesses of the claims on answering, skipping and the error review -/

set_option maxRecDepth 1000000 in
/-- Witness of C16: in the sample error review the first question, `q1`, is
answered correctly and leaves the log `["q0", "q1"]`. -/
theorem answer_updates_log_witness :
    sampleReview.wrongLogOf "s" = ["q0", "q1"] ∧
    ((SessionOp.answer 1).apply sampleReview).wrongLogOf sampleSubject.id =
      (sampleReview.wrongLogOf sampleSubject.id).filter (fun t => t != "q1") ∧
    ((SessionOp.answer 1).apply sampleReview).wrongLogOf "s" = ["q0"] :=
  ⟨by decide!,
    (answer_updates_log sampleReview sampleSubject
      ⟨"1", "q1", [⟨some "а", "y"⟩, ⟨some "б", "x"⟩], "б", none⟩ ⟨some "б", "x"⟩ 1
      (by decide!) (by decide!) (by decide!) (by decide!) (by decide!)).1
        (by decide!) (by decide!),
    by decide!⟩

set_option maxRecDepth 1000000 in
/-- Witness of C17: the sample error review, with both questions answered
correctly, ends with an empty log. -/
theorem review_session_clears_log_witness :
    sampleReviewMenu.wrongLogOf "s" = ["q0", "q1"] ∧
    ((SessionOp.next 9000).apply (runSession sampleReview sampleReviewOps)).wrongLogOf
      sampleSubject.id = [] :=
  ⟨by decide!,
    review_session_clears_log zeroRandom 7000 sampleReviewMenu sampleSubject (by decide!)
      (by decide!) (by decide!) (by decide!) (by decide!) sampleReviewOps 9000 (by decide!)
      (by decide!) (by decide!)⟩

set_option maxRecDepth 1000000 in
/-- Witness of C18: the pool of the sample error review is the two questions
of the subject, and the session started holds them in the order `q1`, `q0`. -/
theorem startErrorReview_pool_witness :
    sampleReview.isErrorReviewMode = true ∧
    sampleReview.selectedVariant = some VariantSel.errors ∧
    sampleReview.score = 0 ∧ sampleReview.currentIndex = 0 ∧
    sampleReview.wrongAnswersThisSession = [] ∧ sampleReview.screen = Screen.quiz ∧
    (sampleReview.questions.map fun q => q.question).Perm
      ((sampleSubject.data.filter fun q =>
        (sampleReviewMenu.wrongLogOf sampleSubject.id).contains q.question).map
          fun q => q.question) :=
  (startErrorReview_pool zeroRandom 7000 sampleReviewMenu sampleSubject (by decide!)).2
    (by decide!)

set_option maxRecDepth 1000000 in
/-- Witness of C19: a skip at the start of the sample session moves `q0`
behind `q1`. -/
theorem skip_moves_current_to_end_witness :
    (sampleSession.questions.map fun q => q.question) = ["q0", "q1"] ∧
    ((SessionOp.skip.apply sampleSession).questions.map fun q => q.question) = ["q1", "q0"] ∧
    (SessionOp.skip.apply sampleSession).questions.Perm sampleSession.questions :=
  ⟨by decide!, by decide!,
    (skip_moves_current_to_end sampleSession
      ⟨"1-2", "q0", [⟨some "а", "y"⟩, ⟨some "б", "x"⟩], "б", some 1⟩
      (by decide!) (by decide!) (by decide!)).2.2.1⟩

set_option maxRecDepth 1000000 in
/-- Witness of C20: after the first answer of the sample session, a second
answer and a skip change nothing. -/
theorem answered_question_ignores_input_witness :
    ((SessionOp.answer 0).apply sampleSession).answerState = some false ∧
    (SessionOp.answer 1).apply ((SessionOp.answer 0).apply sampleSession) =
      (SessionOp.answer 0).apply sampleSession ∧
    SessionOp.skip.apply ((SessionOp.answer 0).apply sampleSession) =
      (SessionOp.answer 0).apply sampleSession :=
  ⟨by decide!,
    (answered_question_ignores_input ((SessionOp.answer 0).apply sampleSession) 1
      (by decide!)).1,
    (answered_question_ignores_input ((SessionOp.answer 0).apply sampleSession) 1
      (by decide!)).2.1⟩

/-! ## Lemmas on the pending timers -/

theorem handleNextQuestion_pendingNext (c : Captured) (now : Int) (st : AppState) :
    (handleNextQuestion c now st).pendingNext = st.pendingNext := by
  by_cases hadv : c.currentIndex + 1 < c.questions.length
  · rw [handleNextQuestion_advance c now st hadv]
  · rcases hs : c.selectedSubject with _ | subject
    · unfold handleNextQuestion
      rw [if_neg hadv]
      simp only [hs]
    · exact (handleNextQuestion_final_fields c now st subject hadv hs).2.2.2.2.1

theorem handleStartQuiz_pendingNext (subjects : List Subject) (random : Nat → RandomValue)
    (now : Int) (variant : Option VariantSel) (st : AppState) :
    (handleStartQuiz subjects random now variant st).pendingNext = st.pendingNext := by
  unfold handleStartQuiz
  split
  · rfl
  · split
    · rfl
    · simp

theorem handleStartErrorReview_pendingNext (random : Nat → RandomValue) (now : Int)
    (st : AppState) : (handleStartErrorReview random now st).pendingNext = st.pendingNext := by
  unfold handleStartErrorReview
  split
  · rfl
  · simp only
    split
    · rfl
    · split
      · rfl
      · simp

/-- The timers pending after an operation of a session are timers that were
pending before, or the timer of an answer given on a mounted question screen,
which holds the closure of a render with at least one question. -/
theorem sessionOp_pendingNext (op : SessionOp) (st : AppState) :
    ∀ c ∈ (op.apply st).pendingNext, c ∈ st.pendingNext ∨ c.questions ≠ [] := by
  intro c hc
  cases op with
  | answer optionIndex =>
    unfold SessionOp.apply at hc
    simp only at hc
    split at hc
    next hm =>
      split at hc
      next question hq =>
        split at hc
        next option ho =>
          rw [commit_pendingNext] at hc
          unfold handleSelectAnswer at hc
          split at hc
          · exact Or.inl hc
          · simp only [handleAnswer_pendingNext, List.mem_append, List.mem_singleton] at hc
            rcases hc with hc | hc
            · exact Or.inl hc
            · right
              rw [hc]
              intro hnil
              have hlen : 0 < st.questions.length := hm.2
              rw [show st.captured.questions = st.questions from rfl] at hnil
              rw [hnil] at hlen
              exact absurd hlen (by decide)
        next => exact Or.inl hc
      next => exact Or.inl hc
    next => exact Or.inl hc
  | skip =>
    left
    unfold SessionOp.apply at hc
    simp only at hc
    split at hc
    · split at hc
      · rw [commit_pendingNext] at hc
        unfold handleSkip handleSkipQuestion at hc
        split at hc
        · exact hc
        · split at hc <;> exact hc
      · exact hc
    · exact hc
  | next now =>
    left
    unfold SessionOp.apply at hc
    simp only at hc
    split at hc
    · exact hc
    next c0 rest hp =>
      rw [commit_pendingNext, handleNextQuestion_pendingNext] at hc
      rw [hp]
      exact List.mem_cons_of_mem _ hc

theorem appEvent_pendingNext (subjects : List Subject) (ev : AppEvent) (st : AppState) :
    ∀ c ∈ (ev.apply subjects st).pendingNext, c ∈ st.pendingNext ∨ c.questions ≠ [] := by
  intro c hc
  cases ev with
  | session op => exact sessionOp_pendingNext op st c hc
  | selectSubject subjectId =>
    left
    unfold AppEvent.apply at hc
    simp only at hc
    split at hc
    · unfold handleSelectSubject at hc
      simpa using hc
    · exact hc
  | backToSubjects =>
    left
    unfold AppEvent.apply at hc
    simp only at hc
    split at hc
    · unfold handleBackToSubjects at hc
      simpa using hc
    · exact hc
  | startQuiz variant random now =>
    left
    unfold AppEvent.apply at hc
    simp only at hc
    split at hc
    · rw [handleStartQuiz_pendingNext] at hc
      exact hc
    · exact hc
  | startErrorReview random now =>
    left
    unfold AppEvent.apply at hc
    simp only at hc
    split at hc
    · exact hc
    · split at hc
      · rw [handleStartErrorReview_pendingNext] at hc
        exact hc
      · exact hc
  | resetStats =>
    left
    unfold AppEvent.apply at hc
    simp only at hc
    split at hc
    · unfold handleResetStats at hc
      split at hc
      · exact hc
      · simpa using hc
    · exact hc
  | exit =>
    left
    unfold AppEvent.apply at hc
    simp only at hc
    split at hc
    · unfold handleMenu at hc
      simpa using hc
    · exact hc
  | restart random now =>
    left
    unfold AppEvent.apply at hc
    simp only at hc
    split at hc
    · unfold handleRestart at hc
      split at hc
      · rw [handleStartErrorReview_pendingNext] at hc
        exact hc
      · rw [handleStartQuiz_pendingNext] at hc
        exact hc
    · exact hc
  | menu =>
    left
    unfold AppEvent.apply at hc
    simp only at hc
    split at hc
    · unfold handleMenu at hc
      simpa using hc
    · exact hc

theorem runApp_pendingNext (subjects : List Subject) (evs : List AppEvent) (st : AppState)
    (h : ∀ c ∈ st.pendingNext, c.questions ≠ []) :
    ∀ c ∈ (runApp subjects st evs).pendingNext, c.questions ≠ [] := by
  induction evs generalizing st with
  | nil => exact h
  | cons ev evs ih =>
    apply ih (ev.apply subjects st)
    intro c hc
    rcases appEvent_pendingNext subjects ev st c hc with hold | hnew
    · exact h c hold
    · exact hnew

/-- In a state with zero questions and no pending timer every sequence of
answer, skip and next operations leaves the state as it is. -/
theorem empty_session_unchanged (st : AppState) (hq : st.questions = [])
    (hp : st.pendingNext = []) (ops : List SessionOp) : runSession st ops = st := by
  have hstep : ∀ op : SessionOp, op.apply st = st := by
    intro op
    have hlen : ¬ (st.screen = Screen.quiz ∧ 0 < st.questions.length) := by
      rw [hq]
      simp
    cases op with
    | answer optionIndex =>
      unfold SessionOp.apply
      simp only
      rw [if_neg hlen]
    | skip =>
      unfold SessionOp.apply
      simp only
      rw [if_neg hlen]
    | next now =>
      unfold SessionOp.apply
      simp only [hp]
  induction ops with
  | nil => rfl
  | cons op ops ih =>
    unfold runSession at ih ⊢
    rw [List.foldl_cons, hstep op]
    exact ih

/-! ## Claims on a session without questions -/

/-- C21: in every state that the application reaches from a state without
timers by any sequence of its events, every pending timer holds the closure of
a render with at least one question, so that the `next` of a session with zero
questions is never issued; and when the session that is reached has zero
questions, every answer and every skip leaves the state as it is, and so does
every sequence of answer, skip and next operations unless a timer of an
earlier session is still pending: no finalization, and the index, the
completion records, the statistics, the log and the screen are unchanged. -/
theorem next_on_empty_session (subjects : List Subject) (st0 : AppState)
    (h0 : st0.pendingNext = []) (evs : List AppEvent) :
    (∀ c ∈ (runApp subjects st0 evs).pendingNext, c.questions ≠ []) ∧
    ((runApp subjects st0 evs).questions = [] →
      (∀ optionIndex, (SessionOp.answer optionIndex).apply (runApp subjects st0 evs) =
        runApp subjects st0 evs) ∧
      SessionOp.skip.apply (runApp subjects st0 evs) = runApp subjects st0 evs ∧
      ((runApp subjects st0 evs).pendingNext = [] → ∀ ops,
        runSession (runApp subjects st0 evs) ops = runApp subjects st0 evs)) := by
  refine ⟨runApp_pendingNext subjects evs st0 (by rw [h0]; simp), ?_⟩
  intro hq
  have hlen : ¬ ((runApp subjects st0 evs).screen = Screen.quiz ∧
      0 < (runApp subjects st0 evs).questions.length) := by
    rw [hq]
    simp
  refine ⟨?_, ?_, fun hp ops => empty_session_unchanged _ hq hp ops⟩
  · intro optionIndex
    unfold SessionOp.apply
    simp only
    rw [if_neg hlen]
  · unfold SessionOp.apply
    simp only
    rw [if_neg hlen]

set_option maxRecDepth 1000000 in
/-- Witness of C21: the marathon over the subject without questions, started
from its welcome screen. -/
theorem next_on_empty_session_witness :
    (runApp [emptySubject] { sampleWelcome with selectedSubject := some emptySubject }
      [AppEvent.startQuiz VariantSel.marathon zeroRandom 1000]).screen = Screen.quiz ∧
    (runApp [emptySubject] { sampleWelcome with selectedSubject := some emptySubject }
      [AppEvent.startQuiz VariantSel.marathon zeroRandom 1000]).questions = [] ∧
    runSession
      (runApp [emptySubject] { sampleWelcome with selectedSubject := some emptySubject }
        [AppEvent.startQuiz VariantSel.marathon zeroRandom 1000])
      [SessionOp.answer 0, SessionOp.skip, SessionOp.next 2000] =
      runApp [emptySubject] { sampleWelcome with selectedSubject := some emptySubject }
        [AppEvent.startQuiz VariantSel.marathon zeroRandom 1000] :=
  ⟨by decide, by decide,
    ((next_on_empty_session [emptySubject]
      { sampleWelcome with selectedSubject := some emptySubject } rfl
      [AppEvent.startQuiz VariantSel.marathon zeroRandom 1000]).2 (by decide)).2.2
        (by decide) _⟩

/-! ## Claims on the reset of a subject -/

theorem getStorageKey_ne (subjectId type1 type2 : String) (h : type1 ≠ type2) :
    getStorageKey subjectId type1 ≠ getStorageKey subjectId type2 := by
  intro he
  apply h
  unfold getStorageKey at he
  have hd := congrArg String.data he
  simp only [String.data_append, List.append_cancel_left_eq] at hd
  exact String.ext hd

theorem saveToStorage_storage (key : String) (data : Stored) (st : AppState) :
    (saveToStorage key data st).storage =
      if st.storageWritable = true then Obj.set st.storage key data else st.storage := by
  unfold saveToStorage
  split <;> rfl

/-- C22: `handleResetStats` with the selected subject `S` sets the completion
records of `S` to the empty map, its statistics to four zeros and its log to
the empty list; when the store accepts writes it holds these three values
under the three keys of `S` afterwards (a failing write is caught, and the
store is then left as it is); and the records, statistics and logs of every
other subject are unchanged. -/
theorem handleResetStats_resets (st : AppState) (subject : Subject)
    (hs : st.selectedSubject = some subject) :
    Obj.get (handleResetStats st).completedVariants subject.id = some [] ∧
    Obj.get (handleResetStats st).globalStats subject.id = some ⟨0, 0, 0, 0⟩ ∧
    Obj.get (handleResetStats st).wrongAnswers subject.id = some [] ∧
    (st.storageWritable = true →
      Obj.get (handleResetStats st).storage (getStorageKey subject.id "variants") =
        some (Stored.variants []) ∧
      Obj.get (handleResetStats st).storage (getStorageKey subject.id "stats") =
        some (Stored.stats ⟨0, 0, 0, 0⟩) ∧
      Obj.get (handleResetStats st).storage (getStorageKey subject.id "wrong") =
        some (Stored.wrong [])) ∧
    (st.storageWritable = false → (handleResetStats st).storage = st.storage) ∧
    (∀ sid, sid ≠ subject.id →
      Obj.get (handleResetStats st).completedVariants sid = Obj.get st.completedVariants sid ∧
      Obj.get (handleResetStats st).globalStats sid = Obj.get st.globalStats sid ∧
      Obj.get (handleResetStats st).wrongAnswers sid = Obj.get st.wrongAnswers sid) := by
  have k1 := getStorageKey_ne subject.id "variants" "stats" (by decide)
  have k2 := getStorageKey_ne subject.id "variants" "wrong" (by decide)
  have k3 := getStorageKey_ne subject.id "stats" "wrong" (by decide)
  have heq : handleResetStats st =
      (let s1 := saveToStorage (getStorageKey subject.id "variants") (Stored.variants [])
        { st with completedVariants := Obj.set st.completedVariants subject.id [] }
       let s2 := saveToStorage (getStorageKey subject.id "stats") (Stored.stats SubjectStats.zero)
        { s1 with globalStats := Obj.set s1.globalStats subject.id SubjectStats.zero }
       saveToStorage (getStorageKey subject.id "wrong") (Stored.wrong [])
        { s2 with wrongAnswers := Obj.set s2.wrongAnswers subject.id [] }) := by
    unfold handleResetStats
    split
    next hnone =>
      rw [hs] at hnone
      cases hnone
    next selected hsome =>
      rw [hs] at hsome
      cases hsome
      rfl
  rw [heq]
  simp only []
  refine ⟨?_, ?_, ?_, ?_, ?_, ?_⟩
  · simp only [saveToStorage_completedVariants, Obj.get_set_self]
  · simp only [saveToStorage_globalStats, Obj.get_set_self, SubjectStats.zero]
  · simp only [saveToStorage_wrongAnswers, Obj.get_set_self]
  · intro hw
    simp only [saveToStorage_storage, saveToStorage_storageWritable, hw, if_true,
      SubjectStats.zero]
    refine ⟨?_, ?_, ?_⟩
    · rw [Obj.get_set_ne _ _ _ _ k2, Obj.get_set_ne _ _ _ _ k1, Obj.get_set_self]
    · rw [Obj.get_set_ne _ _ _ _ k3, Obj.get_set_self]
    · rw [Obj.get_set_self]
  · intro hw
    simp only [saveToStorage_storage, saveToStorage_storageWritable, hw,
      Bool.false_eq_true, if_false]
  · intro sid hsid
    simp only [saveToStorage_completedVariants, saveToStorage_globalStats,
      saveToStorage_wrongAnswers]
    exact ⟨Obj.get_set_ne _ _ _ _ hsid, Obj.get_set_ne _ _ _ _ hsid,
      Obj.get_set_ne _ _ _ _ hsid⟩

set_option maxRecDepth 100000 in
/-- Witness of C22: the reset of the sample subject after the failed sample
session, on whose welcome screen both questions are in the log. -/
theorem handleResetStats_resets_witness :
    sampleReviewMenu.selectedSubject = some sampleSubject ∧
    sampleReviewMenu.wrongLogOf "s" ≠ [] ∧
    Obj.get (handleResetStats sampleReviewMenu).wrongAnswers sampleSubject.id = some [] ∧
    Obj.get (handleResetStats sampleReviewMenu).globalStats sampleSubject.id =
      some ⟨0, 0, 0, 0⟩ :=
  ⟨by decide, by decide,
    (handleResetStats_resets sampleReviewMenu sampleSubject (by decide)).2.2.1,
    (handleResetStats_resets sampleReviewMenu sampleSubject (by decide)).2.1⟩

/-! ## Claims on the timers of an abandoned session -/

set_option maxRecDepth 1000000 in
/-- C23 fails on the code: the timer that `handleSelectAnswer` sets is never
cleared. In the sample session the last question is answered and the user
leaves for the menu; at that moment nothing is counted for the subject. When
the timer of that answer fires, `handleNextQuestion` finalizes the abandoned
session: an attempt is counted, a completion record and the log are written
and the screen becomes the result screen. A timer of an earlier question that
fires after the exit increments the index. -/
theorem stale_timer_changes_state_after_exit :
    sampleAbandoned.screen = Screen.welcome ∧
    sampleAbandoned.statsOf "s" = ⟨0, 0, 0, 0⟩ ∧
    sampleAbandoned.recordOf "s" "variant_1" = none ∧
    sampleAbandoned.wrongLogOf "s" = [] ∧
    ((SessionOp.next 3000).apply sampleAbandoned).screen = Screen.result ∧
    ((SessionOp.next 3000).apply sampleAbandoned).statsOf "s" = ⟨1, 2, 1, 2000⟩ ∧
    ((SessionOp.next 3000).apply sampleAbandoned).recordOf "s" "variant_1" =
      some ⟨1, 2, JsNumber.finite 50, 3000⟩ ∧
    ((SessionOp.next 3000).apply sampleAbandoned).wrongLogOf "s" = ["q0"] ∧
    sampleAbandonedEarly.screen = Screen.welcome ∧
    sampleAbandonedEarly.currentIndex = 0 ∧
    ((SessionOp.next 3000).apply sampleAbandonedEarly).currentIndex = 1 := by
  decide

/-! ## Claims on reading the store -/

/-- C24, as stated, fails: `loadFromStorage` does not look at the shape of the
parsed value. The stored string `null` is well-formed JSON but not the
encoding of statistics, and it is returned as `null` in place of the default
statistics. -/
theorem loadFromStorage_wrong_shape :
    loadFromStorage (fun _ => StorageRead.value "null") parseLiteral
      (getStorageKey "s" "stats") zeroStatsJson = JsValue.null ∧
    JsValue.null.isStats = false ∧ zeroStatsJson.isStats = true ∧
    JsValue.null ≠ zeroStatsJson := by
  refine ⟨by simp [loadFromStorage, parseLiteral], rfl, by decide, ?_⟩
  intro h
  cases h

/-- C24, amended: for every store, key and default, `loadFromStorage` returns
a value (it never fails); it returns the default when the read throws, when
the key is missing, when the stored string is empty and when the stored string
is not well-formed JSON; and for every other stored string it returns the
parsed value, whatever its shape. -/
theorem loadFromStorage_cases (getItem : String → StorageRead)
    (parse : String → Option JsValue) (key : String) (defaultValue : JsValue) :
    (getItem key = StorageRead.throws →
      loadFromStorage getItem parse key defaultValue = defaultValue) ∧
    (getItem key = StorageRead.missing →
      loadFromStorage getItem parse key defaultValue = defaultValue) ∧
    (getItem key = StorageRead.value "" →
      loadFromStorage getItem parse key defaultValue = defaultValue) ∧
    (∀ saved, getItem key = StorageRead.value saved → parse saved = none →
      loadFromStorage getItem parse key defaultValue = defaultValue) ∧
    (∀ saved parsed, getItem key = StorageRead.value saved → saved ≠ "" →
      parse saved = some parsed →
      loadFromStorage getItem parse key defaultValue = parsed) := by
  unfold loadFromStorage
  refine ⟨?_, ?_, ?_, ?_, ?_⟩
  · intro h
    rw [h]
  · intro h
    rw [h]
  · intro h
    rw [h]
    simp
  · intro saved h hp
    rw [h]
    simp only [hp]
    split <;> rfl
  · intro saved parsed h hne hp
    rw [h]
    simp only [hp, if_neg hne]

/-- Witness of the amended C24: a store that holds the text `true` under
every key. -/
theorem loadFromStorage_cases_witness :
    loadFromStorage (fun _ => StorageRead.value "true") parseLiteral "quiz_s_wrong"
      (JsValue.array []) = JsValue.boolean true :=
  (loadFromStorage_cases (fun _ => StorageRead.value "true") parseLiteral "quiz_s_wrong"
    (JsValue.array [])).2.2.2.2 "true" (JsValue.boolean true) rfl (by decide)
    (by simp [parseLiteral])

/-! ## Lemmas on the string hash -/

theorem toInt32_range (x : Int) : -2147483648 ≤ toInt32 x ∧ toInt32 x < 2147483648 := by
  unfold toInt32
  omega

theorem stringToSeed_step_eq (hash : Int) (char : Nat) :
    stringToSeed.step hash char = toInt32 (31 * hash + (char : Int)) := by
  unfold stringToSeed.step toInt32
  omega

theorem toInt32_horner (s : Int) (c : Nat) :
    toInt32 (31 * toInt32 s + (c : Int)) = toInt32 (31 * s + (c : Int)) := by
  unfold toInt32
  omega

theorem polynomialSum_append (l : List Nat) (c : Nat) :
    polynomialSum (l ++ [c]) = 31 * polynomialSum l + (c : Int) := by
  unfold polynomialSum
  rw [List.length_append, List.length_singleton, List.range_succ, List.map_append,
    List.sum_append, ← List.sum_map_mul_left]
  congr 1
  · congr 1
    apply List.map_congr_left
    intro i hi
    have hi2 : i < l.length := List.mem_range.1 hi
    rw [List.getD_append _ _ _ _ hi2, show l.length + 1 - 1 - i = (l.length - 1 - i) + 1 by omega,
      pow_succ]
    ring
  · simp [List.getD_eq_getElem?_getD]

theorem foldl_step_eq_polynomialSum (codes : List Nat) :
    codes.foldl stringToSeed.step 0 = toInt32 (polynomialSum codes) := by
  induction codes using List.reverseRecOn with
  | nil => rfl
  | append_singleton l c ih =>
    rw [List.foldl_append, List.foldl_cons, List.foldl_nil, ih, stringToSeed_step_eq,
      toInt32_horner, polynomialSum_append]

/-! ## Claims on the string hash -/

/-- C26: for every string, `stringToSeed` is the absolute value of the signed
32-bit wrap of the sum of `c_i * 31^(n-1-i)` over its UTF-16 code units
`c_0, ..., c_(n-1)`; the result is at most `2^31` (and non-negative, being a
natural number), and the empty string hashes to 0. -/
theorem stringToSeed_polynomial :
    (∀ s : String, stringToSeed s = (toInt32 (polynomialSum (charCodes s))).natAbs) ∧
    (∀ s : String, stringToSeed s ≤ 2 ^ 31) ∧
    (∀ codes : List Nat,
      stringToSeed.ofCodes codes = (toInt32 (polynomialSum codes)).natAbs) ∧
    stringToSeed "" = 0 := by
  have h1 : ∀ codes : List Nat,
      stringToSeed.ofCodes codes = (toInt32 (polynomialSum codes)).natAbs := by
    intro codes
    unfold stringToSeed.ofCodes
    rw [foldl_step_eq_polynomialSum]
  refine ⟨fun s => h1 _, ?_, h1, by decide⟩
  intro s
  unfold stringToSeed
  rw [h1]
  have := toInt32_range (polynomialSum (charCodes s))
  omega

/-! ## Lemmas on the seeded random source -/

theorem doubleOfInt_exact (x : Int) (h : x.natAbs < 2 ^ 53) : doubleOfInt x = x := by
  unfold doubleOfInt
  rw [if_pos h]

theorem toUint32_toInt32_sub_add (y : Int) :
    toUint32 (toInt32 y) = (toUint32 (y - 0x6D2B79F5) + 0x6D2B79F5) % 2 ^ 32 := by
  unfold toUint32 toInt32
  omega

/-- One call of the closure: the numerator and the next word are those of the
step on 32-bit words from the word of `doubleOfInt (state + 0x6D2B79F5)` less
the increment, and the next state is a signed 32-bit integer. -/
theorem mulberry32_eq_word (state : Int) :
    (mulberry32 state).1 =
      (mulberry32Word (toUint32 (doubleOfInt (state + 0x6D2B79F5) - 0x6D2B79F5))).1 ∧
    toUint32 (mulberry32 state).2 =
      (mulberry32Word (toUint32 (doubleOfInt (state + 0x6D2B79F5) - 0x6D2B79F5))).2 ∧
    ((mulberry32 state).2 + 0x6D2B79F5).natAbs < 2 ^ 53 := by
  have hs := toUint32_toInt32_sub_add (doubleOfInt (state + 0x6D2B79F5))
  have hr := toInt32_range (doubleOfInt (state + 0x6D2B79F5))
  unfold mulberry32 mulberry32Word imul
  simp only
  rw [hs]
  refine ⟨rfl, rfl, ?_⟩
  omega

theorem effective_seed_exact (state : Int) (h : (state + 0x6D2B79F5).natAbs < 2 ^ 53) :
    doubleOfInt (state + 0x6D2B79F5) - 0x6D2B79F5 = state := by
  rw [doubleOfInt_exact _ h]
  omega

theorem createSeededRandom_state_word (seed : Int) (n : Nat) :
    toUint32 (createSeededRandom.state seed (n + 1)) =
      mulberry32Word.state (toUint32 (doubleOfInt (seed + 0x6D2B79F5) - 0x6D2B79F5)) (n + 1) ∧
    (createSeededRandom.state seed (n + 1) + 0x6D2B79F5).natAbs < 2 ^ 53 := by
  induction n with
  | zero =>
    obtain ⟨_, h2, h3⟩ := mulberry32_eq_word seed
    exact ⟨h2, h3⟩
  | succ n ih =>
    obtain ⟨ih1, ih2⟩ := ih
    obtain ⟨_, h2, h3⟩ := mulberry32_eq_word (createSeededRandom.state seed (n + 1))
    refine ⟨?_, h3⟩
    show toUint32 (mulberry32 (createSeededRandom.state seed (n + 1))).2 =
      (mulberry32Word (mulberry32Word.state
        (toUint32 (doubleOfInt (seed + 0x6D2B79F5) - 0x6D2B79F5)) (n + 1))).2
    rw [h2, effective_seed_exact _ ih2, ih1]

theorem createSeededRandom_eq_word (seed : Int) (n : Nat) :
    createSeededRandom seed n =
      ⟨mulberry32Word.value (toUint32 (doubleOfInt (seed + 0x6D2B79F5) - 0x6D2B79F5)) n,
        2 ^ 32⟩ := by
  cases n with
  | zero =>
    obtain ⟨h1, _⟩ := mulberry32_eq_word seed
    unfold createSeededRandom mulberry32Word.value
    simp only [createSeededRandom.state, mulberry32Word.state]
    rw [h1]
    rfl
  | succ n =>
    obtain ⟨h1, h2⟩ := createSeededRandom_state_word seed n
    obtain ⟨h3, _⟩ := mulberry32_eq_word (createSeededRandom.state seed (n + 1))
    unfold createSeededRandom mulberry32Word.value
    rw [h3, effective_seed_exact _ h2, h1]
    rfl

theorem mulberry32Word_value_lt (word n : Nat) : mulberry32Word.value word n < 2 ^ 32 := by
  unfold mulberry32Word.value mulberry32Word
  exact Nat.mod_lt _ (by norm_num)

/-! ## Claims on the seeded random source -/

/-- C25, as stated, fails: the seeds `0` and `2^54` are equal modulo `2^32`,
but the sum `2^54 + 0x6D2B79F5` is not a double and is rounded to
`2^54 + 0x6D2B79F4` before it is wrapped, so that the first values of the two
sources differ. -/
theorem createSeededRandom_large_seed :
    (18014398509481984 : Int) % 2 ^ 32 = 0 % 2 ^ 32 ∧
    createSeededRandom 0 0 = ⟨1144304738, 4294967296⟩ ∧
    createSeededRandom 18014398509481984 0 = ⟨3850105811, 4294967296⟩ ∧
    createSeededRandom 18014398509481984 0 ≠ createSeededRandom 0 0 := by
  decide

/-- C25, amended: for every integer seed and every `n`, the `(n+1)`-th value
of `createSeededRandom seed` is `k / 2^32` for the numerator `k < 2^32` that
the mulberry32 steps on 32-bit words produce from the word of the seed as the
first double-precision sum sees it (the double nearest to
`seed + 0x6D2B79F5`, less `0x6D2B79F5`, modulo `2^32`), so that every value
lies in `[0, 1)`; when the magnitude of `seed + 0x6D2B79F5` is below `2^53`
that word is `seed mod 2^32`, and two such seeds that are equal modulo `2^32`
produce the same sequence. -/
theorem createSeededRandom_values (seed : Int) (n : Nat) :
    createSeededRandom seed n =
      ⟨mulberry32Word.value (toUint32 (doubleOfInt (seed + 0x6D2B79F5) - 0x6D2B79F5)) n,
        2 ^ 32⟩ ∧
    (createSeededRandom seed n).den = 2 ^ 32 ∧
    (createSeededRandom seed n).num < 2 ^ 32 ∧
    ((seed + 0x6D2B79F5).natAbs < 2 ^ 53 →
      createSeededRandom seed n = ⟨mulberry32Word.value (toUint32 seed) n, 2 ^ 32⟩ ∧
      ∀ seed2 : Int, (seed2 + 0x6D2B79F5).natAbs < 2 ^ 53 → seed2 % 2 ^ 32 = seed % 2 ^ 32 →
        createSeededRandom seed2 n = createSeededRandom seed n) := by
  have h1 := createSeededRandom_eq_word seed n
  refine ⟨h1, ?_, ?_, ?_⟩
  · rw [h1]
  · rw [h1]
    exact mulberry32Word_value_lt _ _
  · intro h
    have h2 : createSeededRandom seed n = ⟨mulberry32Word.value (toUint32 seed) n, 2 ^ 32⟩ := by
      rw [h1, effective_seed_exact _ h]
    refine ⟨h2, ?_⟩
    intro seed2 hs2 hmod
    rw [h2, createSeededRandom_eq_word seed2 n, effective_seed_exact _ hs2]
    have : toUint32 seed2 = toUint32 seed := by
      unfold toUint32
      have e : (4294967296 : Int) = 2 ^ 32 := by norm_num
      rw [e, hmod]
    rw [this]

set_option maxRecDepth 100000 in
/-- Witness of the amended C25 at the seed 5, and at the seed `2^54`, whose
first value is that of the word `0xFFFFFFFF`. -/
theorem createSeededRandom_values_witness :
    ((5 : Int) + 0x6D2B79F5).natAbs < 2 ^ 53 ∧
    createSeededRandom 5 1 = ⟨mulberry32Word.value (toUint32 5) 1, 2 ^ 32⟩ ∧
    (createSeededRandom 18014398509481984 0).num < 2 ^ 32 ∧
    toUint32 (doubleOfInt (18014398509481984 + 0x6D2B79F5) - 0x6D2B79F5) = 4294967295 :=
  ⟨by decide, ((createSeededRandom_values 5 1).2.2.2 (by decide)).1,
    (createSeededRandom_values 18014398509481984 0).2.2.1, by decide⟩

/-! ## Claims on the invariant of a question -/

theorem countP_letter_eq_count (l : List AnswerOption) (a : String) :
    l.countP (fun o => o.letter == some a) =
      @List.count (Option String) instBEqOfDecidableEq (some a) (l.map fun o => o.letter) := by
  induction l with
  | nil => rfl
  | cons x xs ih => simp [List.countP_cons, List.count_cons, ih]

/-- C27: for every question with at most five options of which exactly one
carries the letter `correctAnswer`, and for every random source (so for every
permutation that the shuffle chooses, equal option texts included), exactly
one option of the result of `shuffleOptions` carries the letter that is its
`correctAnswer`. -/
theorem shuffleOptions_preserves_invariant (random : Nat → RandomValue) (q : Question)
    (hlen : q.options.length ≤ 5) (h1 : q.correctCount = 1) :
    (shuffleOptions random q).correctCount = 1 := by
  have hpos : 0 < q.options.countP (fun o => o.letter == some q.correctAnswer) := by
    unfold Question.correctCount at h1
    omega
  obtain ⟨a, ha, hpa⟩ := List.countP_pos_iff.1 hpos
  rcases hc : q.options.find? (fun o => o.letter == some q.correctAnswer) with _ | c
  · rw [List.find?_eq_none] at hc
    exact absurd hpa (hc a ha)
  · obtain ⟨o, i, hi, _, _, holetter⟩ := shuffleOptions_found random q c hlen hc
    have hopts : (shuffleOptions random q).options = relabel (shuffleArray random q.options) := by
      rw [shuffleOptions_matched random q c hc]
    have hl : (relabel (shuffleArray random q.options)).map (fun o => o.letter) =
        (letters.take (shuffleArray random q.options).length).map some :=
      relabel_map_letter _ (by rw [shuffleArray_length]; exact hlen)
    have hnd : ((relabel (shuffleArray random q.options)).map fun o => o.letter).Nodup := by
      rw [hl]
      exact (letters_nodup.sublist (List.take_sublist _ _)).map (Option.some_injective _)
    have hmem : some (shuffleOptions random q).correctAnswer ∈
        (relabel (shuffleArray random q.options)).map fun o => o.letter :=
      List.mem_map.2 ⟨o, List.mem_iff_getElem?.2 ⟨i, hi⟩, holetter⟩
    have hcount := List.count_eq_one_of_mem hnd hmem
    unfold Question.correctCount
    rw [hopts]
    rw [countP_letter_eq_count]
    exact hcount

set_option maxRecDepth 100000 in
/-- Witness of C27 at the sample question, whose two options change places. -/
theorem shuffleOptions_preserves_invariant_witness :
    (sampleQuestion 0).options.length ≤ 5 ∧ (sampleQuestion 0).correctCount = 1 ∧
    (shuffleOptions zeroRandom (sampleQuestion 0)).correctCount = 1 :=
  ⟨by decide, by decide,
    shuffleOptions_preserves_invariant zeroRandom (sampleQuestion 0) (by decide) (by decide)⟩

/-! ## Claims on the start of a quiz -/

/-- C28: for every selected subject with its variant set, every variant
selector and every random source, the session that `handleStartQuiz` creates
has a question list whose texts are a permutation of the texts of the selected
pool (all questions of the subject for the marathon, `questionsByVariant` at
the number for a numbered variant), with the same length, and it starts on the
quiz screen with score 0, index 0, an empty session wrong set, no end time and
the error review mode off. -/
theorem handleStartQuiz_session (subjects : List Subject) (random : Nat → RandomValue)
    (now : Int) (variant : VariantSel) (st : AppState) (subject : Subject)
    (data : VariantSet) (hs : st.selectedSubject = some subject)
    (hd : Obj.get (subjectVariants subjects) subject.id = some data) :
    ((handleStartQuiz subjects random now (some variant) st).questions.map
      fun q => q.question).Perm
      ((match variant with
        | VariantSel.marathon => subject.data
        | VariantSel.number v => (List.lookup v data.questionsByVariant).getD []
        | VariantSel.errors => []).map fun q : Question => q.question) ∧
    (handleStartQuiz subjects random now (some variant) st).questions.length =
      (match variant with
        | VariantSel.marathon => subject.data
        | VariantSel.number v => (List.lookup v data.questionsByVariant).getD []
        | VariantSel.errors => []).length ∧
    (handleStartQuiz subjects random now (some variant) st).score = 0 ∧
    (handleStartQuiz subjects random now (some variant) st).currentIndex = 0 ∧
    (handleStartQuiz subjects random now (some variant) st).wrongAnswersThisSession = [] ∧
    (handleStartQuiz subjects random now (some variant) st).endTime = none ∧
    (handleStartQuiz subjects random now (some variant) st).isErrorReviewMode = false ∧
    (handleStartQuiz subjects random now (some variant) st).screen = Screen.quiz ∧
    (handleStartQuiz subjects random now (some variant) st).selectedVariant = some variant := by
  have hperm : ∀ source : List Question,
      ((mapShuffleOptions random (source.length - 1) (shuffleArray random source)).map
        fun q => q.question).Perm (source.map fun q => q.question) ∧
      (mapShuffleOptions random (source.length - 1) (shuffleArray random source)).length =
        source.length := by
    intro source
    rw [mapShuffleOptions_map_question, mapShuffleOptions_length, shuffleArray_length]
    exact ⟨(shuffleArray_perm random source).map _, rfl⟩
  unfold handleStartQuiz
  simp only [hs, hd]
  cases variant with
  | marathon =>
    simp only [if_true, commit_questions, commit_score, commit_currentIndex,
      commit_wrongAnswersThisSession, commit_endTime, commit_isErrorReviewMode, commit_screen,
      commit_selectedVariant]
    exact ⟨(hperm _).1, (hperm _).2, by simp⟩
  | errors =>
    simp only [commit_questions, commit_score, commit_currentIndex,
      commit_wrongAnswersThisSession, commit_endTime, commit_isErrorReviewMode, commit_screen,
      commit_selectedVariant]
    exact ⟨(hperm _).1, (hperm _).2, by simp⟩
  | number v =>
    simp only [commit_questions, commit_score, commit_currentIndex,
      commit_wrongAnswersThisSession, commit_endTime, commit_isErrorReviewMode, commit_screen,
      commit_selectedVariant]
    exact ⟨(hperm _).1, (hperm _).2, by simp⟩

set_option maxRecDepth 100000 in
/-- Witness of C28: variant 1 of the sample subject, started from its welcome
screen; the two questions come out in exchanged order. -/
theorem handleStartQuiz_session_witness :
    sampleWelcome.selectedSubject = some sampleSubject ∧
    Obj.get (subjectVariants [sampleSubject]) sampleSubject.id =
      some (variantSetOf sampleSubject) ∧
    sampleSession.questions.length = 2 ∧
    sampleSession.score = 0 :=
  ⟨rfl, by decide,
    (handleStartQuiz_session [sampleSubject] zeroRandom 1000 (VariantSel.number 1)
      sampleWelcome sampleSubject (variantSetOf sampleSubject) rfl (by decide)).2.1.trans
        (by decide),
    (handleStartQuiz_session [sampleSubject] zeroRandom 1000 (VariantSel.number 1)
      sampleWelcome sampleSubject (variantSetOf sampleSubject) rfl (by decide)).2.2.1⟩

/-! ## Lemmas on the score of a session -/

theorem handleAnswer_score_wrong (isCorrect : Bool) (text : String) (st : AppState) :
    (handleAnswer isCorrect text st).score +
        ((handleAnswer isCorrect text st).wrongAnswersThisSession.length : Int) =
      st.score + (st.wrongAnswersThisSession.length : Int) + 1 := by
  cases isCorrect
  · rw [handleAnswer_wrong]
    simp only [List.length_append, List.length_singleton]
    push_cast
    ring
  · rw [handleAnswer_correct_wrongAnswersThisSession]
    have hscore : (handleAnswer true text st).score = st.score + 1 := by
      unfold handleAnswer
      simp only [if_true]
      split <;> simp
    rw [hscore]
    ring

theorem handleNextQuestion_final_score (c : Captured) (now : Int) (st : AppState)
    (subject : Subject) (h : ¬ c.currentIndex + 1 < c.questions.length)
    (hs : c.selectedSubject = some subject) :
    (handleNextQuestion c now st).score = st.score := by
  unfold handleNextQuestion
  rw [if_neg h]
  simp only [hs]
  split_ifs <;> simp

theorem ScoreInv_apply (n : Nat) (subject : Subject) (st : AppState) (op : SessionOp)
    (h : SessionInv n subject st) (hc : ScoreInv n st) : ScoreInv n (op.apply st) := by
  obtain ⟨c1, c2, c3⟩ := hc
  cases op with
  | answer optionIndex =>
    rcases answer_apply_cases n subject st optionIndex h with hsame | ⟨q, o, hq, _, _, ha, _, hap⟩
    · rw [hsame]
      exact ⟨c1, c2, c3⟩
    · rw [hap]
      have h0 := c2 hq
      unfold AppState.answered at h0
      rw [ha] at h0
      simp only [Option.isSome_none, Bool.false_eq_true, if_false, Nat.add_zero] at h0
      have hl := handleAnswer_score_wrong (o.letter == some q.correctAnswer)
        q.question { st with selectedAnswer := some o.letter,
                             answerState := some (o.letter == some q.correctAnswer) }
      refine ⟨?_, ?_, ?_⟩
      · simpa using c1
      · intro _
        unfold AppState.answered
        simp only [handleAnswer_currentIndex, handleAnswer_answerState, Option.isSome_some,
          if_true]
        rw [hl]
        push_cast
        simpa using h0
      · intro hres
        simp only [handleAnswer_screen] at hres
        rw [hq] at hres
        cases hres
  | skip =>
    rcases skip_apply_cases n subject st h with hsame | ⟨q, hq, _, ha, _, hap⟩
    · rw [hsame]
      exact ⟨c1, c2, c3⟩
    · rw [hap]
      have h0 := c2 hq
      unfold AppState.answered at h0
      rw [ha] at h0
      simp only [Option.isSome_none, Bool.false_eq_true, if_false, Nat.add_zero] at h0
      have hans : (commit st { st with
          questions := st.questions.eraseIdx st.currentIndex ++ [q] }).answerState = none := by
        rcases commit_answerState st { st with
          questions := st.questions.eraseIdx st.currentIndex ++ [q] } with e | e
        · rw [e]
          exact ha
        · exact e
      refine ⟨?_, ?_, ?_⟩
      · simpa using c1
      · intro _
        unfold AppState.answered
        rw [hans]
        simpa using h0
      · intro hres
        simp only [commit_screen] at hres
        rw [hq] at hres
        cases hres
  | next now =>
    rcases next_apply_cases n subject st now h with ⟨_, hsame⟩ | ⟨_, hsome, hq, hadv, hap⟩ |
      ⟨_, hsome, hq, hadv, hap⟩
    · rw [hsame]
      exact ⟨c1, c2, c3⟩
    · rw [hap]
      have h0 := c2 hq
      unfold AppState.answered at h0
      rw [if_pos hsome] at h0
      have hpos : 0 < st.questions.length := by omega
      have hans := commit_answerState_of_index_ne st
        { st with pendingNext := [], currentIndex := st.currentIndex + 1 } hq hpos (by simp)
      refine ⟨?_, ?_, ?_⟩
      · simp only [commit_currentIndex]
        rw [← h.1]
        exact hadv
      · intro _
        unfold AppState.answered
        rw [hans]
        simp only [commit_score, commit_wrongAnswersThisSession, commit_currentIndex]
        simpa using h0
      · intro hres
        simp only [commit_screen] at hres
        rw [hq] at hres
        cases hres
    · rw [hap]
      have h0 := c2 hq
      unfold AppState.answered at h0
      rw [if_pos hsome] at h0
      obtain ⟨f1, _, f3, _, _, f6⟩ := handleNextQuestion_final_fields st.captured now
        { st with pendingNext := [] } subject hadv h.2.1
      have f7 := handleNextQuestion_final_score st.captured now
        { st with pendingNext := [] } subject hadv h.2.1
      refine ⟨?_, ?_, ?_⟩
      · rw [commit_currentIndex, f3]
        exact c1
      · intro hq2
        rw [commit_screen, f1] at hq2
        cases hq2
      · intro _
        rw [commit_score, commit_wrongAnswersThisSession, f6, f7]
        have hlen : st.questions.length = n := h.1
        have hn : st.currentIndex + 1 = n := by omega
        rw [← hn]
        exact h0

theorem ScoreInv_run (n : Nat) (subject : Subject) (ops : List SessionOp) (st : AppState)
    (h : SessionInv n subject st) (hc : ScoreInv n st) : ScoreInv n (runSession st ops) := by
  induction ops generalizing st with
  | nil => exact hc
  | cons op ops ih =>
    exact ih (op.apply st) (SessionInv_apply n subject st op h) (ScoreInv_apply n subject st op h hc)

theorem ScoreInv_of_start (n : Nat) (st : AppState) (hn : 1 ≤ n) (h : SessionStart n st) :
    ScoreInv n st := by
  obtain ⟨h1, _, h3, h4, h5, h6, _⟩ := h
  refine ⟨by omega, ?_, ?_⟩
  · intro _
    unfold AppState.answered
    rw [h3, h4, h5, h6]
    rfl
  · intro hres
    rw [h1] at hres
    cases hres

/-! ## Claims on the score -/

/-- In every state reached from the start of a session (a quiz or an error
review) over `n ≥ 1` questions, with no timer of an earlier session pending, by
answer, skip and next operations, the index is below `n` and, while the
session runs, the score plus the size of the session wrong set is the number
of answered questions; and when a `next` finalizes, the score that the result
screen then shows is `n` minus the size of the wrong set, which is the amount
added to `totalCorrect` of the subject and the score of every completion
record that the finalization writes. -/
theorem score_tracks_answers (n : Nat) (subject : Subject) (st0 : AppState)
    (hn : 1 ≤ n) (h0 : SessionStart n st0) (hs : st0.selectedSubject = some subject)
    (ops : List SessionOp) :
    (runSession st0 ops).currentIndex < n ∧
    ((runSession st0 ops).screen = Screen.quiz →
      (runSession st0 ops).score + ((runSession st0 ops).wrongAnswersThisSession.length : Int) =
        ((runSession st0 ops).answered : Int)) ∧
    (∀ now, (runSession st0 ops).screen = Screen.quiz →
      ((SessionOp.next now).apply (runSession st0 ops)).screen = Screen.result →
      ((SessionOp.next now).apply (runSession st0 ops)).score =
        (n : Int) - ((runSession st0 ops).wrongAnswersThisSession.length : Int) ∧
      (((SessionOp.next now).apply (runSession st0 ops)).statsOf subject.id).totalCorrect =
        ((runSession st0 ops).statsOf subject.id).totalCorrect +
          ((SessionOp.next now).apply (runSession st0 ops)).score ∧
      ∀ key r,
        ((SessionOp.next now).apply (runSession st0 ops)).recordOf subject.id key = some r →
        (runSession st0 ops).recordOf subject.id key ≠ some r →
        r.score = ((SessionOp.next now).apply (runSession st0 ops)).score) := by
  have hinv := SessionInv_run n subject ops st0 (SessionInv_of_start n subject st0 hn h0 hs)
  have hsc := ScoreInv_run n subject ops st0 (SessionInv_of_start n subject st0 hn h0 hs)
    (ScoreInv_of_start n st0 hn h0)
  refine ⟨hsc.1, hsc.2.1, ?_⟩
  intro now hquiz hfin
  obtain ⟨hap, hnadv, hcs, hlen, _⟩ := session_finalization n subject st0 hn h0 hs ops now hquiz hfin
  have hsc2 := ScoreInv_apply n subject _ (SessionOp.next now) hinv hsc
  generalize runSession st0 ops = st at hinv hsc hquiz hfin hap hnadv hcs hlen hsc2 ⊢
  obtain ⟨_, _, _, _, _, f6⟩ := handleNextQuestion_final_fields st.captured now
    { st with pendingNext := [] } subject hnadv hcs
  have hw : ((SessionOp.next now).apply st).wrongAnswersThisSession =
      st.wrongAnswersThisSession := by
    rw [hap, commit_wrongAnswersThisSession, f6]
  have hscore : ((SessionOp.next now).apply st).score =
      (n : Int) - (st.wrongAnswersThisSession.length : Int) := by
    have := hsc2.2.2 hfin
    rw [hw] at this
    omega
  refine ⟨hscore, ?_, ?_⟩
  · rw [hscore, hap, commit_statsOf]
    unfold AppState.statsOf
    rw [handleNextQuestion_final_stats st.captured now { st with pendingNext := [] } subject
      hnadv hcs, Obj.get_set_self]
    simp only [Option.getD_some, hlen]
    rfl
  · intro key r hr hne
    rw [hscore]
    rw [hap, commit_recordOf] at hr
    have hne2 : ({ st with pendingNext := [] } : AppState).recordOf subject.id key ≠ some r :=
      hne
    obtain ⟨_, hrec⟩ := finalization_written_record st.captured now
      { st with pendingNext := [] } subject hnadv hcs key r hr hne2
    rw [hrec, hlen]
    rfl

set_option maxRecDepth 1000000 in
/-- The sample session after one skip, one wrong and one correct answer: the
score is 1 and the wrong set has one entry. -/
theorem score_tracks_answers_witness :
    SessionStart 2 sampleSession ∧
    (runSession sampleSession sampleOps).score = 1 ∧
    (runSession sampleSession sampleOps).wrongAnswersThisSession.length = 1 ∧
    (runSession sampleSession sampleOps).currentIndex < 2 :=
  ⟨by unfold SessionStart; decide, by decide, by decide,
    (score_tracks_answers 2 sampleSubject sampleSession (by decide)
      (by unfold SessionStart; decide) (by decide) sampleOps).1⟩

set_option maxRecDepth 1000000 in
/-- C29 fails on the code, through the timer that is never cleared (the
defect of C23). Along `staleAdvanceTrace` the timer of the abandoned session
advances the new session past its first question; the session ends with one
question answered, the result screen shows the score 1 of 2, and the
finalization records `finalScore = 2 - 0 = 2` in the completion record and in
`totalCorrect`. Along `staleIndexTrace` the session reaches the index 2 on the
quiz screen with 2 questions. -/
theorem stale_timer_score_mismatch :
    (runApp [sampleSubject] sampleWelcome staleAdvanceTrace).screen = Screen.result ∧
    (runApp [sampleSubject] sampleWelcome staleAdvanceTrace).questions.length = 2 ∧
    (runApp [sampleSubject] sampleWelcome staleAdvanceTrace).score = 1 ∧
    (runApp [sampleSubject] sampleWelcome staleAdvanceTrace).wrongAnswersThisSession = [] ∧
    (runApp [sampleSubject] sampleWelcome staleAdvanceTrace).recordOf "s" "variant_1" =
      some ⟨2, 2, JsNumber.finite 100, 4100⟩ ∧
    ((runApp [sampleSubject] sampleWelcome staleAdvanceTrace).statsOf "s").totalCorrect = 2 ∧
    (runApp [sampleSubject] sampleWelcome staleIndexTrace).screen = Screen.quiz ∧
    (runApp [sampleSubject] sampleWelcome staleIndexTrace).questions.length = 2 ∧
    (runApp [sampleSubject] sampleWelcome staleIndexTrace).currentIndex = 2 := by
  decide

/-! ## Lemmas on the seeded shuffle of a mapped list -/

theorem shuffleArraySeeded_loop_map {α β : Type} (f : α → β) (i : Nat) (state : Int)
    (xs : List α) :
    shuffleArraySeeded.loop i state (xs.map f) = (shuffleArraySeeded.loop i state xs).map f := by
  induction i generalizing state xs with
  | zero => rfl
  | succ i ih =>
    simp only [shuffleArraySeeded.loop]
    rw [swapAt_map, ih]

theorem shuffleArraySeeded_map {α β : Type} (f : α → β) (xs : List α) (seed : Int) :
    shuffleArraySeeded (xs.map f) seed = (shuffleArraySeeded xs seed).map f := by
  unfold shuffleArraySeeded
  rw [List.length_map, shuffleArraySeeded_loop_map]

theorem map_getD_range {α : Type} (xs : List α) (d : α) :
    (List.range xs.length).map (fun i => xs.getD i d) = xs := by
  apply List.ext_getElem?
  intro i
  rw [List.getElem?_map]
  by_cases hi : i < xs.length
  · rw [List.getElem?_range hi, List.getElem?_eq_getElem hi]
    simp [List.getD_eq_getElem?_getD, List.getElem?_eq_getElem hi]
  · rw [List.getElem?_eq_none (by simpa using hi), List.getElem?_eq_none (by simpa using hi)]
    rfl

theorem variantBlocks_map {α β : Type} (f : α → β) (l : List α) (K : Nat) :
    variantBlocks (l.map f) K = (variantBlocks l K).map fun p => (p.1, p.2.map f) := by
  unfold variantBlocks
  simp only [List.length_map, List.map_map, slice_map]
  rfl

theorem generateVariantsFromFlat_blocks (qs : List Question) (K : Nat) (sid : String) :
    generateVariantsFromFlat qs K sid =
      (variantBlocks (shuffleArraySeeded qs (stringToSeed (sid ++ "_variants"))) K).map
        fun p => (p.1, p.2.mapIdx fun idx q => restamp p.1 idx q) := by
  rw [generateVariantsFromFlat_eq]
  unfold variantBlocks
  simp only [List.map_map, shuffleArraySeeded_length]
  rfl

/-! ## Claims on the seeded shuffle -/

/-- C30: the seeded shuffle commutes with mapping a function over the list,
`shuffleArraySeeded (map f xs) seed = map f (shuffleArraySeeded xs seed)`; and
the variants of `generateVariantsFromFlat` are the blocks of input positions
`variantPositions N K subjectId`, which depend on the length `N` of the list,
on `K` and on the subject id only, filled with the restamped questions found at
these positions, so that two lists of the same length are partitioned in the
same way. -/
theorem shuffleArraySeeded_commutes_with_map :
    (∀ (α β : Type) (f : α → β) (xs : List α) (seed : Int),
      shuffleArraySeeded (xs.map f) seed = (shuffleArraySeeded xs seed).map f) ∧
    (∀ (qs : List Question) (K : Nat) (sid : String) (d : Question),
      generateVariantsFromFlat qs K sid =
        (variantPositions qs.length K sid).map fun p =>
          (p.1, p.2.mapIdx fun idx i => restamp p.1 idx (qs.getD i d))) := by
  refine ⟨fun α β f xs seed => shuffleArraySeeded_map f xs seed, ?_⟩
  intro qs K sid d
  rw [generateVariantsFromFlat_blocks]
  unfold variantPositions
  conv_lhs => rw [← map_getD_range qs d, shuffleArraySeeded_map, variantBlocks_map]
  rw [List.map_map]
  apply List.map_congr_left
  intro p _
  simp only [Function.comp]
  congr 1
  apply List.ext_getElem?
  intro k
  simp only [List.getElem?_mapIdx, List.getElem?_map]
  cases p.2[k]? <;> rfl

end QuizApp

